import Mathlib

set_option maxRecDepth 2000000

/-!
Verification of the Delpher source-block updater
(`addDelpherURLsToWikitext-InternetArchiveFiles.py`).

Shallow embedding notes.  Wikitext pages are modelled as `List Char`.
Python's regular-expression engine is embedded by a hand-derived
deterministic matcher (`matchCore` below) that follows the backtracking
semantics of the concrete pattern `OLD_BLOCK_RE`; the few greedy/lazy
choices of that pattern are all forced (the greedy run before a literal
must stop at the first non-whitespace character, the greedy run before a
newline must end at the last newline of the run because the continuation
is independent of the choice, and the lazy identifier/pdf bodies have a
forced closing position), so a deterministic function is faithful.
Character classes are modelled over the character set the script is run
on in practice: whitespace is Python's ASCII-range str whitespace, and
the word class of the pdf path is ASCII alphanumerics plus underscore.
Fallible code (`raise SystemExit(1)`) is modelled with `Except`.
-/

namespace DW

/-- Python `\s` (and `str.isspace`) over the ASCII range. -/
def isWsC (c : Char) : Bool :=
  c = ' ' || c = '\t' || c = '\n' || c = '\x0b' || c = '\x0c' || c = '\r' ||
  c = '\x1c' || c = '\x1d' || c = '\x1e' || c = '\x1f'

/-- ASCII lower-casing, used for `re.IGNORECASE` literal comparison. -/
def lowerA (c : Char) : Char :=
  if 'A' ≤ c ∧ c ≤ 'Z' then Char.ofNat (c.toNat + 32) else c

/-- Case-insensitive character comparison (`re.IGNORECASE`). -/
def ciEqC (a b : Char) : Bool := lowerA a = lowerA b

def isDigitA (c : Char) : Bool := '0' ≤ c && c ≤ '9'

def isAlphaA (c : Char) : Bool := ('a' ≤ c && c ≤ 'z') || ('A' ≤ c && c ≤ 'Z')

/-- The class `[A-Za-z0-9]` of `URN_FROM_IA_RE`. -/
def isAlnumA (c : Char) : Bool := isAlphaA c || isDigitA c

/-- Python `\w` (ASCII scope). -/
def isWordC (c : Char) : Bool := isAlnumA c || c = '_'

/-- The pdf-path class `[\w\-\./]` of `OLD_BLOCK_RE`. -/
def isPdfBodyC (c : Char) : Bool := isWordC c || c = '-' || c = '.' || c = '/'

/-- Characters excluded from the identifier capture `[^}\n\r]`. -/
def isStopC (c : Char) : Bool := c = '\x7d' || c = '\n' || c = '\r'

/-- Length of the leading whitespace run (how far `\s*` reaches). -/
def wsCount : List Char → Nat
  | [] => 0
  | c :: t => if isWsC c then wsCount t + 1 else 0

/-- Index of the last character inside the leading whitespace run that
satisfies `p`, if any.  With `p = (· = '\n')` this is the greedy
resolution of `\s*\n`; the other use resolves the backtracking of
`\s*[^}\n\r]+?` when the run is followed by a brace. -/
def lastIdxP (p : Char → Bool) : List Char → Option Nat
  | [] => none
  | c :: t =>
    if isWsC c then
      match lastIdxP p t with
      | some j => some (j + 1)
      | none => if p c then some 0 else none
    else none

/-- Number of characters before the first `[}\n\r]` stop character. -/
def stopCount : List Char → Nat
  | [] => 0
  | c :: t => if isStopC c then 0 else stopCount t + 1

/-- Case-insensitive literal test: `pat` is a prefix of the text. -/
def ciStarts : List Char → List Char → Bool
  | [], _ => true
  | _ :: _, [] => false
  | p :: ps, c :: cs => ciEqC p c && ciStarts ps cs

/-- Case-sensitive literal test (used by the un-flagged strict pdf check). -/
def csStarts : List Char → List Char → Bool
  | [], _ => true
  | _ :: _, [] => false
  | p :: ps, c :: cs => (p = c) && csStarts ps cs

/-- Length after removing trailing whitespace. -/
def rstripLen (l : List Char) : Nat := l.length - wsCount l.reverse

/-- Python `str.strip()` (ASCII-range whitespace). -/
def pyStrip (l : List Char) : List Char :=
  let d := l.dropWhile fun c => isWsC c
  d.take (rstripLen d)

def srcLit : List Char := ("source").data
def internetLit : List Char := ("internet").data
def archiveLit : List Char := ("archive").data
def linkLit : List Char := ("link").data
def httpLit : List Char := ("http").data
def dlLit : List Char := ("://archive.org/download/").data
def pdfExtLit : List Char := (".pdf").data

/-- Lazy body of `[\w\-\./]+?\.pdf` after its first character: at each
offset the engine first tries the continuation `.pdf`, then extends the
body by one class character.  Returns the offset where `.pdf` begins. -/
def pdfScanA : List Char → Option Nat
  | [] => none
  | c :: t =>
    if ciStarts pdfExtLit (c :: t) then some 0
    else if isPdfBodyC c then (pdfScanA t).map (· + 1) else none

/-- Total length of `body ++ ".pdf"` for the lazy pdf tail, if it matches. -/
def pdfBodyEnd : List Char → Option Nat
  | [] => none
  | c :: t => if isPdfBodyC c then (pdfScanA t).map (· + 1 + 4) else none

/-- The capture `https?://archive\.org/download/[\w\-\./]+?\.pdf` of
`OLD_BLOCK_RE` (case-insensitive), matched at the head of `l`.
Returns the captured characters together with the consumed length. -/
def pdfCore (l : List Char) : Option (List Char × Nat) :=
  if ciStarts httpLit l then
    let k := if (l.drop 4).head?.map lowerA = some 's' then 5 else 4
    if ciStarts dlLit (l.drop k) then
      let b := k + dlLit.length
      match pdfBodyEnd (l.drop b) with
      | some bl => some (l.take (b + bl), b + bl)
      | none => none
    else none
  else none

/-- The segment `\s*(?P<iaid>[^}\n\r]+?)\s*\}\}` of `OLD_BLOCK_RE`,
entered just after the `\|`.  The closing `}}` position is forced, so
the greedy/lazy interplay resolves deterministically: if the first
non-whitespace character is already `}` the engine backtracks the
leading `\s*` and the identifier is the last non-newline whitespace
character of the run; otherwise the identifier runs from the first
non-whitespace character to the last non-whitespace character before
the first `[}\n\r]`.  Returns the capture and the consumed length
(ending just after `}}`). -/
def iaidCore (l : List Char) : Option (List Char × Nat) :=
  let R := wsCount l
  match (l.drop R).head? with
  | none => none
  | some c =>
    if c = '\x7d' then
      match lastIdxP (fun ch => !(ch = '\n' || ch = '\r')) l with
      | none => none
      | some j =>
        if (l.drop (R + 1)).head? = some '\x7d' then
          some ((l.drop j).take 1, R + 2)
        else none
    else
      let F := R + stopCount (l.drop R)
      let e := R + rstripLen ((l.take F).drop R)
      let pp := F + wsCount (l.drop F)
      if (l.drop pp).head? = some '\x7d' && (l.drop (pp + 1)).head? = some '\x7d' then
        some ((l.take e).drop R, pp + 2)
      else none

/-- Result of matching `OLD_BLOCK_RE` at the head of a suffix:
`pfxEnd` is the length of the captured `source=` header line
(group `prefix`), `iaid`/`pdf` the other two captures, and `endOff`
the total number of characters consumed by the match. -/
structure MRes where
  pfxEnd : Nat
  iaid : List Char
  pdf : List Char
  endOff : Nat
  deriving Repr, DecidableEq

/-- The group `(?P<prefix>\\|\\s*source\\s*=\\s*\\n)` of `OLD_BLOCK_RE` at
the head of `l`: the consumed length (= the captured header line) is
returned.  The greedy `\\s*\\n` resolves to the last newline of the
whitespace run. -/
def hdrCore (l : List Char) : Option Nat :=
  if l.head? = some '|' then
    let i2 := 1 + wsCount (l.drop 1)
    if ciStarts srcLit (l.drop i2) then
      let i4 := (i2 + 6) + wsCount (l.drop (i2 + 6))
      if (l.drop i4).head? = some '=' then
        match lastIdxP (fun ch => ch = '\n') (l.drop (i4 + 1)) with
        | none => none
        | some j => some (i4 + 1 + j + 1)
      else none
    else none
  else none

/-- The segment `\\s*:\\s*\\{\\{\\s*Internet\\s+Archive\\s+link\\s*\\|` of
`OLD_BLOCK_RE`, entered right after the captured header line; returns
the consumed length (ending just after the `\\|`). -/
def midCore (l : List Char) : Option Nat :=
  let i6 := wsCount l
  if (l.drop i6).head? = some ':' then
    let i7 := (i6 + 1) + wsCount (l.drop (i6 + 1))
    if (l.drop i7).head? = some '\x7b' && (l.drop (i7 + 1)).head? = some '\x7b' then
      let i8 := (i7 + 2) + wsCount (l.drop (i7 + 2))
      if ciStarts internetLit (l.drop i8) then
        let w1 := wsCount (l.drop (i8 + 8))
        if w1 ≠ 0 && ciStarts archiveLit (l.drop (i8 + 8 + w1)) then
          let i9 := i8 + 8 + w1 + 7
          let w2 := wsCount (l.drop i9)
          if w2 ≠ 0 && ciStarts linkLit (l.drop (i9 + w2)) then
            let i10 := i9 + w2 + 4
            let i11 := i10 + wsCount (l.drop i10)
            if (l.drop i11).head? = some '|' then some (i11 + 1) else none
          else none
        else none
      else none
    else none
  else none

/-- The tail `\\s*\\n\\s*:\\s*(?P<pdf>...)\\s*\\n?` of `OLD_BLOCK_RE`,
entered right after the closing braces; returns the pdf capture and the
consumed length.  The final `\\s*\\n?` swallows the whole trailing
whitespace run. -/
def tailCore (l : List Char) : Option (List Char × Nat) :=
  match lastIdxP (fun ch => ch = '\n') l with
  | none => none
  | some j2 =>
    let i13 := j2 + 1
    let i14 := i13 + wsCount (l.drop i13)
    if (l.drop i14).head? = some ':' then
      let i15 := (i14 + 1) + wsCount (l.drop (i14 + 1))
      match pdfCore (l.drop i15) with
      | none => none
      | some (pdf, plen) =>
        let i16 := i15 + plen
        some (pdf, i16 + wsCount (l.drop i16))
    else none

/-- Deterministic matcher for `OLD_BLOCK_RE` at the head of `l`:
header group, middle segment, identifier segment, pdf tail (see the
module comment for why determinism is faithful here). -/
def matchCore (l : List Char) : Option MRes :=
  match hdrCore l with
  | none => none
  | some pE =>
    match midCore (l.drop pE) with
    | none => none
    | some q =>
      match iaidCore (l.drop (pE + q)) with
      | none => none
      | some (iaid, c) =>
        match tailCore (l.drop (pE + q + c)) with
        | none => none
        | some (pdf, e) => some ⟨pE, iaid, pdf, pE + q + c + e⟩

/-- An absolute match found by `finditer`. -/
structure Mtch where
  start : Nat
  pfxEnd : Nat
  endPos : Nat
  iaid : List Char
  pdf : List Char
  deriving Repr, DecidableEq

/-- Try the pattern at absolute position `i` of `s`. -/
def matchAtAbs (s : List Char) (i : Nat) : Option Mtch :=
  (matchCore (s.drop i)).map fun r =>
    ⟨i, i + r.pfxEnd, i + r.endOff, r.iaid, r.pdf⟩

/-- The scanning loop of `re.finditer`: try every position in order,
emit non-overlapping matches, continue after each match. -/
def findAux (s : List Char) : Nat → Nat → List Mtch
  | 0, _ => []
  | fuel + 1, i =>
    if i ≤ s.length then
      match matchAtAbs s i with
      | some m => m :: findAux s fuel (if m.endPos ≤ i then i + 1 else m.endPos)
      | none => findAux s fuel (i + 1)
    else []

/-- `list(OLD_BLOCK_RE.finditer(text))`. -/
def findAll (s : List Char) : List Mtch := findAux s (s.length + 1) 0

/-- Errors: every `logging.critical(...); raise SystemExit(1)` site is
modelled as an `Except.error` with the spec's name for its class. -/
inductive TErr where
  | malformedIdentifier
  | malformedUrl
  | ambiguousEditTarget
  deriving Repr, DecidableEq

/-- Full match of `URN_FROM_IA_RE = ^([A-Za-z0-9]+)_(\d+)(?:_.*)?$`
(`re.ASCII`): maximal alphanumeric run, underscore, maximal digit run,
then an optional `_`-suffix whose `.*` cannot cross a newline; Python's
`$` also accepts a single newline at the very end of the string. -/
def urnParse (s : List Char) : Option (List Char × List Char) :=
  let a := (s.takeWhile isAlnumA).length
  if a = 0 then none
  else if (s.drop a).head? = some '_' then
    let d := ((s.drop (a + 1)).takeWhile isDigitA).length
    if d = 0 then none
    else
      let rest := s.drop (a + 1 + d)
      if rest = [] || rest = ['\n'] ||
          (rest.head? = some '_' && ((rest.drop 1).take ((rest.drop 1).length - 1)).all (· ≠ '\n')) then
        some (s.take a, (s.drop (a + 1)).take d)
      else none
  else none

/-- `derive_delpher_urn`: strip, reject empty, full-match the URN
pattern, and format `prefix ++ ":" ++ number`.  Both `SystemExit`
sites (empty input, pattern mismatch) report a malformed identifier. -/
def derive_delpher_urn (ia : List Char) : Except TErr (List Char) :=
  let s := pyStrip ia
  if s = [] then .error .malformedIdentifier
  else
    match urnParse s with
    | some (p, n) => .ok (p ++ ':' :: n)
    | none => .error .malformedIdentifier

/-- The strict, case-sensitive full match
`^https?://archive\.org/download/[\w\-\./]+?\.pdf$` used by
`build_new_source_block` (note: unlike `OLD_BLOCK_RE` this check has no
`re.IGNORECASE`); Python's `$` also accepts one trailing newline. -/
def pdfStrictFull (s : List Char) : Bool :=
  csStarts httpLit s &&
  (let k := if (s.drop 4).head? = some 's' then 5 else 4
   csStarts dlLit (s.drop k) &&
   (let r := s.drop (k + dlLit.length)
    let r2 := if r.getLast? = some '\n' then r.take (r.length - 1) else r
    decide (5 ≤ r2.length) && (r2.take (r2.length - 4)).all isPdfBodyC &&
      csStarts pdfExtLit (r2.drop (r2.length - 4))))

def blockL1 : List Char := ("Internet Archive").data
def blockL2a : List Char := ("* Website: \x7b\x7bInternet Archive link|").data
def blockL2b : List Char := ("\x7d\x7d").data
def blockL3 : List Char := ("* Direct download: ").data
def blockL4 : List Char := ("Delpher").data
def resolverBase : List Char := ("https://resolver.kb.nl/resolve?urn=").data
def blockL5a : List Char := ("* Website: ").data
def blockL6a : List Char := ("* Direct download: ").data
def blockL6b : List Char := (":mpeg21:pdf").data

/-- The six-line replacement text emitted by `build_new_source_block`
(the `"\n".join([...])` at its end). -/
def blockChars (ia spdf urn : List Char) : List Char :=
  blockL1 ++ '\n' :: blockL2a ++ ia ++ blockL2b ++
  '\n' :: blockL3 ++ spdf ++
  '\n' :: blockL4 ++
  '\n' :: blockL5a ++ resolverBase ++ urn ++
  '\n' :: blockL6a ++ resolverBase ++ urn ++ blockL6b

/-- `build_new_source_block`: validates emptiness of both arguments,
the strict pdf URL shape, derives the URN, and emits the block. -/
def build_new_source_block (ia pdfUrl : List Char) : Except TErr (List Char) :=
  if pyStrip ia = [] then .error .malformedIdentifier
  else if pyStrip pdfUrl = [] then .error .malformedUrl
  else
    let spdf := pyStrip pdfUrl
    if !pdfStrictFull spdf then .error .malformedUrl
    else
      match derive_delpher_urn ia with
      | .error e => .error e
      | .ok urn => .ok (blockChars ia spdf urn)

/-- `transform_wikitext`: zero matches is a no-op, two or more matches
abort, one match is replaced by the captured header line followed by
the rebuilt block and one newline. -/
def transform_wikitext (l : List Char) : Except TErr (List Char) :=
  match findAll l with
  | [] => .ok l
  | [m] =>
    let iaidS := pyStrip m.iaid
    let pdfS := pyStrip m.pdf
    match derive_delpher_urn iaidS with
    | .error e => .error e
    | .ok _ =>
      match build_new_source_block iaidS pdfS with
      | .error e => .error e
      | .ok blk =>
        .ok (l.take m.start ++ ((l.take m.pfxEnd).drop m.start) ++ blk ++ '\n' :: l.drop m.endPos)
  | _ :: _ :: _ => .error .ambiguousEditTarget

/-- Number of `OLD_BLOCK_RE` matches `finditer` reports in a body. -/
def countMatches (l : List Char) : Nat := (findAll l).length

/-! ## Workload slicer (`apply_slice_records`) -/

inductive SliceErr where
  | conflictingSliceMode
  | badRangeFormat
  | badRangeValues
  | sliceOutOfRange
  deriving Repr, DecidableEq

def natOfDigits (l : List Char) : Nat :=
  l.foldl (fun a c => a * 10 + (c.toNat - 48)) 0

/-- The slicer's range parser `^\s*(\d+)\s*[-:]\s*(\d+)\s*$`. -/
def parseRange (r : List Char) : Option (Nat × Nat) :=
  let r1 := r.drop (wsCount r)
  let d1 := r1.takeWhile isDigitA
  if d1 = [] then none
  else
    let r2 := r1.drop d1.length
    let r3 := r2.drop (wsCount r2)
    match r3.head? with
    | some c =>
      if c = '-' || c = ':' then
        let r4 := r3.drop 1
        let r5 := r4.drop (wsCount r4)
        let d2 := r5.takeWhile isDigitA
        if d2 = [] then none
        else
          let r6 := r5.drop d2.length
          if r6.drop (wsCount r6) = [] then some (natOfDigits d1, natOfDigits d2)
          else none
      else none
    | none => none

/-- `apply_slice_records`, with the environment values `RANGE` and
`HEAD` passed explicitly.  Mirrors the source order of checks: the
empty-worklist early return comes before the conflicting-mode check. -/
def apply_slice_records (RANGE : List Char) (HEAD : Int) (records : List α) :
    Except SliceErr (List α) :=
  if records.length = 0 then .ok records
  else
    let hasRange := pyStrip RANGE ≠ []
    let hasHead := 0 < HEAD
    if hasRange ∧ hasHead then .error .conflictingSliceMode
    else if hasRange then
      match parseRange RANGE with
      | none => .error .badRangeFormat
      | some (a, b) =>
        if a < 1 ∨ b < a then .error .badRangeValues
        else if records.length < a ∨ records.length < b then .error .sliceOutOfRange
        else .ok ((records.take b).drop (a - 1))
    else if hasHead then
      if HEAD < 1 ∨ (records.length : Int) < HEAD then .error .sliceOutOfRange
      else .ok (records.take HEAD.toNat)
    else .ok records

/-! ## Record loader (`get_records`) -/

/-- One spreadsheet cell of the pageid column, as seen through
`pd.to_numeric(..., errors="coerce")`: blanks read as NaN, numeric
cells keep their value, strings parse to a number when they are
numeric text and to NaN otherwise. -/
inductive Cell where
  | blank
  | intC (i : Int)
  | floatC (q : ℚ)
  | strNum (q : ℚ)
  | strOther
  deriving Repr, DecidableEq

def toNumeric : Cell → Option ℚ
  | .blank => none
  | .intC i => some i
  | .floatC q => some q
  | .strNum q => some q
  | .strOther => none

inductive RecErr where
  | missingColumn
  | invalidIdentifierValue
  | noRecords
  | tooManyRecords
  deriving Repr, DecidableEq

structure Rec where
  pageid : Int
  mid : List Char
  deriving Repr, DecidableEq

/-- `astype(int)` on a validated numeric value (truncation toward zero,
here applied only to positive values). -/
def ratTrunc (q : ℚ) : Int := q.num / (q.den : Int)

def dedupByPid (l : List Rec) : List Rec :=
  (l.foldl (fun (acc : List Rec × List Int) r =>
    if r.pageid ∈ acc.2 then acc else (acc.1 ++ [r], acc.2 ++ [r.pageid])) ([], [])).1

/-- `get_records`: validation of the pageid column (`to_numeric` with
coercion, reject NaN and non-positive), truncation to `int`,
de-duplication keeping first occurrences, and the `MAX_FILES` ceiling.
The pageid column is `none` when absent from the sheet. -/
def get_records (maxFiles : Int) (col : Option (List Cell)) : Except RecErr (List Rec) :=
  match col with
  | none => .error .missingColumn
  | some cells =>
    if cells.any fun c => (toNumeric c).isNone || decide ((toNumeric c).getD 0 ≤ 0) then
      .error .invalidIdentifierValue
    else
      let recs := cells.map fun c =>
        let pid := ratTrunc ((toNumeric c).getD 0)
        ⟨pid, 'M' :: (toString pid).data⟩
      let uniq := dedupByPid recs
      if uniq = [] then .error .noRecords
      else if (maxFiles : Int) < (uniq.length : Int) then .error .tooManyRecords
      else .ok uniq

/-! ## Page editor save (`save_wikitext_by_pageid`)

The remote wiki is abstracted as an environment prescribing the outcome
of each call the function can make; the function's own control flow
(token fetch, edit, substring test on the error text, the re-login
retry) is mirrored exactly, and the calls it performs are recorded. -/

inductive EditCallRes where
  | apiError (code : List Char)
  | transportError
  | respError
  | respResult (result : List Char) (nochange : Bool)
  deriving Repr, DecidableEq

structure SaveEnv where
  token1Ok : Bool
  edit1 : EditCallRes
  loginOk : Bool
  token2Ok : Bool
  edit2 : EditCallRes
  deriving Repr, DecidableEq

inductive SaveAct where
  | getToken
  | editCall
  | loginCall
  deriving Repr, DecidableEq

inductive SaveErr where
  | tokenFailure
  | retryFailure
  | apiFailure
  | transportFailure
  | editRejected
  deriving Repr, DecidableEq

/-- Substring test used on the stringified `APIError`. -/
def isSubstrAt (pat s : List Char) : Bool := csStarts pat s

def isSubstr (pat : List Char) : List Char → Bool
  | [] => isSubstrAt pat []
  | c :: t => isSubstrAt pat (c :: t) || isSubstr pat t

/-- `any(k in err for k in ("assertuserfailed", "assertnameduserfailed",
"notloggedin", "badtoken"))`. -/
def isAuthErr (err : List Char) : Bool :=
  isSubstr ("assertuserfailed").data err ||
  isSubstr ("assertnameduserfailed").data err ||
  isSubstr ("notloggedin").data err ||
  isSubstr ("badtoken").data err

/-- Shared tail of `save_wikitext_by_pageid`: validation of the edit
response (`"error" in resp`, then `result == "Success"` or
`nochange`). -/
def validateResp (r : EditCallRes) : Except SaveErr Bool :=
  match r with
  | .respError => .error .editRejected
  | .respResult result nochange =>
    if result = ("Success").data || nochange then .ok true else .error .editRejected
  | _ => .error .editRejected

/-- `save_wikitext_by_pageid` under a `SaveEnv`, returning the result
together with the trace of remote calls performed.  On an auth/token
`APIError` the code logs "re-logging and retrying once", calls
`site.login(USERNAME, PASSWORD)`, refreshes the CSRF token and retries
the edit; any other failure aborts. -/
def save_wikitext_by_pageid (env : SaveEnv) : Except SaveErr Bool × List SaveAct :=
  if !env.token1Ok then (.error .tokenFailure, [.getToken])
  else
    match env.edit1 with
    | .apiError code =>
      if isAuthErr code then
        if !env.loginOk then (.error .retryFailure, [.getToken, .editCall, .loginCall])
        else if !env.token2Ok then
          (.error .retryFailure, [.getToken, .editCall, .loginCall, .getToken])
        else
          match env.edit2 with
          | .apiError _ =>
            (.error .retryFailure, [.getToken, .editCall, .loginCall, .getToken, .editCall])
          | .transportError =>
            (.error .retryFailure, [.getToken, .editCall, .loginCall, .getToken, .editCall])
          | r => (validateResp r, [.getToken, .editCall, .loginCall, .getToken, .editCall])
      else (.error .apiFailure, [.getToken, .editCall])
    | .transportError => (.error .transportFailure, [.getToken, .editCall])
    | r => (validateResp r, [.getToken, .editCall])

/-! ## Batch runner (`process_records`) and status writer -/

/-- Per-record terminal outcome of the fetch/transform/save sequence,
abstracting the remote calls. -/
inductive Outcome where
  | saved
  | skippedNoOld
  | errored
  deriving Repr, DecidableEq

def STATUS_PROCESSED : List Char := ("Successfully processed").data
def STATUS_SKIPPED_NO_OLD : List Char := ("Skipped - no old pattern found").data
def STATUS_ERROR : List Char := ("Skipped - other error").data

def statusOf : Outcome → List Char
  | .saved => STATUS_PROCESSED
  | .skippedNoOld => STATUS_SKIPPED_NO_OLD
  | .errored => STATUS_ERROR

/-- `status_by_pageid[pid] = status` on an insertion-ordered map. -/
def setStatus (m : List (Int × List Char)) (pid : Int) (st : List Char) :
    List (Int × List Char) :=
  if m.any fun e => e.1 = pid then
    m.map fun e => if e.1 = pid then (pid, st) else e
  else m ++ [(pid, st)]

structure RunSt where
  status : List (Int × List Char)
  sinceFlush : Nat
  events : List (List (Int × List Char))
  deriving Repr, DecidableEq

/-- One iteration of the `process_records` loop on a record whose
fetch/transform/save sequence ends in the given outcome: record the
status; on a successful save bump the success counter and, when the
checkpoint threshold is reached, invoke the status writer with the
accumulated map and reset the counter. -/
def stepRecord (checkpointEvery : Int) (st : RunSt) (r : Int × Outcome) : RunSt :=
  let st1 : RunSt := { st with status := setStatus st.status r.1 (statusOf r.2) }
  match r.2 with
  | .saved =>
    let n := st.sinceFlush + 1
    if 0 < checkpointEvery ∧ (checkpointEvery : Int) ≤ (n : Int) then
      { st1 with sinceFlush := 0, events := st1.events ++ [st1.status] }
    else { st1 with sinceFlush := n }
  | _ => st1

/-- The `process_records` loop followed by its conditional final flush
of a non-empty remainder. -/
def process_records (checkpointEvery : Int) (recs : List (Int × Outcome)) : RunSt :=
  let st := recs.foldl (stepRecord checkpointEvery) ⟨[], 0, []⟩
  if 0 < checkpointEvery ∧ 0 < st.sinceFlush then
    { st with events := st.events ++ [st.status] }
  else st

/-- Status-writer invocations over a whole run: the checkpoint flushes
of `process_records` followed by the unconditional
`write_status_to_excel(status_by_pageid)` that `main` performs after
the loop returns. -/
def fullRunWrites (checkpointEvery : Int) (recs : List (Int × Outcome)) :
    List (List (Int × List Char)) :=
  let st := process_records checkpointEvery recs
  st.events ++ [st.status]

/-! ## Status writer (`write_status_to_excel`) -/

structure XRow where
  pid : Cell
  status : List Char
  deriving Repr, DecidableEq

inductive XAct where
  | readSheet
  | loadSheetNames
  | writeSheet
  deriving Repr, DecidableEq

/-- `write_status_to_excel`: an empty status map returns immediately;
otherwise the sheet is read, each entry is matched to its rows by
pageid value, and the sheet is written back.  The workbook state and
the performed I/O actions are returned. -/
def write_status_to_excel (m : List (Int × List Char)) (wb : List XRow) :
    List XRow × List XAct :=
  if m.isEmpty then (wb, [])
  else
    let wb2 := m.foldl (fun rows (e : Int × List Char) =>
      rows.map fun row =>
        if toNumeric row.pid = some ((e.1 : Int) : ℚ) then { row with status := e.2 }
        else row) wb
    (wb2, [.readSheet, .loadSheetNames, .writeSheet])

end DW

namespace DW

instance exceptDecEq {ε α : Type} [DecidableEq ε] [DecidableEq α] :
    DecidableEq (Except ε α) := fun a b =>
  match a, b with
  | .ok x, .ok y => if h : x = y then .isTrue (by rw [h]) else .isFalse (by simp [h])
  | .error x, .error y => if h : x = y then .isTrue (by rw [h]) else .isFalse (by simp [h])
  | .ok _, .error _ => .isFalse (by simp)
  | .error _, .ok _ => .isFalse (by simp)

/-- Boolean full match of `URN_FROM_IA_RE` (used to state the spec's
"matches the anchored pattern" side of the identifier claims). -/
def urnReMatches (s : List Char) : Bool := (urnParse s).isSome

/-! ### C3: workload slicer -/

/-- C3 counterexample: `HEAD=0` does not fail with `SliceOutOfRange`
but passes the worklist through unchanged, and setting both `HEAD` and
`RANGE` on an empty worklist does not fail with `ConflictingSliceMode`
(the empty-worklist early return precedes the conflict check). -/
theorem C3_cex :
    apply_slice_records [] 0 [(0 : Nat)] = .ok [0] ∧
    apply_slice_records (("1-1").data) 5 ([] : List Nat) = .ok [] := by
  constructor <;> rfl

/-- C3 amended: for a nonempty worklist, a head count larger than the
worklist fails with `SliceOutOfRange`, setting both a head count and a
nonempty range fails with `ConflictingSliceMode`, and `HEAD = 0` means
the head mode is unset, so the worklist passes through unchanged. -/
theorem C3_amended :
    (∀ (recs : List Nat) (n : Int), recs ≠ [] → (recs.length : Int) < n →
      apply_slice_records [] n recs = .error .sliceOutOfRange) ∧
    (∀ (recs : List Nat) (r : List Char) (n : Int), recs ≠ [] →
      pyStrip r ≠ [] → 0 < n →
      apply_slice_records r n recs = .error .conflictingSliceMode) ∧
    (∀ recs : List Nat, apply_slice_records [] 0 recs = .ok recs) := by
  refine ⟨fun recs n hne hlt => ?_, fun recs r n hne hr hn => ?_, fun recs => ?_⟩
  · have hlen : recs.length ≠ 0 := by simpa [List.length_eq_zero] using hne
    have hn : (0 : Int) < n := lt_of_le_of_lt (by exact_mod_cast Nat.zero_le _) hlt
    simp [apply_slice_records, hlen, pyStrip, hn, hlt]
  · have hlen : recs.length ≠ 0 := by simpa [List.length_eq_zero] using hne
    simp [apply_slice_records, hlen, hr, hn]
  · rcases recs with _ | ⟨a, t⟩
    · rfl
    · simp [apply_slice_records, pyStrip]

theorem C3_amended_witness :
    apply_slice_records [] 4 [(7 : Nat), 8, 9] = .error .sliceOutOfRange ∧
    apply_slice_records (("2-3").data) 2 [(7 : Nat), 8, 9] = .error .conflictingSliceMode ∧
    apply_slice_records [] 0 [(7 : Nat), 8, 9] = .ok [7, 8, 9] :=
  ⟨C3_amended.1 [7, 8, 9] 4 (by decide) (by decide),
   C3_amended.2.1 [7, 8, 9] (("2-3").data) 2 (by decide) (by decide) (by decide),
   C3_amended.2.2 [7, 8, 9]⟩

/-! ### C5: malformed identifiers -/

/-- C5 counterexample: the input `" a_1"` does not match the anchored
pattern `^[A-Za-z0-9]+_\d+(_.*)?$`, yet `derive_delpher_urn` succeeds
on it (the code strips the identifier before matching), so malformed
input in the claim's sense is not always fatal. -/
theorem C5_cex :
    urnReMatches ((" a_1").data) = false ∧
    derive_delpher_urn ((" a_1").data) = .ok (("a:1").data) := by
  constructor <;> rfl

/-- C5 amended: for every input whose stripped value does not match the
anchored pattern `^[A-Za-z0-9]+_\d+(_.*)?$` (including inputs that are
empty after stripping), `derive_delpher_urn` fails with
`MalformedIdentifier`; malformed input is never silently skipped. -/
theorem C5_amended (s : List Char) (h : urnReMatches (pyStrip s) = false) :
    derive_delpher_urn s = .error .malformedIdentifier := by
  unfold derive_delpher_urn
  by_cases he : pyStrip s = []
  · simp [he]
  · simp only [he, if_neg he]
    cases hu : urnParse (pyStrip s) with
    | none => simp
    | some v => simp [urnReMatches, hu] at h

theorem C5_amended_witness :
    derive_delpher_urn (("123_abc").data) = .error .malformedIdentifier :=
  C5_amended (("123_abc").data) (by rfl)

/-! ### C10: empty status map -/

/-- C10: `write_status_to_excel` called with an empty status map
returns immediately: the workbook is unchanged and no read or write of
the tabular store is performed. -/
theorem C10_empty_statusmap (wb : List XRow) :
    write_status_to_excel [] wb = (wb, []) := by
  simp [write_status_to_excel]

end DW

namespace DW

/-! ### C2: save retry behaviour -/

/-- C2 (code bug): when the first edit fails with an auth/token
`APIError` (here `badtoken`), the save path performs
`site.login(USERNAME, PASSWORD)` — a mid-run re-authentication of the
session identity — before refreshing the token and retrying, contrary
to the claim and to the function's own docstring ("the edit is retried
without re-logging").  The recorded call trace exhibits the login. -/
theorem C2_login_during_retry :
    save_wikitext_by_pageid
        ⟨true, .apiError (("badtoken").data), true, true,
         .respResult (("Success").data) false⟩ =
      (.ok true, [.getToken, .editCall, .loginCall, .getToken, .editCall]) ∧
    (save_wikitext_by_pageid
        ⟨true, .apiError (("badtoken").data), true, true,
         .respResult (("Success").data) false⟩).2.contains .loginCall = true := by
  constructor <;> rfl

/-! ### C6: identifier-cell validation -/

/-- C6 (code bug): a pageid cell holding the fractional number `5.5` (= `mkRat 11 2`)
(and a numeric text cell `"7"`) passes the loader's validation instead
of failing with `InvalidIdentifierValue`: `pd.to_numeric` coerces both,
the positivity mask accepts them, and `astype(int)` silently truncates
`5.5` (= `mkRat 11 2`) to the accepted identifier `5`. -/
theorem C6_fractional_cell_accepted :
    get_records 100 (some [Cell.floatC (mkRat 11 2), Cell.strNum 7]) =
      .ok [⟨5, ['M', '5']⟩, ⟨7, ['M', '7']⟩] := by
  decide

/-! ### C9: checkpointing -/

/-- C9: whenever a successful save makes the running success count
reach a positive checkpoint threshold, the batch runner invokes the
status writer with the accumulated status map and resets the counter;
and in the 50-successes/threshold-50 scenario the writer is invoked
exactly once during the loop and exactly once more at the end of the
run (the unconditional final write performed after the loop). -/
theorem C9_checkpointing :
    (∀ (ck : Int) (st : RunSt) (pid : Int), 0 < ck →
      (ck : Int) ≤ ((st.sinceFlush + 1 : Nat) : Int) →
      (stepRecord ck st (pid, .saved)).events =
          st.events ++ [setStatus st.status pid STATUS_PROCESSED] ∧
        (stepRecord ck st (pid, .saved)).sinceFlush = 0) ∧
    ((process_records 50 ((List.range 50).map fun i => ((i : Int) + 1, Outcome.saved))).events.length = 1 ∧
      (fullRunWrites 50 ((List.range 50).map fun i => ((i : Int) + 1, Outcome.saved))).length = 2) := by
  constructor
  · intro ck st pid hck hle
    have hle2 : ck ≤ (st.sinceFlush : Int) + 1 := by push_cast at hle; exact hle
    constructor <;> simp [stepRecord, statusOf, hck, hle2]
  · constructor <;> rfl

theorem C9_checkpointing_witness :
    (stepRecord 1 ⟨[], 0, []⟩ (5, .saved)).events = [[(5, STATUS_PROCESSED)]] ∧
    (stepRecord 1 ⟨[], 0, []⟩ (5, .saved)).sinceFlush = 0 :=
  ⟨by rw [(C9_checkpointing.1 1 ⟨[], 0, []⟩ 5 (by decide) (by decide)).1]; rfl,
   (C9_checkpointing.1 1 ⟨[], 0, []⟩ 5 (by decide) (by decide)).2⟩

end DW

namespace DW

/-! ### C8: ambiguous edit targets -/

/-- C8: on a body in which `finditer` reports two or more matches of
the old pattern, `transform_wikitext` fails with
`AmbiguousEditTarget`; no occurrence is chosen and no text is
produced. -/
theorem C8_ambiguous (s : List Char) (h : 2 ≤ (findAll s).length) :
    transform_wikitext s = .error .ambiguousEditTarget := by
  unfold transform_wikitext
  rcases hf : findAll s with _ | ⟨m1, _ | ⟨m2, ms⟩⟩
  · rw [hf] at h; simp at h
  · rw [hf] at h; simp at h
  · rfl

end DW

namespace DW

/-! ### Generic scanning lemmas -/

theorem wsCount_le_length (l : List Char) : wsCount l ≤ l.length := by
  induction l with
  | nil => simp [wsCount]
  | cons c t ih =>
    by_cases h : isWsC c <;> simp [wsCount, h] <;> omega

theorem wsCount_all (l : List Char) (h : l.all isWsC) : wsCount l = l.length := by
  induction l with
  | nil => rfl
  | cons c t ih =>
    simp only [List.all_cons, Bool.and_eq_true] at h
    simp [wsCount, h.1, ih h.2]

theorem wsCount_append (x y : List Char) :
    wsCount (x ++ y) =
      if x.all isWsC then x.length + wsCount y else wsCount x := by
  induction x with
  | nil => simp [wsCount]
  | cons c t ih =>
    have e1 : wsCount (c :: (t ++ y)) = if isWsC c then wsCount (t ++ y) + 1 else 0 := rfl
    have e2 : wsCount (c :: t) = if isWsC c then wsCount t + 1 else 0 := rfl
    by_cases h : isWsC c
    · rw [List.cons_append, e1, if_pos h, ih, List.all_cons, h]
      simp only [Bool.true_and]
      by_cases ht : t.all isWsC
      · rw [if_pos ht, if_pos ht, List.length_cons]
        omega
      · rw [if_neg ht, if_neg ht, e2, if_pos h]
    · have hf : isWsC c = false := by simpa using h
      rw [List.cons_append, e1, e2, hf]
      simp [hf]

theorem wsCount_nonws_head (c : Char) (t : List Char) (h : isWsC c = false) :
    wsCount (c :: t) = 0 := by
  simp [wsCount, h]

theorem take_len_add_append (a b : List Char) (k : Nat) :
    (a ++ b).take (a.length + k) = a ++ b.take k := by
  induction a with
  | nil => simp
  | cons c t ih => simpa [Nat.succ_add] using ih

theorem drop_len_add_append (a b : List Char) (k : Nat) :
    (a ++ b).drop (a.length + k) = b.drop k := by
  induction a with
  | nil => simp
  | cons c t ih => simpa [Nat.succ_add] using ih

theorem all_take {q : Char → Bool} (l : List Char) (k : Nat) (h : l.all q) :
    (l.take k).all q := by
  rw [List.all_eq_true] at h ⊢
  exact fun c hc => h c (List.mem_of_mem_take hc)

theorem takeWhile_all_append {q : Char → Bool} (l r : List Char) (h : l.all q) :
    (l ++ r).takeWhile q = l ++ r.takeWhile q := by
  induction l with
  | nil => simp
  | cons c t ih =>
    simp only [List.all_cons, Bool.and_eq_true] at h
    simp [List.takeWhile_cons, h.1, ih h.2]

theorem takeWhile_all {q : Char → Bool} (l : List Char) (h : l.all q) :
    l.takeWhile q = l := by
  simpa using takeWhile_all_append l [] h

theorem ws_char_cases (c : Char) (h : isWsC c = true) :
    c = ' ' ∨ c = '\t' ∨ c = '\n' ∨ c = '\x0b' ∨ c = '\x0c' ∨ c = '\r' ∨
    c = '\x1c' ∨ c = '\x1d' ∨ c = '\x1e' ∨ c = '\x1f' := by
  unfold isWsC at h
  simp only [Bool.or_eq_true, decide_eq_true_eq] at h
  tauto

theorem not_ws_of_alnum (c : Char) (h : isAlnumA c = true) : isWsC c = false := by
  cases hw : isWsC c
  · rfl
  · exfalso
    rcases ws_char_cases c hw with h1 | h1 | h1 | h1 | h1 | h1 | h1 | h1 | h1 | h1 <;>
      (subst h1; exact absurd h (by decide))

theorem rstrip_self (l : List Char) (h : wsCount l.reverse = 0) :
    l.take (rstripLen l) = l := by
  simp [rstripLen, h]

theorem rstrip_append (a u : List Char) (d : Char) (t : List Char)
    (ha : a.reverse = d :: t) (hd : isWsC d = false) :
    (a ++ u).take (rstripLen (a ++ u)) = a ++ u.take (rstripLen u) := by
  have hrev : (a ++ u).reverse = u.reverse ++ a.reverse := by simp
  by_cases hall : u.reverse.all isWsC
  · have h1 : wsCount ((a ++ u).reverse) = u.length := by
      rw [hrev, wsCount_append, if_pos hall, ha, wsCount_nonws_head _ _ hd]
      simp
    have h2 : rstripLen (a ++ u) = a.length := by
      simp only [rstripLen, h1, List.length_append]
      omega
    have h3 : rstripLen u = 0 := by
      have := wsCount_all u.reverse hall
      simp [rstripLen, this]
    rw [h2, h3]
    simp
  · have h1 : wsCount ((a ++ u).reverse) = wsCount u.reverse := by
      rw [hrev, wsCount_append, if_neg hall]
    have h2 : rstripLen (a ++ u) = a.length + rstripLen u := by
      have hle := wsCount_le_length u.reverse
      simp only [rstripLen, h1, List.length_append, List.length_reverse] at *
      omega
    rw [h2, take_len_add_append]

end DW

namespace DW

theorem urnParse_wellformed (p n t' : List Char) (hp : p ≠ [])
    (hpa : p.all isAlnumA = true) (hn : n ≠ []) (hna : n.all isDigitA = true)
    (ht : t' = [] ∨ ∃ u, t' = '_' :: u ∧ u.all (· ≠ '\n') = true) :
    urnParse (p ++ '_' :: (n ++ t')) = some (p, n) := by
  have hsplit1 : p ++ '_' :: (n ++ t') = (p ++ ['_']) ++ (n ++ t') := by simp
  have e_tw : (p ++ '_' :: (n ++ t')).takeWhile isAlnumA = p := by
    rw [takeWhile_all_append _ _ hpa, List.takeWhile_cons]
    simp [show isAlnumA '_' = false from rfl]
  have e_hd : ((p ++ '_' :: (n ++ t')).drop p.length).head? = some '_' := by
    rw [List.drop_left]
    rfl
  have e_d : ((p ++ '_' :: (n ++ t')).drop (p.length + 1)).takeWhile isDigitA = n := by
    rw [hsplit1]
    have : (p ++ ['_']).length = p.length + 1 := by simp
    rw [← this, List.drop_left]
    rcases ht with h | ⟨u, hu, _hua⟩
    · rw [h, List.append_nil, takeWhile_all _ hna]
    · rw [hu, takeWhile_all_append _ _ hna, List.takeWhile_cons]
      simp [show isDigitA '_' = false from rfl]
  have e_rest : (p ++ '_' :: (n ++ t')).drop (p.length + 1 + n.length) = t' := by
    have h2 : p ++ '_' :: (n ++ t') = ((p ++ ['_']) ++ n) ++ t' := by simp
    have h3 : ((p ++ ['_']) ++ n).length = p.length + 1 + n.length := by
      simp
      omega
    rw [h2, ← h3, List.drop_left]
  have e_take : (p ++ '_' :: (n ++ t')).take p.length = p := by
    rw [List.take_left]
  have e_take2 : ((p ++ '_' :: (n ++ t')).drop (p.length + 1)).take n.length = n := by
    rw [hsplit1]
    have : (p ++ ['_']).length = p.length + 1 := by simp
    rw [← this, List.drop_left, List.take_left]
  have hplen : p.length ≠ 0 := by simpa [List.length_eq_zero] using hp
  have hnlen : n.length ≠ 0 := by simpa [List.length_eq_zero] using hn
  unfold urnParse
  rw [e_tw]
  simp only [hplen, if_neg hplen, e_hd, e_d, e_rest, e_take, e_take2]
  rcases ht with h | ⟨u, hu, hua⟩
  · simp [h, hnlen]
  · have hcond : (decide (t' = []) || decide (t' = ['\n']) ||
        (decide (t'.head? = some '_') &&
          ((t'.drop 1).take ((t'.drop 1).length - 1)).all (· ≠ '\n'))) = true := by
      subst hu
      simp only [List.head?_cons, List.drop_one, List.tail_cons, decide_True, Bool.true_and]
      have := all_take u (u.length - 1) hua
      simpa using this
    simp only [hnlen, if_neg hnlen, hcond, if_true]
    simp

/-- C4: for every well-formed archive identifier of shape
`PREFIX_NUMBER[_suffix]` (`PREFIX` a nonempty ASCII alphanumeric run,
`NUMBER` a nonempty digit run, optional `_`-suffix without newlines),
`derive_delpher_urn` — a pure Lean function, hence deterministic —
returns `PREFIX:NUMBER` with the digit run (and its leading zeros)
preserved verbatim; in particular on `"ddd_010124175_mpeg21"` it
returns `"ddd:010124175"`. -/
theorem C4_derive_urn :
    (∀ (p n t : List Char), p ≠ [] → p.all isAlnumA = true → n ≠ [] →
      n.all isDigitA = true →
      (t = [] ∨ ∃ u, t = '_' :: u ∧ u.all (· ≠ '\n') = true) →
      derive_delpher_urn (p ++ '_' :: (n ++ t)) = .ok (p ++ ':' :: n)) ∧
    derive_delpher_urn (("ddd_010124175_mpeg21").data) = .ok (("ddd:010124175").data) := by
  constructor
  · intro p n t hp hpa hn hna ht
    -- the input strips to `p ++ '_' :: (n ++ t')` with `t'` of the same shape
    obtain ⟨t', hstrip, ht'⟩ :
        ∃ t', pyStrip (p ++ '_' :: (n ++ t)) = p ++ '_' :: (n ++ t') ∧
          (t' = [] ∨ ∃ u, t' = '_' :: u ∧ u.all (· ≠ '\n') = true) := by
      rcases p with _ | ⟨c0, p2⟩
      · exact absurd rfl hp
      have hc0 : isAlnumA c0 = true := by
        have := hpa
        simp only [List.all_cons, Bool.and_eq_true] at this
        exact this.1
      have hc0w : isWsC c0 = false := not_ws_of_alnum c0 hc0
      have hdw : ((c0 :: p2) ++ '_' :: (n ++ t)).dropWhile (fun c => isWsC c) =
          (c0 :: p2) ++ '_' :: (n ++ t) := by
        rw [List.cons_append, List.dropWhile_cons]
        simp [hc0w]
      rcases ht with h | ⟨u, hu, hua⟩
      · refine ⟨[], ?_, Or.inl rfl⟩
        subst h
        unfold pyStrip
        rw [hdw]
        rcases List.eq_nil_or_concat n with hne | ⟨m, d, hmd⟩
        · exact absurd hne hn
        have hd : isDigitA d = true := by
          have h5 := hna
          rw [List.all_eq_true] at h5
          exact h5 d (by rw [hmd]; simp)
        have hdws : isWsC d = false :=
          not_ws_of_alnum d (by simp [isAlnumA, hd])
        have hrev : ((c0 :: p2) ++ '_' :: (n ++ [])).reverse =
            d :: (m.reverse ++ '_' :: (c0 :: p2).reverse) := by
          rw [hmd]
          simp
        rw [rstrip_self]
        rw [hrev, wsCount_nonws_head _ _ hdws]
      · refine ⟨'_' :: (u.take (rstripLen u)), ?_,
          Or.inr ⟨u.take (rstripLen u), rfl, all_take u _ hua⟩⟩
        subst hu
        unfold pyStrip
        rw [hdw]
        have hshape : (c0 :: p2) ++ '_' :: (n ++ '_' :: u) =
            ((c0 :: p2) ++ '_' :: n ++ ['_']) ++ u := by simp
        have hrev2 : ((c0 :: p2) ++ '_' :: n ++ ['_']).reverse =
            '_' :: (n.reverse ++ '_' :: (c0 :: p2).reverse) := by simp
        rw [hshape, rstrip_append _ _ '_' _ hrev2 (by decide)]
        simp
    unfold derive_delpher_urn
    rw [hstrip]
    have hne : p ++ '_' :: (n ++ t') ≠ [] := by
      rcases p with _ | ⟨c0, p2⟩
      · exact absurd rfl hp
      · simp
    rw [if_neg hne, urnParse_wellformed p n t' hp hpa hn hna ht']
  · rfl

theorem C4_derive_urn_witness :
    derive_delpher_urn (("a0_007_x").data) = .ok (("a0:007").data) := by
  exact C4_derive_urn.1 (("a0").data) (("007").data) ('_' :: ("x").data)
    (by decide) (by decide) (by decide) (by decide)
    (Or.inr ⟨("x").data, rfl, by decide⟩)

end DW

namespace DW

/-! ### C7: transform on zero / one match -/

def c7body : List Char :=
  ("|source =\n:\x7b\x7bInternet Archive link|bad\x7d\x7d\n:https://archive.org/download/a/b.pdf\n").data

/-- C7 counterexample: a body with exactly one old-pattern match whose
captured identifier (`bad`) has no digit run: `transform_wikitext`
fails with `MalformedIdentifier` instead of returning the spliced
text, so a one-match body does not always yield a replacement. -/
theorem C7_cex :
    countMatches c7body = 1 ∧
    transform_wikitext c7body = .error .malformedIdentifier := by
  constructor <;> rfl

theorem build_ok_derive (ia pdf blk : List Char)
    (h : build_new_source_block ia pdf = .ok blk) :
    ∃ urn, derive_delpher_urn ia = .ok urn := by
  unfold build_new_source_block at h
  by_cases h1 : pyStrip ia = []
  · rw [if_pos h1] at h; cases h
  · rw [if_neg h1] at h
    by_cases h2 : pyStrip pdf = []
    · rw [if_pos h2] at h; cases h
    · rw [if_neg h2] at h
      dsimp only [] at h
      by_cases h3 : pdfStrictFull (pyStrip pdf)
      · rw [h3] at h
        simp only [Bool.not_true, if_false] at h
        cases hd : derive_delpher_urn ia with
        | error e => rw [hd] at h; cases h
        | ok urn => exact ⟨urn, rfl⟩
      · have h3f : pdfStrictFull (pyStrip pdf) = false := by
          simpa using h3
        rw [h3f] at h
        simp only [Bool.not_false, if_true] at h
        cases h

/-- C7 amended: `transform_wikitext` on a body with zero old-pattern
matches returns the input unchanged; on a body with exactly one match,
provided the replacement block builds (the captured identifier derives
a URN and the captured pdf URL passes the strict re-check), it returns
the text before the match, the preserved source-header line, the fresh
replacement block and one newline, and the text after the matched
span, all other text untouched; otherwise that record fails. -/
theorem C7_transform_splice :
    (∀ s : List Char, countMatches s = 0 → transform_wikitext s = .ok s) ∧
    (∀ (s : List Char) (m : Mtch) (blk : List Char), findAll s = [m] →
      build_new_source_block (pyStrip m.iaid) (pyStrip m.pdf) = .ok blk →
      transform_wikitext s =
        .ok (s.take m.start ++ ((s.take m.pfxEnd).drop m.start) ++ blk ++
             '\n' :: s.drop m.endPos)) := by
  constructor
  · intro s h
    have hf : findAll s = [] := by
      simpa [countMatches, List.length_eq_zero] using h
    unfold transform_wikitext
    rw [hf]
  · intro s m blk hf hb
    obtain ⟨urn, hd⟩ := build_ok_derive _ _ _ hb
    unfold transform_wikitext
    rw [hf]
    simp only [hd, hb]

def exBody : List Char :=
  ("|source =\n:\x7b\x7bInternet Archive link|ddd_010124175_mpeg21\x7d\x7d\n:https://archive.org/download/ddd_010124175_mpeg21/ddd_010124175_mpeg21.pdf\n").data

def exIaid : List Char := ("ddd_010124175_mpeg21").data

def exPdf : List Char :=
  ("https://archive.org/download/ddd_010124175_mpeg21/ddd_010124175_mpeg21.pdf").data

def exBlk : List Char :=
  ("Internet Archive\n* Website: \x7b\x7bInternet Archive link|ddd_010124175_mpeg21\x7d\x7d\n* Direct download: https://archive.org/download/ddd_010124175_mpeg21/ddd_010124175_mpeg21.pdf\nDelpher\n* Website: https://resolver.kb.nl/resolve?urn=ddd:010124175\n* Direct download: https://resolver.kb.nl/resolve?urn=ddd:010124175:mpeg21:pdf").data

theorem C7_transform_splice_witness :
    transform_wikitext exBody =
      .ok (exBody.take 0 ++ ((exBody.take 10).drop 0) ++ exBlk ++
           '\n' :: exBody.drop 134) :=
  C7_transform_splice.2 exBody ⟨0, 10, 134, exIaid, exPdf⟩ exBlk (by rfl) (by rfl)

end DW

namespace DW

def twoBlockBody : List Char := exBody ++ ("middle").data ++ exBody

theorem C8_ambiguous_witness :
    transform_wikitext twoBlockBody = .error .ambiguousEditTarget :=
  C8_ambiguous twoBlockBody (by rfl)

end DW

namespace DW

/-! ### Primitive scanner facts (toward the idempotence claim) -/

theorem pred_ne {p : Char → Bool} {c bad : Char} (h : p c = true)
    (hb : p bad = false) : c ≠ bad := by
  intro he
  rw [he, hb] at h
  cases h

theorem wsCount_take_all (l : List Char) :
    ((l.take (wsCount l)).all isWsC) = true := by
  induction l with
  | nil => rfl
  | cons c t ih =>
    by_cases h : isWsC c
    · simp [wsCount, h, ih]
    · simp [wsCount, h]

theorem wsCount_stop (l : List Char) (c : Char)
    (h : (l.drop (wsCount l)).head? = some c) : isWsC c = false := by
  induction l with
  | nil => cases h
  | cons d t ih =>
    by_cases hd : isWsC d
    · rw [show wsCount (d :: t) = wsCount t + 1 from by simp [wsCount, hd]] at h
      exact ih (by simpa using h)
    · rw [show wsCount (d :: t) = 0 from by simp [wsCount, hd]] at h
      simp only [List.drop_zero, List.head?_cons, Option.some_inj] at h
      rw [← h]
      simpa using hd

theorem wsCount_zero_of_head (l : List Char) (c : Char)
    (h : l.head? = some c) (hc : isWsC c = false) : wsCount l = 0 := by
  cases l with
  | nil => cases h
  | cons d t =>
    simp only [List.head?_cons, Option.some_inj] at h
    subst h
    simp [wsCount, hc]

theorem wsCount_run_append (u v : List Char) (hu : u.all isWsC = true)
    (hv : wsCount v = 0) : wsCount (u ++ v) = u.length := by
  rw [wsCount_append, if_pos hu, hv]
  omega


theorem lastIdxP_inv {p : Char → Bool} (l : List Char) (j : Nat)
    (h : lastIdxP p l = some j) :
    j < l.length ∧ ((l.take (j + 1)).all isWsC) = true ∧
      ∃ c, l.get? j = some c ∧ p c = true ∧ isWsC c = true := by
  induction l generalizing j with
  | nil => cases h
  | cons d t ih =>
    by_cases hd : isWsC d
    · rw [show lastIdxP p (d :: t) =
          (match lastIdxP p t with
           | some j => some (j + 1)
           | none => if p d then some 0 else none) from by simp [lastIdxP, hd]] at h
      cases ht : lastIdxP p t with
      | some j0 =>
        rw [ht] at h
        simp only [Option.some_inj] at h
        subst h
        obtain ⟨h1, h2, c, h3, h4, h5⟩ := ih j0 ht
        refine ⟨by simpa using h1, ?_, c, by simpa using h3, h4, h5⟩
        simpa [hd] using h2
      | none =>
        rw [ht] at h
        by_cases hp : p d
        · rw [if_pos hp] at h
          simp only [Option.some_inj] at h
          subst h
          exact ⟨by simp, by simp [hd], d, rfl, hp, hd⟩
        · rw [if_neg hp] at h; cases h
    · rw [show lastIdxP p (d :: t) = none from by simp [lastIdxP, hd]] at h
      cases h

theorem lastIdxP_last {p : Char → Bool} (w v : List Char) (g : Char)
    (hw : w.all isWsC = true) (hg : w.getLast? = some g) (hp : p g = true)
    (hv : wsCount v = 0) : lastIdxP p (w ++ v) = some (w.length - 1) := by
  induction w with
  | nil => cases hg
  | cons d t ih =>
    simp only [List.all_cons, Bool.and_eq_true] at hw
    rw [List.cons_append,
      show lastIdxP p (d :: (t ++ v)) =
        (if isWsC d then
          (match lastIdxP p (t ++ v) with
           | some j => some (j + 1)
           | none => if p d then some 0 else none)
         else none) from rfl, if_pos hw.1]
    cases t with
    | nil =>
      simp only [List.getLast?_singleton, Option.some_inj] at hg
      subst hg
      have hnone : lastIdxP p v = none := by
        cases v with
        | nil => rfl
        | cons e s =>
          have : isWsC e = false := by
            have := hv
            by_cases he : isWsC e
            · rw [show wsCount (e :: s) = wsCount s + 1 from by simp [wsCount, he]] at this
              omega
            · simpa using he
          simp [lastIdxP, this]
      simp [hnone, hp]
    | cons e s =>
      have hg2 : (e :: s).getLast? = some g := by
        rw [← hg, List.getLast?_cons_cons]
      rw [ih hw.2 hg2]
      simp

theorem stopCount_le_length (l : List Char) : stopCount l ≤ l.length := by
  induction l with
  | nil => simp [stopCount]
  | cons c t ih =>
    by_cases h : isStopC c <;> simp [stopCount, h] <;> omega

theorem stopCount_take_all (l : List Char) :
    ((l.take (stopCount l)).all fun c => !isStopC c) = true := by
  induction l with
  | nil => rfl
  | cons c t ih =>
    by_cases h : isStopC c
    · simp [stopCount, h]
    · simp [stopCount, h, ih]

theorem stopCount_stop (l : List Char) (c : Char)
    (h : (l.drop (stopCount l)).head? = some c) : isStopC c = true := by
  induction l with
  | nil => cases h
  | cons d t ih =>
    by_cases hd : isStopC d
    · rw [show stopCount (d :: t) = 0 from by simp [stopCount, hd]] at h
      simp only [List.drop_zero, List.head?_cons, Option.some_inj] at h
      rw [← h]; exact hd
    · rw [show stopCount (d :: t) = stopCount t + 1 from by simp [stopCount, hd]] at h
      exact ih (by simpa using h)

theorem stopCount_le_of_stop (l : List Char) (i : Nat) (c : Char)
    (h : l.get? i = some c) (hc : isStopC c = true) : stopCount l ≤ i := by
  induction l generalizing i with
  | nil => cases h
  | cons d t ih =>
    by_cases hd : isStopC d
    · simp [stopCount, hd]
    · cases i with
      | zero =>
        simp only [List.get?_cons_zero, Option.some_inj] at h
        subst h
        exact absurd hc (by simpa using hd)
      | succ i0 =>
        have := ih i0 (by simpa using h)
        simp [stopCount, hd]
        omega

end DW

namespace DW

/-- Pairwise case-insensitive equality of two equal-length lists. -/
def ciEqL : List Char → List Char → Bool
  | [], [] => true
  | _ :: _, [] => false
  | [], _ :: _ => false
  | p :: ps, c :: cs => ciEqC p c && ciEqL ps cs

theorem ciEqL_length {pat s : List Char} (h : ciEqL pat s = true) :
    s.length = pat.length := by
  induction pat generalizing s with
  | nil => cases s with
    | nil => rfl
    | cons c cs => cases h
  | cons p ps ih =>
    cases s with
    | nil => cases h
    | cons c cs =>
      simp only [ciEqL, Bool.and_eq_true] at h
      simpa using ih h.2

theorem ciStarts_length {pat l : List Char} (h : ciStarts pat l = true) :
    pat.length ≤ l.length := by
  induction pat generalizing l with
  | nil => simp
  | cons p ps ih =>
    cases l with
    | nil => cases h
    | cons c cs =>
      simp only [ciStarts, Bool.and_eq_true] at h
      have := ih h.2
      simpa using this

theorem ciStarts_take {pat l : List Char} (h : ciStarts pat l = true) :
    ciEqL pat (l.take pat.length) = true := by
  induction pat generalizing l with
  | nil => rfl
  | cons p ps ih =>
    cases l with
    | nil => cases h
    | cons c cs =>
      simp only [ciStarts, Bool.and_eq_true] at h
      simpa [ciEqL, h.1] using ih h.2

theorem ciStarts_of_ciEqL_append {pat s v : List Char} (h : ciEqL pat s = true) :
    ciStarts pat (s ++ v) = true := by
  induction pat generalizing s with
  | nil => rfl
  | cons p ps ih =>
    cases s with
    | nil => cases h
    | cons c cs =>
      simp only [ciEqL, Bool.and_eq_true] at h
      simpa [ciStarts, h.1] using ih h.2

theorem ciEqL_mem {pat s : List Char} {c : Char} (h : ciEqL pat s = true)
    (hc : c ∈ s) : ∃ pc ∈ pat, ciEqC pc c = true := by
  induction pat generalizing s with
  | nil =>
    cases s with
    | nil => cases hc
    | cons d ds => cases h
  | cons p ps ih =>
    cases s with
    | nil => cases hc
    | cons d ds =>
      simp only [ciEqL, Bool.and_eq_true] at h
      rcases List.mem_cons.mp hc with h1 | h1
      · exact ⟨p, List.mem_cons_self _ _, h1 ▸ h.1⟩
      · obtain ⟨pc, hm, he⟩ := ih h.2 h1
        exact ⟨pc, List.mem_cons_of_mem _ hm, he⟩

theorem ciEqL_head {pat s : List Char} {p c : Char} {ps : List Char}
    (h : ciEqL pat s = true) (hp : pat = p :: ps) (hc : s.head? = some c) :
    ciEqC p c = true := by
  subst hp
  cases s with
  | nil => cases h
  | cons d ds =>
    simp only [ciEqL, Bool.and_eq_true] at h
    simp only [List.head?_cons, Option.some_inj] at hc
    exact hc ▸ h.1

theorem ci_ne_of_all {pat : List Char} {c bad : Char}
    (hm : ∃ pc ∈ pat, ciEqC pc c = true)
    (hb : (pat.all fun pc => !ciEqC pc bad) = true) : c ≠ bad := by
  obtain ⟨pc, hpc, he⟩ := hm
  rw [List.all_eq_true] at hb
  have := hb pc hpc
  exact pred_ne he (by simpa using this)

theorem ci_not_ws {pat : List Char} {c : Char}
    (hm : ∃ pc ∈ pat, ciEqC pc c = true)
    (hb : (pat.all fun pc =>
        !(ciEqC pc ' ' || ciEqC pc '\t' || ciEqC pc '\n' || ciEqC pc '\x0b' ||
          ciEqC pc '\x0c' || ciEqC pc '\r' || ciEqC pc '\x1c' || ciEqC pc '\x1d' ||
          ciEqC pc '\x1e' || ciEqC pc '\x1f')) = true) : isWsC c = false := by
  obtain ⟨pc, hpc, he⟩ := hm
  rw [List.all_eq_true] at hb
  have hb2 := hb pc hpc
  simp only [Bool.not_eq_true', Bool.or_eq_false_iff] at hb2
  cases hw : isWsC c
  · rfl
  · exfalso
    rcases ws_char_cases c hw with h1 | h1 | h1 | h1 | h1 | h1 | h1 | h1 | h1 | h1 <;>
      (subst h1; simp_all)

theorem ws_not_stop_char (c : Char) (h : isWsC c = true) :
    c ≠ '|' ∧ c ≠ ':' ∧ c ≠ '=' ∧ c ≠ '\x7b' ∧ c ≠ 'I' := by
  rcases ws_char_cases c h with h1 | h1 | h1 | h1 | h1 | h1 | h1 | h1 | h1 | h1 <;>
    (subst h1; exact ⟨by decide, by decide, by decide, by decide, by decide⟩)

end DW

namespace DW

/-! ### List index and locality helpers -/

theorem get?_append_left {u v : List Char} {n : Nat} (h : n < u.length) :
    (u ++ v).get? n = u.get? n := by
  induction u generalizing n with
  | nil => simp at h
  | cons c t ih =>
    cases n with
    | zero => rfl
    | succ n0 =>
      simp only [List.length_cons] at h
      simpa using ih (by omega)

theorem get?_append_right {u v : List Char} {n : Nat} (h : u.length ≤ n) :
    (u ++ v).get? n = v.get? (n - u.length) := by
  induction u generalizing n with
  | nil => simp
  | cons c t ih =>
    cases n with
    | zero => simp at h
    | succ n0 =>
      simp only [List.length_cons] at h ⊢
      have := ih (n := n0) (by omega)
      simpa [Nat.succ_sub_succ] using this

theorem drop_append_le {u v : List Char} {n : Nat} (h : n ≤ u.length) :
    (u ++ v).drop n = u.drop n ++ v := by
  induction u generalizing n with
  | nil =>
    simp only [List.length_nil, Nat.le_zero] at h
    subst h; simp
  | cons c t ih =>
    cases n with
    | zero => simp
    | succ n0 =>
      simp only [List.length_cons] at h
      simpa using ih (by omega)

theorem drop_append_ge {u v : List Char} {n : Nat} (h : u.length ≤ n) :
    (u ++ v).drop n = v.drop (n - u.length) := by
  induction u generalizing n with
  | nil => simp
  | cons c t ih =>
    cases n with
    | zero => simp at h
    | succ n0 =>
      simp only [List.length_cons] at h ⊢
      have := ih (n := n0) (by omega)
      simpa [Nat.succ_sub_succ] using this

theorem head?_drop (l : List Char) (n : Nat) : (l.drop n).head? = l.get? n := by
  induction l generalizing n with
  | nil => simp
  | cons c t ih =>
    cases n with
    | zero => rfl
    | succ n0 => simpa using ih n0

theorem mem_take_of_get? {l : List Char} {i k : Nat} {c : Char}
    (h : l.get? i = some c) (hik : i < k) : c ∈ l.take k := by
  have : (l.take k).get? i = some c := by
    induction l generalizing i k with
    | nil => cases h
    | cons d t ih =>
      cases i with
      | zero =>
        cases k with
        | zero => omega
        | succ k0 => simpa using h
      | succ i0 =>
        cases k with
        | zero => omega
        | succ k0 =>
          simp only [List.take_succ_cons, List.get?_cons_succ]
          exact ih (by simpa using h) (by omega)
  exact List.get?_mem this

/-! locality: each scanner is determined by an initial segment -/

theorem take_agree_mono {l1 l2 : List Char} {k j : Nat}
    (h : l1.take k = l2.take k) (hj : j ≤ k) : l1.take j = l2.take j := by
  have := congrArg (List.take j) h
  simpa [List.take_take, Nat.min_eq_left hj] using this

theorem take_agree_drop {l1 l2 : List Char} {k a : Nat}
    (h : l1.take k = l2.take k) :
    (l1.drop a).take (k - a) = (l2.drop a).take (k - a) := by
  have := congrArg (List.drop a) h
  simpa [List.drop_take] using this

theorem head?_agree {l1 l2 : List Char} {k : Nat}
    (h : l1.take k = l2.take k) (hk : 0 < k) : l1.head? = l2.head? := by
  have h1 := take_agree_mono h (by omega : 1 ≤ k)
  cases l1 with
  | nil =>
    cases l2 with
    | nil => rfl
    | cons c t => simp at h1
  | cons c t =>
    cases l2 with
    | nil => simp at h1
    | cons d s =>
      simp only [List.take_succ_cons, List.take_zero] at h1
      simp only [List.cons.injEq] at h1
      simp [h1.1]

theorem get?_agree {l1 l2 : List Char} {k i : Nat}
    (h : l1.take k = l2.take k) (hk : i < k) : l1.get? i = l2.get? i := by
  rw [← head?_drop, ← head?_drop]
  exact head?_agree (take_agree_drop (a := i) h) (by omega)

theorem wsCount_agree {l1 l2 : List Char} {k : Nat}
    (h : l1.take k = l2.take k) (hk : wsCount l1 < k) : wsCount l2 = wsCount l1 := by
  induction l1 generalizing l2 k with
  | nil =>
    cases l2 with
    | nil => rfl
    | cons d s =>
      cases k with
      | zero => omega
      | succ k0 => simp at h
  | cons c t ih =>
    cases l2 with
    | nil =>
      cases k with
      | zero => omega
      | succ k0 => simp at h
    | cons d s =>
      cases k with
      | zero => omega
      | succ k0 =>
        simp only [List.take_succ_cons, List.cons.injEq] at h
        obtain ⟨rfl, h2⟩ := h
        by_cases hc : isWsC c
        · have hk2 : wsCount t < k0 := by
            have : wsCount (c :: t) = wsCount t + 1 := by simp [wsCount, hc]
            omega
          have := ih h2 hk2
          simp [wsCount, hc, this]
        · simp [wsCount, hc]

theorem ciStarts_agree {pat l1 l2 : List Char} {k : Nat}
    (h : l1.take k = l2.take k) (hk : pat.length ≤ k) :
    ciStarts pat l2 = ciStarts pat l1 := by
  induction pat generalizing l1 l2 k with
  | nil => rfl
  | cons p ps ih =>
    cases k with
    | zero => simp at hk
    | succ k0 =>
      cases l1 with
      | nil =>
        cases l2 with
        | nil => rfl
        | cons d s => simp at h
      | cons c t =>
        cases l2 with
        | nil => simp at h
        | cons d s =>
          simp only [List.take_succ_cons, List.cons.injEq] at h
          obtain ⟨rfl, h2⟩ := h
          simp only [List.length_cons] at hk
          simp [ciStarts, ih h2 (by omega)]

theorem lastIdxP_agree {p : Char → Bool} {l1 l2 : List Char} {k : Nat}
    (h : l1.take k = l2.take k) (hk : wsCount l1 < k) :
    lastIdxP p l2 = lastIdxP p l1 := by
  induction l1 generalizing l2 k with
  | nil =>
    cases l2 with
    | nil => rfl
    | cons d s =>
      cases k with
      | zero => omega
      | succ k0 => simp at h
  | cons c t ih =>
    cases l2 with
    | nil =>
      cases k with
      | zero => omega
      | succ k0 => simp at h
    | cons d s =>
      cases k with
      | zero => omega
      | succ k0 =>
        simp only [List.take_succ_cons, List.cons.injEq] at h
        obtain ⟨rfl, h2⟩ := h
        by_cases hc : isWsC c
        · have hk2 : wsCount t < k0 := by
            have : wsCount (c :: t) = wsCount t + 1 := by simp [wsCount, hc]
            omega
          have := ih h2 hk2
          simp [lastIdxP, hc, this]
        · simp [lastIdxP, hc]

theorem stopCount_agree {l1 l2 : List Char} {k : Nat}
    (h : l1.take k = l2.take k) (hk : stopCount l1 < k) :
    stopCount l2 = stopCount l1 := by
  induction l1 generalizing l2 k with
  | nil =>
    cases l2 with
    | nil => rfl
    | cons d s =>
      cases k with
      | zero => omega
      | succ k0 => simp at h
  | cons c t ih =>
    cases l2 with
    | nil =>
      cases k with
      | zero => omega
      | succ k0 => simp at h
    | cons d s =>
      cases k with
      | zero => omega
      | succ k0 =>
        simp only [List.take_succ_cons, List.cons.injEq] at h
        obtain ⟨rfl, h2⟩ := h
        by_cases hc : isStopC c
        · simp [stopCount, hc]
        · have hk2 : stopCount t < k0 := by
            have : stopCount (c :: t) = stopCount t + 1 := by simp [stopCount, hc]
            omega
          have := ih h2 hk2
          simp [stopCount, hc, this]

theorem pdfScanA_agree {l1 l2 : List Char} {k n : Nat}
    (h : l1.take k = l2.take k) (hs : pdfScanA l1 = some n) (hk : n + 4 ≤ k) :
    pdfScanA l2 = some n := by
  induction l1 generalizing l2 k n with
  | nil => cases hs
  | cons c t ih =>
    cases l2 with
    | nil =>
      cases k with
      | zero => omega
      | succ k0 => simp at h
    | cons d s =>
      cases k with
      | zero => omega
      | succ k0 =>
        simp only [List.take_succ_cons, List.cons.injEq] at h
        obtain ⟨rfl, h2⟩ := h
        by_cases hp : ciStarts pdfExtLit (c :: t)
        · rw [show pdfScanA (c :: t) = some 0 from by simp [pdfScanA, hp]] at hs
          simp only [Option.some_inj] at hs
          subst hs
          have hp2 : ciStarts pdfExtLit (c :: s) = true := by
            have hagr : ciStarts pdfExtLit (c :: s) = ciStarts pdfExtLit (c :: t) :=
              ciStarts_agree
                (show (c :: t).take k0.succ = (c :: s).take k0.succ from by
                  simp [h2]) (by simp [pdfExtLit]; omega)
            rw [hagr]
            exact hp
          simp [pdfScanA, hp2]
        · rw [show pdfScanA (c :: t) =
            (if isPdfBodyC c then (pdfScanA t).map (· + 1) else none) from by
              simp [pdfScanA, hp]] at hs
          by_cases hb : isPdfBodyC c
          · rw [if_pos hb] at hs
            cases ht : pdfScanA t with
            | none => rw [ht] at hs; cases hs
            | some n0 =>
              rw [ht] at hs
              simp only [Option.map_some', Option.some_inj] at hs
              have hn : n = n0 + 1 := hs.symm
              subst hn
              have hrec := ih h2 ht (by omega)
              have hp2 : ciStarts pdfExtLit (c :: s) = false := by
                have hagr : ciStarts pdfExtLit (c :: s) = ciStarts pdfExtLit (c :: t) :=
                  ciStarts_agree
                    (show (c :: t).take k0.succ = (c :: s).take k0.succ from by
                      simp [h2]) (by simp [pdfExtLit]; omega)
                rw [hagr]
                simpa using hp
              simp [pdfScanA, hp2, hb, hrec]
          · rw [if_neg hb] at hs; cases hs

end DW

namespace DW

theorem take_one_of_head {l : List Char} {c : Char} (h : l.head? = some c) :
    l.take 1 = [c] := by
  cases l with
  | nil => cases h
  | cons d t =>
    simp only [List.head?_cons, Option.some_inj] at h
    simp [h]

theorem get?_take {l : List Char} {i k : Nat} (h : i < k) :
    (l.take k).get? i = l.get? i := by
  induction l generalizing i k with
  | nil => simp
  | cons d t ih =>
    cases k with
    | zero => omega
    | succ k0 =>
      cases i with
      | zero => rfl
      | succ i0 => simpa using ih (by omega)

theorem drop_head?_lt {l : List Char} {n : Nat} {c : Char}
    (h : (l.drop n).head? = some c) : n < l.length := by
  by_contra hn
  rw [List.drop_eq_nil_of_le (by omega)] at h
  cases h

theorem getLast?_take_get? {l : List Char} {j : Nat} (h : j < l.length) :
    (l.take (j + 1)).getLast? = l.get? j := by
  induction l generalizing j with
  | nil => simp at h
  | cons d t ih =>
    cases j with
    | zero =>
      simp
    | succ j0 =>
      simp only [List.length_cons] at h
      have := ih (j := j0) (by omega)
      rw [List.take_succ_cons, List.get?_cons_succ, ← this]
      cases t with
      | nil => simp at h
      | cons e s =>
        cases j0 <;> simp [List.getLast?_cons_cons]

theorem getLast?_ne_nil {l : List Char} {c : Char} (h : l.getLast? = some c) :
    l ≠ [] := by
  intro he
  subst he
  cases h

theorem take_heads_decomp {l : List Char} {a b : Nat} :
    l.take (a + b) = l.take a ++ (l.drop a).take b := by
  rw [List.take_add]

end DW

namespace DW

/-! ### Header-group (`hdrCore`) facts -/

theorem hdrCore_inv (l : List Char) (pE : Nat) (h : hdrCore l = some pE) :
    ∃ w1 s6 w2 w3,
      l.take pE = '|' :: (w1 ++ (s6 ++ (w2 ++ '=' :: w3))) ∧
      w1.all isWsC = true ∧ ciEqL srcLit s6 = true ∧
      w2.all isWsC = true ∧ w3.all isWsC = true ∧
      w3.getLast? = some '\n' ∧ pE ≤ l.length ∧
      pE = 1 + (w1.length + (6 + (w2.length + (1 + w3.length)))) := by
  simp only [hdrCore] at h
  by_cases h1 : l.head? = some '|'
  · rw [if_pos h1] at h
    by_cases h2 : ciStarts srcLit (l.drop (1 + wsCount (l.drop 1)))
    · rw [if_pos h2] at h
      by_cases h3 : (l.drop (1 + wsCount (l.drop 1) + 6 +
          wsCount (l.drop (1 + wsCount (l.drop 1) + 6)))).head? = some '='
      · rw [if_pos h3] at h
        cases hj : lastIdxP (fun ch => ch = '\n')
            (l.drop (1 + wsCount (l.drop 1) + 6 +
              wsCount (l.drop (1 + wsCount (l.drop 1) + 6)) + 1)) with
        | none => rw [hj] at h; cases h
        | some j =>
          rw [hj] at h
          simp only [Option.some_inj] at h
          set r1 := wsCount (l.drop 1) with hr1
          set i2 := 1 + r1 with hi2
          set r2 := wsCount (l.drop (i2 + 6)) with hr2
          set i4 := i2 + 6 + r2 with hi4
          obtain ⟨hjlen, hjws, cj, hcj, hpj, _⟩ := lastIdxP_inv _ _ hj
          have hcjn : cj = '\n' := by simpa using hpj
          subst hcjn
          refine ⟨(l.drop 1).take r1, (l.drop i2).take 6, (l.drop (i2 + 6)).take r2,
            (l.drop (i4 + 1)).take (j + 1), ?_, wsCount_take_all _, ciStarts_take h2,
            wsCount_take_all _, ?_, ?_, ?_, ?_⟩
          · have e1 : l.take pE = l.take 1 ++ (l.drop 1).take (pE - 1) := by
              rw [← take_heads_decomp]
              congr 1 <;> omega
            have e2 : (l.drop 1).take (pE - 1) =
                (l.drop 1).take r1 ++ ((l.drop 1).drop r1).take (pE - 1 - r1) := by
              rw [← take_heads_decomp]
              congr 1 <;> omega
            have e3 : (l.drop 1).drop r1 = l.drop i2 := by
              rw [List.drop_drop]
              all_goals (congr 1 <;> omega)
            have e4 : (l.drop i2).take (pE - 1 - r1) =
                (l.drop i2).take 6 ++ ((l.drop i2).drop 6).take (pE - 1 - r1 - 6) := by
              rw [← take_heads_decomp]
              congr 1 <;> omega
            have e5 : (l.drop i2).drop 6 = l.drop (i2 + 6) := by
              rw [List.drop_drop]
              all_goals (congr 1 <;> omega)
            have e6 : (l.drop (i2 + 6)).take (pE - 1 - r1 - 6) =
                (l.drop (i2 + 6)).take r2 ++
                  ((l.drop (i2 + 6)).drop r2).take (pE - 1 - r1 - 6 - r2) := by
              rw [← take_heads_decomp]
              congr 1 <;> omega
            have e7 : (l.drop (i2 + 6)).drop r2 = l.drop i4 := by
              rw [List.drop_drop]
              all_goals (congr 1 <;> omega)
            have e8 : (l.drop i4).take (pE - 1 - r1 - 6 - r2) =
                (l.drop i4).take 1 ++ ((l.drop i4).drop 1).take (j + 1) := by
              rw [← take_heads_decomp]
              congr 1 <;> omega
            have e9 : (l.drop i4).drop 1 = l.drop (i4 + 1) := by
              rw [List.drop_drop]
              all_goals (congr 1 <;> omega)
            rw [e1, take_one_of_head h1, e2, e3, e4, e5, e6, e7, e8, e9,
              take_one_of_head h3]
            simp
          · exact hjws
          · rw [getLast?_take_get? hjlen]
            exact hcj
          · have hi4len : i4 < l.length := drop_head?_lt h3
            have : j < l.length - (i4 + 1) := by
              simpa using hjlen
            omega
          · have hb1 : r1 ≤ (l.drop 1).length := wsCount_le_length _
            have hb2 := ciStarts_length h2
            have hb3 : r2 ≤ (l.drop (i2 + 6)).length := wsCount_le_length _
            have h6 : ((l.drop 1).take r1).length = r1 := by
              simp only [List.length_take, List.length_drop] at *
              omega
            have h8 : ((l.drop (i2 + 6)).take r2).length = r2 := by
              simp only [List.length_take, List.length_drop] at *
              omega
            have h9 : ((l.drop (i4 + 1)).take (j + 1)).length = j + 1 := by
              simp only [List.length_take, List.length_drop] at *
              omega
            rw [h6, h8, h9]
            omega
      · rw [if_neg h3] at h; cases h
    · rw [if_neg h2] at h; cases h
  · rw [if_neg h1] at h; cases h

end DW

namespace DW

theorem hdrCore_eval (w1 s6 w2 w3 rest : List Char)
    (hw1 : w1.all isWsC = true) (hs6 : ciEqL srcLit s6 = true)
    (hw2 : w2.all isWsC = true) (hw3 : w3.all isWsC = true)
    (hg : w3.getLast? = some '\n') (hrest : wsCount rest = 0) :
    hdrCore ('|' :: (w1 ++ (s6 ++ (w2 ++ '=' :: (w3 ++ rest))))) =
      some (1 + (w1.length + (6 + (w2.length + (1 + w3.length))))) := by
  obtain ⟨c0, s6t, rfl⟩ : ∃ c0 s6t, s6 = c0 :: s6t := by
    cases s6 with
    | nil => cases hs6
    | cons a b => exact ⟨a, b, rfl⟩
  have hc0 : ciEqC 's' c0 = true := by
    have := hs6
    simp only [srcLit, ciEqL, Bool.and_eq_true] at this
    exact this.1
  have hc0w : isWsC c0 = false :=
    ci_not_ws (show ∃ pc ∈ ['s'], ciEqC pc c0 = true from ⟨'s', by simp, hc0⟩)
      (by decide)
  have hs6len : (c0 :: s6t).length = 6 := by
    rw [ciEqL_length hs6]
    rfl
  set S := (c0 :: s6t) ++ (w2 ++ '=' :: (w3 ++ rest)) with hS
  set T := w1 ++ S with hT
  have e1 : wsCount T = w1.length := by
    rw [hT]
    refine wsCount_run_append _ _ hw1 (wsCount_zero_of_head _ c0 (by simp [hS]) hc0w)
  have d2 : ('|' :: T).drop (1 + w1.length) = S := by
    rw [show (1 : Nat) + w1.length = w1.length + 1 from by omega, List.drop_succ_cons, hT,
      drop_append_ge (by omega)]
    simp
  have d3 : ('|' :: T).drop (1 + w1.length + 6) = w2 ++ '=' :: (w3 ++ rest) := by
    rw [show (1 : Nat) + w1.length + 6 = w1.length + 1 + 6 from by omega, ← List.drop_drop,
      show w1.length + 1 = 1 + w1.length from by omega, d2, hS,
      drop_append_ge (by omega)]
    simp [hs6len]
  have e3 : wsCount (w2 ++ '=' :: (w3 ++ rest)) = w2.length := by
    refine wsCount_run_append _ _ hw2 (wsCount_zero_of_head _ '=' (by simp) (by decide))
  have d4 : ('|' :: T).drop (1 + w1.length + 6 + w2.length) = '=' :: (w3 ++ rest) := by
    rw [← List.drop_drop, d3, drop_append_ge (by omega)]
    simp
  have d5 : ('|' :: T).drop (1 + w1.length + 6 + w2.length + 1) = w3 ++ rest := by
    rw [← List.drop_drop, d4]
    rfl
  have e5 : lastIdxP (fun ch => ch = '\n') (w3 ++ rest) = some (w3.length - 1) :=
    lastIdxP_last w3 rest '\n' hw3 hg (by simp) hrest
  have hw3pos : 0 < w3.length := List.length_pos.mpr (getLast?_ne_nil hg)
  simp only [hdrCore]
  rw [if_pos (show ('|' :: T).head? = some '|' from rfl)]
  rw [show ('|' :: T).drop 1 = T from rfl, e1, d2]
  rw [if_pos (show ciStarts srcLit S = true from by
    rw [hS]; exact ciStarts_of_ciEqL_append hs6)]
  rw [d3, e3, d4]
  rw [if_pos (show ('=' :: (w3 ++ rest)).head? = some '=' from rfl)]
  rw [d5, e5]
  simp only [Option.some_inj]
  omega

end DW

namespace DW

theorem hdr_tail_char_cases {w1 s6 w2 w3 : List Char} {c : Char}
    (hw1 : w1.all isWsC = true) (hs6 : ciEqL srcLit s6 = true)
    (hw2 : w2.all isWsC = true) (hw3 : w3.all isWsC = true)
    (hc : c ∈ w1 ++ (s6 ++ (w2 ++ '=' :: w3))) :
    isWsC c = true ∨ (∃ pc ∈ srcLit, ciEqC pc c = true) ∨ c = '=' := by
  simp only [List.mem_append, List.mem_cons] at hc
  rcases hc with h | h | h | h | h
  · exact Or.inl (by rw [List.all_eq_true] at hw1; exact hw1 c h)
  · exact Or.inr (Or.inl (ciEqL_mem hs6 h))
  · exact Or.inl (by rw [List.all_eq_true] at hw2; exact hw2 c h)
  · exact Or.inr (Or.inr h)
  · exact Or.inl (by rw [List.all_eq_true] at hw3; exact hw3 c h)

theorem hdr_char_ne_bar {w1 s6 w2 w3 : List Char} {c : Char}
    (hw1 : w1.all isWsC = true) (hs6 : ciEqL srcLit s6 = true)
    (hw2 : w2.all isWsC = true) (hw3 : w3.all isWsC = true)
    (hc : c ∈ w1 ++ (s6 ++ (w2 ++ '=' :: w3))) : c ≠ '|' := by
  rcases hdr_tail_char_cases hw1 hs6 hw2 hw3 hc with h | h | h
  · exact (ws_not_stop_char c h).1
  · exact ci_ne_of_all h (by decide)
  · subst h; decide

theorem hdr_char_ne_brace {w1 s6 w2 w3 : List Char} {c : Char}
    (hw1 : w1.all isWsC = true) (hs6 : ciEqL srcLit s6 = true)
    (hw2 : w2.all isWsC = true) (hw3 : w3.all isWsC = true)
    (hc : c ∈ w1 ++ (s6 ++ (w2 ++ '=' :: w3))) : c ≠ '\x7d' := by
  rcases hdr_tail_char_cases hw1 hs6 hw2 hw3 hc with h | h | h
  · rcases ws_char_cases c h with h1 | h1 | h1 | h1 | h1 | h1 | h1 | h1 | h1 | h1 <;>
      (subst h1; decide)
  · exact ci_ne_of_all h (by decide)
  · subst h; decide

theorem hdrCore_no_bar (l : List Char) (pE : Nat) (h : hdrCore l = some pE)
    (i : Nat) (h1 : 1 ≤ i) (h2 : i < pE) : l.get? i ≠ some '|' := by
  obtain ⟨w1, s6, w2, w3, hdec, hw1, hs6, hw2, hw3, _, _, _⟩ := hdrCore_inv l pE h
  intro hbar
  have h4 : (l.take pE).get? i = some '|' := by
    rw [get?_take h2]
    exact hbar
  rw [hdec] at h4
  have h5 : (w1 ++ (s6 ++ (w2 ++ '=' :: w3))).get? (i - 1) = some '|' := by
    cases i with
    | zero => omega
    | succ i0 => simpa using h4
  exact hdr_char_ne_bar hw1 hs6 hw2 hw3 (List.get?_mem h5) rfl

theorem mem_of_getLast? {l : List Char} {c : Char} (h : l.getLast? = some c) :
    c ∈ l := by
  induction l with
  | nil => cases h
  | cons d t ih =>
    cases t with
    | nil =>
      simp only [List.getLast?_singleton, Option.some_inj] at h
      simp [h]
    | cons e s =>
      rw [List.getLast?_cons_cons] at h
      exact List.mem_cons_of_mem _ (ih h)

theorem exists_get?_of_mem {l : List Char} {c : Char} (h : c ∈ l) :
    ∃ i, l.get? i = some c ∧ i < l.length := by
  induction l with
  | nil => cases h
  | cons d t ih =>
    rcases List.mem_cons.mp h with h1 | h1
    · exact ⟨0, by simp [h1], by simp⟩
    · obtain ⟨i, hi, hl⟩ := ih h1
      exact ⟨i + 1, by simpa using hi, by simpa using hl⟩

/-- If every newline of `t` is preceded by a closing brace, the header
group cannot match at `'|' :: t`: its captured whitespace-and-source
region would contain both the newline and, before it, the brace, but a
brace is not a legal header character. -/
theorem hdrCore_none_blocked (t : List Char)
    (hblk : ∀ i, t.get? i = some '\n' → ∃ j, j < i ∧ t.get? j = some '\x7d') :
    hdrCore ('|' :: t) = none := by
  cases h : hdrCore ('|' :: t) with
  | none => rfl
  | some pE =>
    exfalso
    obtain ⟨w1, s6, w2, w3, hdec, hw1, hs6, hw2, hw3, hg, hle, hlen⟩ :=
      hdrCore_inv _ _ h
    have htake : t.take (pE - 1) = w1 ++ (s6 ++ (w2 ++ '=' :: w3)) := by
      have h5 : ('|' :: t).take pE = '|' :: t.take (pE - 1) := by
        cases pE with
        | zero => omega
        | succ n => simp [List.take_succ_cons]
      rw [h5] at hdec
      exact (List.cons.injEq _ _ _ _ ▸ hdec).2
    have hnlmem : '\n' ∈ t.take (pE - 1) := by
      rw [htake]
      have : '\n' ∈ w3 := mem_of_getLast? hg
      simp [this]
    obtain ⟨i, hi, hil⟩ := exists_get?_of_mem hnlmem
    have hil2 : i < pE - 1 := by
      have := List.length_take (pE - 1) t
      omega
    have hit : t.get? i = some '\n' := by
      rw [← get?_take hil2]
      exact hi
    obtain ⟨j, hj, hjt⟩ := hblk i hit
    have hjmem : '\x7d' ∈ t.take (pE - 1) := mem_take_of_get? hjt (by omega)
    rw [htake] at hjmem
    exact hdr_char_ne_brace hw1 hs6 hw2 hw3 hjmem rfl

end DW

namespace DW

/-! ### Middle-segment (`midCore`) facts -/

theorem midCore_inv (l : List Char) (q : Nat) (h : midCore l = some q) :
    ∃ a1 a2 a3 s8 a4 s7 a5 s4 a6,
      l.take q = a1 ++ ':' :: (a2 ++ '\x7b' :: '\x7b' ::
        (a3 ++ (s8 ++ (a4 ++ (s7 ++ (a5 ++ (s4 ++ (a6 ++ ['|'])))))))) ∧
      a1.all isWsC = true ∧ a2.all isWsC = true ∧ a3.all isWsC = true ∧
      a4.all isWsC = true ∧ a5.all isWsC = true ∧ a6.all isWsC = true ∧
      ciEqL internetLit s8 = true ∧ ciEqL archiveLit s7 = true ∧
      ciEqL linkLit s4 = true ∧
      a1.length = wsCount l ∧ q ≤ l.length ∧
      q = a1.length + 1 + (a2.length + 2 + (a3.length + (8 + (a4.length +
        (7 + (a5.length + (4 + (a6.length + 1)))))))) := by
  simp only [midCore, Bool.and_eq_true, decide_eq_true_eq, ne_eq] at h
  by_cases g1 : (l.drop (wsCount l)).head? = some ':'
  · rw [if_pos g1] at h
    set i6 := wsCount l with hi6
    by_cases g2 : (l.drop (i6 + 1 + wsCount (l.drop (i6 + 1)))).head? = some '\x7b' ∧
        (l.drop (i6 + 1 + wsCount (l.drop (i6 + 1)) + 1)).head? = some '\x7b'
    · rw [if_pos g2] at h
      set r1 := wsCount (l.drop (i6 + 1)) with hr1
      set i7 := i6 + 1 + r1 with hi7
      by_cases g3 : ciStarts internetLit (l.drop (i7 + 2 + wsCount (l.drop (i7 + 2))))
      · rw [if_pos g3] at h
        set r2 := wsCount (l.drop (i7 + 2)) with hr2
        set i8 := i7 + 2 + r2 with hi8
        by_cases g4 : ¬wsCount (l.drop (i8 + 8)) = 0 ∧
            ciStarts archiveLit (l.drop (i8 + 8 + wsCount (l.drop (i8 + 8)))) = true
        · rw [if_pos g4] at h
          set v1 := wsCount (l.drop (i8 + 8)) with hv1
          set i9 := i8 + 8 + v1 + 7 with hi9
          by_cases g5 : ¬wsCount (l.drop i9) = 0 ∧
              ciStarts linkLit (l.drop (i9 + wsCount (l.drop i9))) = true
          · rw [if_pos g5] at h
            set v2 := wsCount (l.drop i9) with hv2
            set i10 := i9 + v2 + 4 with hi10
            by_cases g6 : (l.drop (i10 + wsCount (l.drop i10))).head? = some '|'
            · rw [if_pos g6] at h
              set r3 := wsCount (l.drop i10) with hr3
              set i11 := i10 + r3 with hi11
              simp only [Option.some_inj] at h
              have hq : q = i11 + 1 := h.symm
              have hbar : i11 < l.length := drop_head?_lt g6
              have hcolon : i6 < l.length := drop_head?_lt g1
              have hbr1 : i7 < l.length := drop_head?_lt g2.1
              have hbr2 : i7 + 1 < l.length := drop_head?_lt g2.2
              have hint : 8 ≤ l.length - i8 := by
                have := ciStarts_length g3
                simp only [show internetLit.length = 8 from rfl, List.length_drop] at this
                omega
              have harc : 7 ≤ l.length - (i8 + 8 + v1) := by
                have := ciStarts_length g4.2
                simp only [show archiveLit.length = 7 from rfl, List.length_drop] at this
                omega
              have hlnk : 4 ≤ l.length - (i9 + v2) := by
                have := ciStarts_length g5.2
                simp only [show linkLit.length = 4 from rfl, List.length_drop] at this
                omega
              refine ⟨l.take i6, (l.drop (i6 + 1)).take r1, (l.drop (i7 + 2)).take r2,
                (l.drop i8).take 8, (l.drop (i8 + 8)).take v1,
                (l.drop (i8 + 8 + v1)).take 7, (l.drop i9).take v2,
                (l.drop (i9 + v2)).take 4, (l.drop i10).take r3,
                ?_, wsCount_take_all _, wsCount_take_all _, wsCount_take_all _,
                wsCount_take_all _, wsCount_take_all _, wsCount_take_all _,
                ciStarts_take g3, ciStarts_take g4.2, ciStarts_take g5.2,
                ?_, by omega, ?_⟩
              · have e0 : l.take q = l.take i6 ++ (l.drop i6).take (q - i6) := by
                  rw [← take_heads_decomp]
                  congr 1
                  omega
                have e1 : (l.drop i6).take (q - i6) =
                    (l.drop i6).take 1 ++ (l.drop (i6 + 1)).take (q - i6 - 1) := by
                  rw [show l.drop (i6 + 1) = (l.drop i6).drop 1 from by
                    rw [List.drop_drop]; all_goals (congr 1 <;> omega), ← take_heads_decomp]
                  congr 1
                  omega
                have e2 : (l.drop (i6 + 1)).take (q - i6 - 1) =
                    (l.drop (i6 + 1)).take r1 ++ (l.drop i7).take (q - i7) := by
                  rw [show l.drop i7 = (l.drop (i6 + 1)).drop r1 from by
                    rw [List.drop_drop]; all_goals (congr 1 <;> omega), ← take_heads_decomp]
                  congr 1
                  omega
                have e3 : (l.drop i7).take (q - i7) =
                    (l.drop i7).take 1 ++ ((l.drop (i7 + 1)).take 1 ++
                      (l.drop (i7 + 2)).take (q - i7 - 2)) := by
                  rw [show l.drop (i7 + 1) = (l.drop i7).drop 1 from by
                    rw [List.drop_drop]; all_goals (congr 1 <;> omega)]
                  rw [show l.drop (i7 + 2) = ((l.drop i7).drop 1).drop 1 from by
                    rw [List.drop_drop, List.drop_drop]; all_goals (congr 1 <;> omega)]
                  rw [← take_heads_decomp, ← take_heads_decomp]
                  congr 1
                  omega
                have e4 : (l.drop (i7 + 2)).take (q - i7 - 2) =
                    (l.drop (i7 + 2)).take r2 ++ (l.drop i8).take (q - i8) := by
                  rw [show l.drop i8 = (l.drop (i7 + 2)).drop r2 from by
                    rw [List.drop_drop]; all_goals (congr 1 <;> omega), ← take_heads_decomp]
                  congr 1
                  omega
                have e5 : (l.drop i8).take (q - i8) =
                    (l.drop i8).take 8 ++ (l.drop (i8 + 8)).take (q - i8 - 8) := by
                  rw [show l.drop (i8 + 8) = (l.drop i8).drop 8 from by
                    rw [List.drop_drop]; all_goals (congr 1 <;> omega), ← take_heads_decomp]
                  congr 1
                  omega
                have e6 : (l.drop (i8 + 8)).take (q - i8 - 8) =
                    (l.drop (i8 + 8)).take v1 ++ (l.drop (i8 + 8 + v1)).take (q - i8 - 8 - v1) := by
                  rw [show l.drop (i8 + 8 + v1) = (l.drop (i8 + 8)).drop v1 from by
                    rw [List.drop_drop]; all_goals (congr 1 <;> omega), ← take_heads_decomp]
                  congr 1
                  omega
                have e7 : (l.drop (i8 + 8 + v1)).take (q - i8 - 8 - v1) =
                    (l.drop (i8 + 8 + v1)).take 7 ++ (l.drop i9).take (q - i9) := by
                  rw [show l.drop i9 = (l.drop (i8 + 8 + v1)).drop 7 from by
                    rw [List.drop_drop]; all_goals (congr 1 <;> omega), ← take_heads_decomp]
                  congr 1
                  omega
                have e8 : (l.drop i9).take (q - i9) =
                    (l.drop i9).take v2 ++ (l.drop (i9 + v2)).take (q - i9 - v2) := by
                  rw [show l.drop (i9 + v2) = (l.drop i9).drop v2 from by
                    rw [List.drop_drop]; all_goals (congr 1 <;> omega), ← take_heads_decomp]
                  congr 1
                  omega
                have e9 : (l.drop (i9 + v2)).take (q - i9 - v2) =
                    (l.drop (i9 + v2)).take 4 ++ (l.drop i10).take (q - i10) := by
                  rw [show l.drop i10 = (l.drop (i9 + v2)).drop 4 from by
                    rw [List.drop_drop]; all_goals (congr 1 <;> omega), ← take_heads_decomp]
                  congr 1
                  omega
                have e10 : (l.drop i10).take (q - i10) =
                    (l.drop i10).take r3 ++ (l.drop i11).take 1 := by
                  rw [show l.drop i11 = (l.drop i10).drop r3 from by
                    rw [List.drop_drop]; all_goals (congr 1 <;> omega), ← take_heads_decomp]
                  congr 1
                  omega
                rw [e0, e1, e2, e3, e4, e5, e6, e7, e8, e9, e10,
                  take_one_of_head g1, take_one_of_head g2.1, take_one_of_head g2.2,
                  take_one_of_head g6]
                simp
              · have : i6 ≤ l.length := by omega
                simp [this]
              · have b1 : ((l.take i6).length) = i6 := by
                  have : i6 ≤ l.length := by omega
                  simp [this]
                have b2 : ((l.drop (i6 + 1)).take r1).length = r1 := by
                  have := wsCount_le_length (l.drop (i6 + 1))
                  simp only [List.length_take, List.length_drop] at *
                  omega
                have b3 : ((l.drop (i7 + 2)).take r2).length = r2 := by
                  have := wsCount_le_length (l.drop (i7 + 2))
                  simp only [List.length_take, List.length_drop] at *
                  omega
                have b4 : ((l.drop (i8 + 8)).take v1).length = v1 := by
                  have := wsCount_le_length (l.drop (i8 + 8))
                  simp only [List.length_take, List.length_drop] at *
                  omega
                have b5 : ((l.drop i9).take v2).length = v2 := by
                  have := wsCount_le_length (l.drop i9)
                  simp only [List.length_take, List.length_drop] at *
                  omega
                have b6 : ((l.drop i10).take r3).length = r3 := by
                  have := wsCount_le_length (l.drop i10)
                  simp only [List.length_take, List.length_drop] at *
                  omega
                have b7 : ((l.drop i8).take 8).length = 8 := by
                  simp only [List.length_take, List.length_drop]
                  omega
                have b8 : ((l.drop (i8 + 8 + v1)).take 7).length = 7 := by
                  simp only [List.length_take, List.length_drop]
                  omega
                have b9 : ((l.drop (i9 + v2)).take 4).length = 4 := by
                  simp only [List.length_take, List.length_drop]
                  omega
                rw [b1, b2, b3, b4, b5, b6]
                omega
            · rw [if_neg g6] at h; cases h
          · rw [if_neg (by
              intro hc
              exact g5 ⟨by simpa using hc.1, hc.2⟩)] at h
            cases h
        · rw [if_neg (by
            intro hc
            exact g4 ⟨by simpa using hc.1, hc.2⟩)] at h
          cases h
      · rw [if_neg g3] at h; cases h
    · rw [if_neg g2] at h; cases h
  · rw [if_neg g1] at h; cases h

end DW

namespace DW

theorem mid_char_ne_bar {a1 a2 a3 s8 a4 s7 a5 s4 a6 : List Char} {c : Char}
    (hb1 : a1.all isWsC = true) (ha2 : a2.all isWsC = true)
    (ha3 : a3.all isWsC = true) (ha4 : a4.all isWsC = true)
    (ha5 : a5.all isWsC = true) (ha6 : a6.all isWsC = true)
    (hs8 : ciEqL internetLit s8 = true) (hs7 : ciEqL archiveLit s7 = true)
    (hs4 : ciEqL linkLit s4 = true)
    (hc : c ∈ a1 ++ ':' :: (a2 ++ '\x7b' :: '\x7b' ::
      (a3 ++ (s8 ++ (a4 ++ (s7 ++ (a5 ++ (s4 ++ a6)))))))) : c ≠ '|' := by
  simp only [List.mem_append, List.mem_cons] at hc
  have hws : ∀ d : Char, isWsC d = true → d ≠ '|' :=
    fun d hd => (ws_not_stop_char d hd).1
  rcases hc with h | h | h | h | h | h | h | h | h | h | h
  · exact hws c (by rw [List.all_eq_true] at hb1; exact hb1 c h)
  · subst h; decide
  · exact hws c (by rw [List.all_eq_true] at ha2; exact ha2 c h)
  · subst h; decide
  · subst h; decide
  · exact hws c (by rw [List.all_eq_true] at ha3; exact ha3 c h)
  · exact ci_ne_of_all (ciEqL_mem hs8 h) (by decide)
  · exact hws c (by rw [List.all_eq_true] at ha4; exact ha4 c h)
  · exact ci_ne_of_all (ciEqL_mem hs7 h) (by decide)
  · exact hws c (by rw [List.all_eq_true] at ha5; exact ha5 c h)
  · rcases h with h | h
    · exact ci_ne_of_all (ciEqL_mem hs4 h) (by decide)
    · exact hws c (by rw [List.all_eq_true] at ha6; exact ha6 c h)

theorem midCore_no_bar (l : List Char) (q : Nat) (h : midCore l = some q)
    (i : Nat) (h2 : i < q - 1) : l.get? i ≠ some '|' := by
  obtain ⟨a1, a2, a3, s8, a4, s7, a5, s4, a6, hdec, h1, hA2, hA3, hA4, hA5, hA6,
    h8, h7, h4, _, hle, hlen⟩ := midCore_inv l q h
  intro hbar
  have hq1 : i < q := by omega
  have hg : (l.take q).get? i = some '|' := by
    rw [get?_take hq1]
    exact hbar
  -- the bar must be the final character
  have hsplit : l.take q = (a1 ++ ':' :: (a2 ++ '\x7b' :: '\x7b' ::
      (a3 ++ (s8 ++ (a4 ++ (s7 ++ (a5 ++ (s4 ++ a6)))))))) ++ ['|'] := by
    rw [hdec]
    simp
  rw [hsplit] at hg
  have hl8 : s8.length = 8 := by rw [ciEqL_length h8]; rfl
  have hl7 : s7.length = 7 := by rw [ciEqL_length h7]; rfl
  have hl4 : s4.length = 4 := by rw [ciEqL_length h4]; rfl
  have hplen : (a1 ++ ':' :: (a2 ++ '\x7b' :: '\x7b' ::
      (a3 ++ (s8 ++ (a4 ++ (s7 ++ (a5 ++ (s4 ++ a6)))))))).length = q - 1 := by
    simp only [List.length_append, List.length_cons]
    omega
  rw [get?_append_left (by omega)] at hg
  exact mid_char_ne_bar h1 hA2 hA3 hA4 hA5 hA6 h8 h7 h4 (List.get?_mem hg) rfl

theorem midCore_last_bar (l : List Char) (q : Nat) (h : midCore l = some q) :
    l.get? (q - 1) = some '|' := by
  obtain ⟨a1, a2, a3, s8, a4, s7, a5, s4, a6, hdec, _, _, _, _, _, _, _, _, _,
    _, hle, hlen⟩ := midCore_inv l q h
  have hlt : q - 1 < q := by omega
  have hsplit : l.take q = (a1 ++ ':' :: (a2 ++ '\x7b' :: '\x7b' ::
      (a3 ++ (s8 ++ (a4 ++ (s7 ++ (a5 ++ (s4 ++ a6)))))))) ++ ['|'] := by
    rw [hdec]
    simp
  have hql : (l.take q).length = q := by
    simp only [List.length_take]
    omega
  rw [← get?_take hlt, ← getLast?_take_get? (by omega : q - 1 < (l.take q).length),
    List.take_take, Nat.min_eq_left (by omega), show q - 1 + 1 = q from by omega,
    hsplit, List.getLast?_concat]

theorem midCore_wsCount_lt (l : List Char) (q : Nat) (h : midCore l = some q) :
    wsCount l < q := by
  obtain ⟨a1, _, _, _, _, _, _, _, _, _, _, _, _, _, _, _, _, _, _, ha1len, _,
    hlen⟩ := midCore_inv l q h
  omega

theorem midCore_none_head (l : List Char) (c : Char) (hh : l.head? = some c)
    (hws : isWsC c = false) (hc : c ≠ ':') : midCore l = none := by
  have h0 : wsCount l = 0 := wsCount_zero_of_head l c hh hws
  simp only [midCore, h0, List.drop_zero, hh]
  rw [if_neg (by simpa using hc)]

end DW

namespace DW

/-! ### Identifier-segment (`iaidCore`) facts -/

theorem ws_ne_brace (c : Char) (h : isWsC c = true) : c ≠ '\x7d' := by
  rcases ws_char_cases c h with h1 | h1 | h1 | h1 | h1 | h1 | h1 | h1 | h1 | h1 <;>
    (subst h1; decide)

theorem iaidCore_chars (l ia : List Char) (c : Nat) (h : iaidCore l = some (ia, c)) :
    (ia.all fun ch => !isStopC ch) = true := by
  simp only [iaidCore] at h
  cases hR : (l.drop (wsCount l)).head? with
  | none => rw [hR] at h; cases h
  | some c0 =>
    rw [hR] at h
    dsimp only [] at h
    by_cases hc0 : c0 = '\x7d'
    · rw [if_pos hc0] at h
      cases hj : lastIdxP (fun ch => !(ch = '\n' || ch = '\r')) l with
      | none => rw [hj] at h; cases h
      | some j =>
        rw [hj] at h
        dsimp only [] at h
        by_cases hg : (l.drop (wsCount l + 1)).head? = some '\x7d'
        · rw [if_pos hg] at h
          simp only [Option.some_inj, Prod.mk.injEq] at h
          obtain ⟨hia, _⟩ := h
          obtain ⟨hjl, _, cj, hcj, hpj, hwj⟩ := lastIdxP_inv _ _ hj
          have hia2 : ia = [cj] := by
            rw [← hia, take_one_of_head (by rw [head?_drop]; exact hcj)]
          rw [hia2]
          have hbr := ws_ne_brace cj hwj
          have h1 : cj ≠ '\n' ∧ cj ≠ '\x0d' := by simpa using hpj
          simp [isStopC, hbr, h1.1, h1.2]
        · rw [if_neg hg] at h; cases h
    · rw [if_neg hc0] at h
      by_cases hg : ((l.drop (wsCount l + stopCount (l.drop (wsCount l)) +
          wsCount (l.drop (wsCount l + stopCount (l.drop (wsCount l)))))).head? = some '\x7d' &&
          (l.drop (wsCount l + stopCount (l.drop (wsCount l)) +
            wsCount (l.drop (wsCount l + stopCount (l.drop (wsCount l)))) + 1)).head? =
              some '\x7d') = true
      · rw [if_pos hg] at h
        simp only [Option.some_inj, Prod.mk.injEq] at h
        obtain ⟨hia, _⟩ := h
        set R := wsCount l with hRdef
        set F := R + stopCount (l.drop R) with hFdef
        have hsub : ia = (l.drop R).take
            (rstripLen ((l.take F).drop R)) := by
          rw [← hia, List.drop_take]
          congr 1
          omega
        have hslice : (l.take F).drop R = (l.drop R).take (stopCount (l.drop R)) := by
          rw [List.drop_take]
          congr 1
          omega
        have hrle : rstripLen ((l.take F).drop R) ≤ stopCount (l.drop R) := by
          have h1 : rstripLen ((l.take F).drop R) ≤ ((l.take F).drop R).length := by
            simp [rstripLen]
          have h2 : ((l.take F).drop R).length ≤ stopCount (l.drop R) := by
            simp only [List.length_drop, List.length_take]
            have := stopCount_le_length (l.drop R)
            simp only [List.length_drop] at this
            omega
          omega
        rw [hsub, show (l.drop R).take (rstripLen ((l.take F).drop R)) =
            ((l.drop R).take (stopCount (l.drop R))).take
              (rstripLen ((l.take F).drop R)) from by
          rw [List.take_take, Nat.min_eq_left hrle]]
        exact all_take _ _ (stopCount_take_all (l.drop R))
      · rw [if_neg (by simpa using hg)] at h; cases h

theorem iaidCore_bounds (l ia : List Char) (c : Nat) (h : iaidCore l = some (ia, c)) :
    2 ≤ c ∧ c ≤ l.length ∧ wsCount l + 2 ≤ c := by
  simp only [iaidCore] at h
  cases hR : (l.drop (wsCount l)).head? with
  | none => rw [hR] at h; cases h
  | some c0 =>
    rw [hR] at h
    dsimp only [] at h
    by_cases hc0 : c0 = '\x7d'
    · rw [if_pos hc0] at h
      cases hj : lastIdxP (fun ch => !(ch = '\n' || ch = '\r')) l with
      | none => rw [hj] at h; cases h
      | some j =>
        rw [hj] at h
        dsimp only [] at h
        by_cases hg : (l.drop (wsCount l + 1)).head? = some '\x7d'
        · rw [if_pos hg] at h
          simp only [Option.some_inj, Prod.mk.injEq] at h
          have := drop_head?_lt hg
          omega
        · rw [if_neg hg] at h; cases h
    · rw [if_neg hc0] at h
      by_cases hg : ((l.drop (wsCount l + stopCount (l.drop (wsCount l)) +
          wsCount (l.drop (wsCount l + stopCount (l.drop (wsCount l)))))).head? = some '\x7d' &&
          (l.drop (wsCount l + stopCount (l.drop (wsCount l)) +
            wsCount (l.drop (wsCount l + stopCount (l.drop (wsCount l)))) + 1)).head? =
              some '\x7d') = true
      · rw [if_pos hg] at h
        simp only [Option.some_inj, Prod.mk.injEq] at h
        simp only [Bool.and_eq_true] at hg
        have := drop_head?_lt (of_decide_eq_true hg.2)
        omega
      · rw [if_neg (by simpa using hg)] at h; cases h

theorem get?_ws_of_lt_wsCount (l : List Char) (i : Nat) (hi : i < wsCount l) :
    ∃ c, l.get? i = some c ∧ isWsC c = true := by
  induction l generalizing i with
  | nil => simp [wsCount] at hi
  | cons d t ih =>
    by_cases hd : isWsC d
    · cases i with
      | zero => exact ⟨d, rfl, hd⟩
      | succ i0 =>
        have : wsCount (d :: t) = wsCount t + 1 := by simp [wsCount, hd]
        obtain ⟨c, h1, h2⟩ := ih i0 (by omega)
        exact ⟨c, by simpa using h1, h2⟩
    · rw [wsCount_nonws_head d t (by simpa using hd)] at hi
      omega

theorem iaidCore_cross (l ia : List Char) (c β : Nat)
    (h : iaidCore l = some (ia, c)) (hb : l.get? β = some '|') (hβ : β < c) :
    wsCount l ≤ β ∧ β < wsCount l + stopCount (l.drop (wsCount l)) ∧
      wsCount l + stopCount (l.drop (wsCount l)) < l.length ∧
      (l.drop (wsCount l + stopCount (l.drop (wsCount l)) +
        wsCount (l.drop (wsCount l + stopCount (l.drop (wsCount l)))))).head? =
          some '\x7d' := by
  have hnotws : ¬ (wsCount l ≤ β) → False := by
    intro hlt
    push_neg at hlt
    obtain ⟨cw, h1, h2⟩ := get?_ws_of_lt_wsCount l β hlt
    rw [hb] at h1
    have : cw = '|' := by simpa using h1.symm
    subst this
    exact absurd h2 (by decide)
  have hRβ : wsCount l ≤ β := by
    by_contra hc
    exact hnotws hc
  simp only [iaidCore] at h
  cases hR : (l.drop (wsCount l)).head? with
  | none => rw [hR] at h; cases h
  | some c0 =>
    rw [hR] at h
    dsimp only [] at h
    by_cases hc0 : c0 = '\x7d'
    · rw [if_pos hc0] at h
      cases hj : lastIdxP (fun ch => !(ch = '\n' || ch = '\r')) l with
      | none => rw [hj] at h; cases h
      | some j =>
        rw [hj] at h
        dsimp only [] at h
        by_cases hg : (l.drop (wsCount l + 1)).head? = some '\x7d'
        · rw [if_pos hg] at h
          simp only [Option.some_inj, Prod.mk.injEq] at h
          exfalso
          -- β is wsCount l or wsCount l + 1, both holding a brace
          have hc2 : c = wsCount l + 2 := h.2.symm
          have hcase : β = wsCount l ∨ β = wsCount l + 1 := by omega
          rcases hcase with h1 | h1
          · rw [h1] at hb
            have h2 : l.get? (wsCount l) = some '\x7d' := by
              rw [← head?_drop, hR, hc0]
            exact absurd (hb.symm.trans h2) (by decide)
          · rw [h1] at hb
            have h2 : l.get? (wsCount l + 1) = some '\x7d' := by
              rw [← head?_drop]
              exact hg
            exact absurd (hb.symm.trans h2) (by decide)
        · rw [if_neg hg] at h; cases h
    · rw [if_neg hc0] at h
      by_cases hg : ((l.drop (wsCount l + stopCount (l.drop (wsCount l)) +
          wsCount (l.drop (wsCount l + stopCount (l.drop (wsCount l)))))).head? = some '\x7d' &&
          (l.drop (wsCount l + stopCount (l.drop (wsCount l)) +
            wsCount (l.drop (wsCount l + stopCount (l.drop (wsCount l)))) + 1)).head? =
              some '\x7d') = true
      · rw [if_pos hg] at h
        simp only [Option.some_inj, Prod.mk.injEq] at h
        simp only [Bool.and_eq_true] at hg
        have hg1 := of_decide_eq_true hg.1
        have hg2 := of_decide_eq_true hg.2
        set R := wsCount l with hRdef
        set F := R + stopCount (l.drop R) with hFdef
        set pp := F + wsCount (l.drop F) with hppdef
        have hc2 : c = pp + 2 := h.2.symm
        have hppl : pp < l.length := drop_head?_lt hg1
        refine ⟨hRβ, ?_, by omega, hg1⟩
        -- β cannot lie in the whitespace run after F nor on the braces
        by_contra hFβ
        push_neg at hFβ
        have hcase : (F ≤ β ∧ β < pp) ∨ β = pp ∨ β = pp + 1 := by omega
        rcases hcase with ⟨h1, h2⟩ | h1 | h1
        · obtain ⟨cw, hw1, hw2⟩ := get?_ws_of_lt_wsCount (l.drop F) (β - F) (by omega)
          rw [List.get?_drop] at hw1
          rw [show F + (β - F) = β from by omega, hb] at hw1
          have : cw = '|' := by simpa using hw1.symm
          subst this
          exact absurd hw2 (by decide)
        · subst h1
          have h3 := hg1
          rw [head?_drop] at h3
          exact absurd (hb.symm.trans h3) (by decide)
        · subst h1
          have h3 := hg2
          rw [head?_drop] at h3
          exact absurd (hb.symm.trans h3) (by decide)
      · rw [if_neg (by simpa using hg)] at h; cases h

theorem iaidCore_guard (l ia : List Char) (c : Nat) (c0 : Char)
    (h : iaidCore l = some (ia, c))
    (hR : (l.drop (wsCount l)).head? = some c0) (hc0 : c0 ≠ '\x7d') :
    (l.drop (wsCount l + stopCount (l.drop (wsCount l)) +
      wsCount (l.drop (wsCount l + stopCount (l.drop (wsCount l)))))).head? =
        some '\x7d' := by
  simp only [iaidCore] at h
  rw [hR] at h
  dsimp only [] at h
  rw [if_neg hc0] at h
  by_cases hg : ((l.drop (wsCount l + stopCount (l.drop (wsCount l)) +
      wsCount (l.drop (wsCount l + stopCount (l.drop (wsCount l)))))).head? = some '\x7d' &&
      (l.drop (wsCount l + stopCount (l.drop (wsCount l)) +
        wsCount (l.drop (wsCount l + stopCount (l.drop (wsCount l)))) + 1)).head? =
          some '\x7d') = true
  · simpa using (Bool.and_eq_true _ _ |>.mp hg).1
  · rw [if_neg (by simpa using hg)] at h; cases h

end DW

namespace DW

/-! ### Pdf capture and tail facts -/

/-- Characters that may not appear anywhere in a pdf capture. -/
def okPdfC (c : Char) : Bool := !(c = '|' || c = '\n' || c = '\x7d')

theorem pdfScanA_inv (l : List Char) (k : Nat) (h : pdfScanA l = some k) :
    ((l.take k).all isPdfBodyC) = true ∧ ciStarts pdfExtLit (l.drop k) = true := by
  induction l generalizing k with
  | nil => cases h
  | cons c t ih =>
    by_cases hp : ciStarts pdfExtLit (c :: t)
    · rw [show pdfScanA (c :: t) = some 0 from by simp [pdfScanA, hp]] at h
      simp only [Option.some_inj] at h
      subst h
      exact ⟨rfl, hp⟩
    · rw [show pdfScanA (c :: t) =
        (if isPdfBodyC c then (pdfScanA t).map (· + 1) else none) from by
          simp [pdfScanA, hp]] at h
      by_cases hb : isPdfBodyC c
      · rw [if_pos hb] at h
        cases ht : pdfScanA t with
        | none => rw [ht] at h; cases h
        | some k0 =>
          rw [ht] at h
          simp only [Option.map_some', Option.some_inj] at h
          subst h
          obtain ⟨h1, h2⟩ := ih k0 ht
          exact ⟨by simpa [hb] using h1, by simpa using h2⟩
      · rw [if_neg hb] at h; cases h

theorem pdfExt_all_ok : (pdfExtLit.all okPdfC) = true := by decide

theorem ci_all_ok {pat s : List Char} (h : ciEqL pat s = true)
    (hp : (pat.all fun pc =>
      !(ciEqC pc '|' || ciEqC pc '\n' || ciEqC pc '\x7d')) = true) :
    (s.all okPdfC) = true := by
  rw [List.all_eq_true]
  intro c hc
  obtain ⟨pc, hpc, he⟩ := ciEqL_mem h hc
  rw [List.all_eq_true] at hp
  have h2 := hp pc hpc
  simp only [Bool.not_eq_true', Bool.or_eq_false_iff] at h2
  simp only [okPdfC, Bool.not_eq_true', Bool.or_eq_false_iff, decide_eq_false_iff_not]
  exact ⟨⟨pred_ne he h2.1.1, pred_ne he h2.1.2⟩, pred_ne he h2.2⟩

theorem isPdfBody_ok (c : Char) (h : isPdfBodyC c = true) : okPdfC c = true := by
  simp only [okPdfC, Bool.not_eq_true', Bool.or_eq_false_iff, decide_eq_false_iff_not]
  refine ⟨⟨?_, ?_⟩, ?_⟩ <;> (rintro rfl; exact absurd h (by decide))

theorem body_all_ok {l : List Char} (h : (l.all isPdfBodyC) = true) :
    (l.all okPdfC) = true := by
  rw [List.all_eq_true] at h ⊢
  exact fun c hc => isPdfBody_ok c (h c hc)

theorem pdfCore_inv (l pdf : List Char) (n : Nat) (h : pdfCore l = some (pdf, n)) :
    pdf = l.take n ∧ 0 < n ∧ n ≤ l.length ∧ (pdf.all okPdfC) = true := by
  simp only [pdfCore] at h
  by_cases h1 : ciStarts httpLit l
  · rw [if_pos h1] at h
    set k := if (l.drop 4).head?.map lowerA = some 's' then 5 else 4 with hk
    by_cases h2 : ciStarts dlLit (l.drop k)
    · rw [if_pos h2] at h
      cases h3 : pdfBodyEnd (l.drop (k + dlLit.length)) with
      | none => rw [h3] at h; cases h
      | some bl =>
        rw [h3] at h
        dsimp only [] at h
        simp only [Option.some_inj, Prod.mk.injEq] at h
        obtain ⟨hpdf, hn⟩ := h
        -- unfold pdfBodyEnd
        obtain ⟨c0, t0, hdrop, hc0, k0, hscan, hbl⟩ :
            ∃ c0 t0, l.drop (k + dlLit.length) = c0 :: t0 ∧ isPdfBodyC c0 = true ∧
              ∃ k0, pdfScanA t0 = some k0 ∧ bl = k0 + 1 + 4 := by
          cases hd : l.drop (k + dlLit.length) with
          | nil => rw [hd] at h3; cases h3
          | cons c0 t0 =>
            rw [hd] at h3
            simp only [pdfBodyEnd] at h3
            by_cases hc0 : isPdfBodyC c0
            · rw [if_pos hc0] at h3
              cases hs : pdfScanA t0 with
              | none => rw [hs] at h3; cases h3
              | some k0 =>
                rw [hs] at h3
                simp only [Option.map_some', Option.some_inj] at h3
                exact ⟨c0, t0, rfl, hc0, k0, hs, by omega⟩
            · rw [if_neg hc0] at h3; cases h3
        subst hn
        obtain ⟨hbody, hext⟩ := pdfScanA_inv t0 k0 hscan
        have hextlen : 4 ≤ t0.length - k0 := by
          have := ciStarts_length hext
          simp only [show pdfExtLit.length = 4 from rfl, List.length_drop] at this
          omega
        have hk0len : k0 ≤ t0.length := by omega
        have hlen : k + dlLit.length + bl ≤ l.length := by
          have hlen2 : (l.drop (k + dlLit.length)).length = l.length - (k + dlLit.length) := by
            simp
          rw [hdrop] at hlen2
          simp only [List.length_cons] at hlen2
          omega
        refine ⟨hpdf.symm, by omega, hlen, ?_⟩
        rw [← hpdf]
        -- decompose the capture
        have hd1 : l.take (k + dlLit.length + bl) =
            l.take k ++ (l.drop k).take (dlLit.length + bl) := by
          rw [← take_heads_decomp]
          congr 1
          omega
        have hd2 : (l.drop k).take (dlLit.length + bl) =
            (l.drop k).take dlLit.length ++ (l.drop (k + dlLit.length)).take bl := by
          rw [show l.drop (k + dlLit.length) = (l.drop k).drop dlLit.length from by
            rw [List.drop_drop]; all_goals (congr 1 <;> omega), ← take_heads_decomp]
        have hd3 : (l.drop (k + dlLit.length)).take bl =
            c0 :: (t0.take k0 ++ (t0.drop k0).take 4) := by
          rw [hdrop, hbl]
          rw [show k0 + 1 + 4 = (k0 + 4) + 1 from by omega, List.take_succ_cons]
          rw [← take_heads_decomp]
        rw [hd1, hd2, hd3]
        rw [List.all_append, List.all_append]
        simp only [Bool.and_eq_true]
        refine ⟨?_, ci_all_ok (ciStarts_take h2) (by decide), ?_⟩
        · -- the http (and optional s) prefix
          by_cases hs : (l.drop 4).head?.map lowerA = some 's'
          · have hk5 : k = 5 := by rw [hk, if_pos hs]
            rw [hk5, show (5 : Nat) = 4 + 1 from rfl, take_heads_decomp]
            rw [List.all_append]
            simp only [Bool.and_eq_true]
            refine ⟨ci_all_ok (ciStarts_take h1) (by decide), ?_⟩
            cases hd : (l.drop 4).head? with
            | none => rw [hd] at hs; cases hs
            | some c4 =>
              rw [hd] at hs
              simp only [Option.map_some', Option.some_inj] at hs
              rw [take_one_of_head hd]
              have : okPdfC c4 = true := by
                simp only [okPdfC, Bool.not_eq_true', Bool.or_eq_false_iff,
                  decide_eq_false_iff_not]
                refine ⟨⟨?_, ?_⟩, ?_⟩ <;> (rintro rfl; exact absurd hs (by decide))
              simp [this]
          · have hk4 : k = 4 := by rw [hk, if_neg hs]
            rw [hk4]
            exact ci_all_ok (ciStarts_take h1) (by decide)
        · simp only [List.all_cons, List.all_append, Bool.and_eq_true]
          refine ⟨isPdfBody_ok c0 hc0, body_all_ok hbody, ?_⟩
          have h7 : (t0.drop k0).take 4 = (t0.drop k0).take pdfExtLit.length := rfl
          rw [h7]
          exact ci_all_ok (ciStarts_take hext) (by decide)
    · rw [if_neg h2] at h; cases h
  · rw [if_neg h1] at h; cases h

end DW

namespace DW

theorem tailCore_inv (l pdf : List Char) (e : Nat) (h : tailCore l = some (pdf, e)) :
    ∃ j2 i14 i15 plen i16,
      lastIdxP (fun ch => ch = '\n') l = some j2 ∧
      i14 = j2 + 1 + wsCount (l.drop (j2 + 1)) ∧
      (l.drop i14).head? = some ':' ∧
      i15 = i14 + 1 + wsCount (l.drop (i14 + 1)) ∧
      pdfCore (l.drop i15) = some (pdf, plen) ∧
      i16 = i15 + plen ∧
      e = i16 + wsCount (l.drop i16) := by
  simp only [tailCore] at h
  cases hj : lastIdxP (fun ch => ch = '\n') l with
  | none => rw [hj] at h; cases h
  | some j2 =>
    rw [hj] at h
    dsimp only [] at h
    by_cases hcol : (l.drop (j2 + 1 + wsCount (l.drop (j2 + 1)))).head? = some ':'
    · rw [if_pos hcol] at h
      cases hp : pdfCore (l.drop (j2 + 1 + wsCount (l.drop (j2 + 1)) + 1 +
          wsCount (l.drop (j2 + 1 + wsCount (l.drop (j2 + 1)) + 1)))) with
      | none => rw [hp] at h; cases h
      | some pr =>
        obtain ⟨pdf0, plen⟩ := pr
        rw [hp] at h
        dsimp only [] at h
        simp only [Option.some_inj, Prod.mk.injEq] at h
        obtain ⟨h1, h2⟩ := h
        subst h1
        exact ⟨j2, _, _, plen, _, rfl, rfl, hcol, rfl, hp, rfl, h2.symm⟩
    · rw [if_neg hcol] at h; cases h

theorem tail_no_bar (l pdf : List Char) (e : Nat) (h : tailCore l = some (pdf, e))
    (k : Nat) (hk : k < e) : l.get? k ≠ some '|' := by
  obtain ⟨j2, i14, i15, plen, i16, hj, h14, hcol, h15, hp, h16, he⟩ := tailCore_inv l pdf e h
  obtain ⟨hjlt, hjws, cN, hcN, hpN, hwN⟩ := lastIdxP_inv l j2 hj
  obtain ⟨hpeq, hppos, hplen, hpok⟩ := pdfCore_inv _ pdf plen hp
  intro hc
  by_cases r1 : k ≤ j2
  · have hmem : '|' ∈ l.take (j2 + 1) := mem_take_of_get? hc (by omega)
    rw [List.all_eq_true] at hjws
    exact absurd (hjws '|' hmem) (by decide)
  by_cases r2 : k < i14
  · obtain ⟨cw, hw1, hw2⟩ :=
      get?_ws_of_lt_wsCount (l.drop (j2 + 1)) (k - (j2 + 1)) (by omega)
    rw [List.get?_drop, show j2 + 1 + (k - (j2 + 1)) = k from by omega, hc] at hw1
    have : cw = '|' := by simpa using hw1.symm
    subst this
    exact absurd hw2 (by decide)
  by_cases r3 : k = i14
  · subst r3
    rw [head?_drop, hc] at hcol
    simp at hcol
  by_cases r4 : k < i15
  · obtain ⟨cw, hw1, hw2⟩ :=
      get?_ws_of_lt_wsCount (l.drop (i14 + 1)) (k - (i14 + 1)) (by omega)
    rw [List.get?_drop, show i14 + 1 + (k - (i14 + 1)) = k from by omega, hc] at hw1
    have : cw = '|' := by simpa using hw1.symm
    subst this
    exact absurd hw2 (by decide)
  by_cases r5 : k < i16
  · have hg : (l.drop i15).get? (k - i15) = some '|' := by
      rw [List.get?_drop, show i15 + (k - i15) = k from by omega, hc]
    have hmem : '|' ∈ (l.drop i15).take plen := mem_take_of_get? hg (by omega)
    rw [← hpeq] at hmem
    rw [List.all_eq_true] at hpok
    exact absurd (hpok '|' hmem) (by decide)
  · obtain ⟨cw, hw1, hw2⟩ :=
      get?_ws_of_lt_wsCount (l.drop i16) (k - i16) (by omega)
    rw [List.get?_drop, show i16 + (k - i16) = k from by omega, hc] at hw1
    have : cw = '|' := by simpa using hw1.symm
    subst this
    exact absurd hw2 (by decide)

theorem tailCore_bounds (l pdf : List Char) (e : Nat) (h : tailCore l = some (pdf, e)) :
    1 ≤ e ∧ e ≤ l.length := by
  obtain ⟨j2, i14, i15, plen, i16, hj, h14, hcol, h15, hp, h16, he⟩ := tailCore_inv l pdf e h
  obtain ⟨hpeq, hppos, hplen, hpok⟩ := pdfCore_inv _ pdf plen hp
  have hdl : (l.drop i15).length = l.length - i15 := by simp
  have hwl : wsCount (l.drop i16) ≤ (l.drop i16).length := wsCount_le_length _
  have hdl2 : (l.drop i16).length = l.length - i16 := by simp
  omega

end DW

namespace DW

/-! ### Locality: matching is determined by an initial segment -/

theorem wsCount_le_of_nonws {l : List Char} {i : Nat} {c : Char}
    (h : l.get? i = some c) (hc : isWsC c = false) : wsCount l ≤ i := by
  induction l generalizing i with
  | nil => simp [wsCount]
  | cons d t ih =>
    by_cases hd : isWsC d
    · cases i with
      | zero =>
        simp only [List.get?_cons_zero, Option.some_inj] at h
        subst h
        rw [hd] at hc
        cases hc
      | succ i0 =>
        simp only [wsCount, hd, if_true]
        have := ih (by simpa using h)
        omega
    · simp [wsCount, hd]

theorem take_agree_full {l1 l2 : List Char} {K : Nat}
    (h : l1.take K = l2.take K) (hl : l1.length < K) : l2 = l1 := by
  have h1 : l1.take K = l1 := List.take_of_length_le (by omega)
  rw [h1] at h
  have h2 : l2.length < K := by
    have := congrArg List.length h
    simp only [List.length_take] at this
    omega
  calc l2 = l2.take K := (List.take_of_length_le (by omega)).symm
    _ = l1 := h.symm

theorem ciStarts_head {p : Char} {ps l : List Char}
    (h : ciStarts (p :: ps) l = true) :
    ∃ c, l.head? = some c ∧ ciEqC p c = true := by
  cases l with
  | nil => cases h
  | cons d t =>
    simp only [ciStarts, Bool.and_eq_true] at h
    exact ⟨d, rfl, h.1⟩

theorem midCore_colon (l : List Char) (q : Nat) (h : midCore l = some q) :
    (l.drop (wsCount l)).head? = some ':' := by
  simp only [midCore] at h
  by_cases g1 : (l.drop (wsCount l)).head? = some ':'
  · exact g1
  · rw [if_neg g1] at h; cases h

end DW

namespace DW

theorem hdrCore_det (l1 l2 : List Char) (pE K pc : Nat) (cT : Char)
    (h : hdrCore l1 = some pE) (ha : l1.take K = l2.take K)
    (hpc : l1.get? pc = some cT) (hws : isWsC cT = false)
    (hpcge : pE ≤ pc) (hpclt : pc < K) :
    hdrCore l2 = some pE := by
  simp only [hdrCore] at h
  by_cases h1 : l1.head? = some '|'
  swap
  · rw [if_neg h1] at h; cases h
  rw [if_pos h1] at h
  by_cases h2 : ciStarts srcLit (l1.drop (1 + wsCount (l1.drop 1)))
  swap
  · rw [if_neg h2] at h; cases h
  rw [if_pos h2] at h
  by_cases h3 : (l1.drop (1 + wsCount (l1.drop 1) + 6 +
      wsCount (l1.drop (1 + wsCount (l1.drop 1) + 6)))).head? = some '='
  swap
  · rw [if_neg h3] at h; cases h
  rw [if_pos h3] at h
  cases hj : lastIdxP (fun ch => ch = '\n') (l1.drop (1 + wsCount (l1.drop 1) + 6 +
      wsCount (l1.drop (1 + wsCount (l1.drop 1) + 6)) + 1)) with
  | none => rw [hj] at h; cases h
  | some j =>
    rw [hj] at h
    simp only [Option.some_inj] at h
    set A := wsCount (l1.drop 1) with hA
    set B := wsCount (l1.drop (1 + A + 6)) with hB
    have hpE : 1 + A + 6 + B + 1 + j + 1 = pE := h
    have hK0 : 0 < K := by omega
    have h1' : l2.head? = some '|' := by
      rw [← head?_agree ha hK0]
      exact h1
    have eA : wsCount (l2.drop 1) = A := by
      have hag := take_agree_drop (a := 1) ha
      exact wsCount_agree hag (by omega)
    have h2' : ciStarts srcLit (l2.drop (1 + A)) = true := by
      have hag := take_agree_drop (a := 1 + A) ha
      rw [ciStarts_agree hag (by have hsl : srcLit.length = 6 := rfl; omega)]
      exact h2
    have eB : wsCount (l2.drop (1 + A + 6)) = B := by
      have hag := take_agree_drop (a := 1 + A + 6) ha
      exact wsCount_agree hag (by omega)
    have h3' : (l2.drop (1 + A + 6 + B)).head? = some '=' := by
      have hag := take_agree_drop (a := 1 + A + 6 + B) ha
      rw [← head?_agree hag (by omega)]
      exact h3
    have hterm : wsCount (l1.drop (1 + A + 6 + B + 1)) < K - (1 + A + 6 + B + 1) := by
      have hg : (l1.drop (1 + A + 6 + B + 1)).get? (pc - (1 + A + 6 + B + 1)) =
          some cT := by
        rw [List.get?_drop, show 1 + A + 6 + B + 1 + (pc - (1 + A + 6 + B + 1)) = pc
          from by omega, hpc]
      have := wsCount_le_of_nonws hg hws
      omega
    have ej : lastIdxP (fun ch => ch = '\n') (l2.drop (1 + A + 6 + B + 1)) = some j := by
      have hag := take_agree_drop (a := 1 + A + 6 + B + 1) ha
      rw [lastIdxP_agree hag hterm]
      exact hj
    simp only [hdrCore]
    rw [if_pos h1', eA, if_pos h2', eB, if_pos h3', ej]
    exact congrArg some hpE

end DW

namespace DW

theorem midCore_det (l1 l2 : List Char) (q K : Nat)
    (h : midCore l1 = some q) (ha : l1.take K = l2.take K) (hK : q ≤ K) :
    midCore l2 = some q := by
  simp only [midCore, Bool.and_eq_true, decide_eq_true_eq, ne_eq] at h
  by_cases g1 : (l1.drop (wsCount l1)).head? = some ':'
  swap
  · rw [if_neg g1] at h; cases h
  rw [if_pos g1] at h
  set i6 := wsCount l1 with hi6
  by_cases g2 : (l1.drop (i6 + 1 + wsCount (l1.drop (i6 + 1)))).head? = some '\x7b' ∧
      (l1.drop (i6 + 1 + wsCount (l1.drop (i6 + 1)) + 1)).head? = some '\x7b'
  swap
  · rw [if_neg g2] at h; cases h
  rw [if_pos g2] at h
  set r1 := wsCount (l1.drop (i6 + 1)) with hr1
  set i7 := i6 + 1 + r1 with hi7
  by_cases g3 : ciStarts internetLit (l1.drop (i7 + 2 + wsCount (l1.drop (i7 + 2))))
  swap
  · rw [if_neg g3] at h; cases h
  rw [if_pos g3] at h
  set r2 := wsCount (l1.drop (i7 + 2)) with hr2
  set i8 := i7 + 2 + r2 with hi8
  by_cases g4 : ¬wsCount (l1.drop (i8 + 8)) = 0 ∧
      ciStarts archiveLit (l1.drop (i8 + 8 + wsCount (l1.drop (i8 + 8)))) = true
  swap
  · rw [if_neg g4] at h; cases h
  rw [if_pos g4] at h
  set v1 := wsCount (l1.drop (i8 + 8)) with hv1
  set i9 := i8 + 8 + v1 + 7 with hi9
  by_cases g5 : ¬wsCount (l1.drop i9) = 0 ∧
      ciStarts linkLit (l1.drop (i9 + wsCount (l1.drop i9))) = true
  swap
  · rw [if_neg g5] at h; cases h
  rw [if_pos g5] at h
  set v2 := wsCount (l1.drop i9) with hv2
  set i10 := i9 + v2 + 4 with hi10
  by_cases g6 : (l1.drop (i10 + wsCount (l1.drop i10))).head? = some '|'
  swap
  · rw [if_neg g6] at h; cases h
  rw [if_pos g6] at h
  set r3 := wsCount (l1.drop i10) with hr3
  set i11 := i10 + r3 with hi11
  simp only [Option.some_inj] at h
  have hq : q = i11 + 1 := h.symm
  -- transfer every read to l2
  have e0 : wsCount l2 = i6 := wsCount_agree ha (by omega)
  have g1' : (l2.drop i6).head? = some ':' := by
    rw [← head?_agree (take_agree_drop (a := i6) ha) (by omega)]
    exact g1
  have er1 : wsCount (l2.drop (i6 + 1)) = r1 :=
    wsCount_agree (take_agree_drop (a := i6 + 1) ha) (by omega)
  have g2a : (l2.drop i7).head? = some '\x7b' := by
    rw [← head?_agree (take_agree_drop (a := i7) ha) (by omega)]
    exact g2.1
  have g2b : (l2.drop (i7 + 1)).head? = some '\x7b' := by
    rw [← head?_agree (take_agree_drop (a := i7 + 1) ha) (by omega)]
    exact g2.2
  have er2 : wsCount (l2.drop (i7 + 2)) = r2 :=
    wsCount_agree (take_agree_drop (a := i7 + 2) ha) (by omega)
  have g3' : ciStarts internetLit (l2.drop i8) = true := by
    rw [ciStarts_agree (take_agree_drop (a := i8) ha)
      (by have hl : internetLit.length = 8 := rfl; omega)]
    exact g3
  have ev1 : wsCount (l2.drop (i8 + 8)) = v1 :=
    wsCount_agree (take_agree_drop (a := i8 + 8) ha) (by omega)
  have g4' : ¬v1 = 0 ∧ ciStarts archiveLit (l2.drop (i8 + 8 + v1)) = true := by
    refine ⟨g4.1, ?_⟩
    rw [ciStarts_agree (take_agree_drop (a := i8 + 8 + v1) ha)
      (by have hl : archiveLit.length = 7 := rfl; omega)]
    exact g4.2
  have ev2 : wsCount (l2.drop i9) = v2 :=
    wsCount_agree (take_agree_drop (a := i9) ha) (by omega)
  have g5' : ¬v2 = 0 ∧ ciStarts linkLit (l2.drop (i9 + v2)) = true := by
    refine ⟨g5.1, ?_⟩
    rw [ciStarts_agree (take_agree_drop (a := i9 + v2) ha)
      (by have hl : linkLit.length = 4 := rfl; omega)]
    exact g5.2
  have er3 : wsCount (l2.drop i10) = r3 :=
    wsCount_agree (take_agree_drop (a := i10) ha) (by omega)
  have g6' : (l2.drop i11).head? = some '|' := by
    rw [← head?_agree (take_agree_drop (a := i11) ha) (by omega)]
    exact g6
  simp only [midCore, Bool.and_eq_true, decide_eq_true_eq, ne_eq]
  rw [e0, if_pos g1', er1, ← hi7, if_pos ⟨g2a, g2b⟩, er2, ← hi8, if_pos g3',
    ev1, if_pos g4', ← hi9, ev2, if_pos g5', ← hi10, er3, ← hi11, if_pos g6', hq]

end DW

namespace DW

theorem le_wsCount_of_take_all {l : List Char} {n : Nat}
    (h : ((l.take n).all isWsC) = true) (hn : n ≤ l.length) : n ≤ wsCount l := by
  induction l generalizing n with
  | nil =>
    simp only [List.length_nil, Nat.le_zero] at hn
    omega
  | cons c t ih =>
    cases n with
    | zero => omega
    | succ n0 =>
      simp only [List.take_succ_cons, List.all_cons, Bool.and_eq_true] at h
      simp only [List.length_cons] at hn
      simp only [wsCount, h.1, if_true]
      have := ih h.2 (by omega)
      omega

theorem iaidCore_det (l1 l2 ia : List Char) (c K : Nat)
    (h : iaidCore l1 = some (ia, c)) (ha : l1.take K = l2.take K) (hK : c ≤ K) :
    iaidCore l2 = some (ia, c) := by
  obtain ⟨hc2, hcl, hRc⟩ := iaidCore_bounds l1 ia c h
  simp only [iaidCore] at h ⊢
  set R := wsCount l1 with hRdef
  have eR : wsCount l2 = R := wsCount_agree ha (by omega)
  rw [eR]
  cases hR : (l1.drop R).head? with
  | none => rw [hR] at h; cases h
  | some c0 =>
    rw [hR] at h
    dsimp only [] at h
    have hR2 : (l2.drop R).head? = some c0 := by
      rw [← head?_agree (take_agree_drop (a := R) ha) (by omega)]
      exact hR
    rw [hR2]
    dsimp only []
    by_cases hc0 : c0 = '\x7d'
    · rw [if_pos hc0] at h ⊢
      cases hj : lastIdxP (fun ch => !(ch = '\n' || ch = '\r')) l1 with
      | none => rw [hj] at h; cases h
      | some j =>
        rw [hj] at h
        dsimp only [] at h
        obtain ⟨hjl, hjws, cj, hcj, hpj, hwj⟩ := lastIdxP_inv _ _ hj
        have hjR : j < R := by
          have := le_wsCount_of_take_all hjws (by omega)
          omega
        have hj2 : lastIdxP (fun ch => !(ch = '\n' || ch = '\r')) l2 = some j := by
          rw [lastIdxP_agree ha (by omega)]
          exact hj
        rw [hj2]
        dsimp only []
        by_cases hg : (l1.drop (R + 1)).head? = some '\x7d'
        · rw [if_pos hg] at h
          have hg2 : (l2.drop (R + 1)).head? = some '\x7d' := by
            rw [← head?_agree (take_agree_drop (a := R + 1) ha) (by omega)]
            exact hg
          rw [if_pos hg2]
          have hcap : (l2.drop j).take 1 = (l1.drop j).take 1 :=
            (take_agree_mono (take_agree_drop (a := j) ha) (by omega : 1 ≤ K - j)).symm
          rw [hcap]
          exact h
        · rw [if_neg hg] at h; cases h
    · rw [if_neg hc0] at h
      rw [if_neg hc0]
      set S := stopCount (l1.drop R) with hS
      set F := R + S with hF
      set V := wsCount (l1.drop F) with hV
      set pp := F + V with hpp
      set e1 := R + rstripLen ((l1.take F).drop R) with he1
      by_cases hg : ((l1.drop pp).head? = some '\x7d' &&
          (l1.drop (pp + 1)).head? = some '\x7d') = true
      swap
      · rw [if_neg (by simpa using hg)] at h; cases h
      rw [if_pos hg] at h
      simp only [Option.some_inj, Prod.mk.injEq] at h
      have hcc : pp + 2 = c := h.2
      simp only [Bool.and_eq_true] at hg
      have hgA : (l1.drop pp).head? = some '\x7d' := of_decide_eq_true hg.1
      have hgB : (l1.drop (pp + 1)).head? = some '\x7d' := of_decide_eq_true hg.2
      have eS : stopCount (l2.drop R) = S :=
        stopCount_agree (take_agree_drop (a := R) ha) (by omega)
      have takeF : l2.take F = l1.take F :=
        (take_agree_mono ha (by omega)).symm
      have eV : wsCount (l2.drop F) = V :=
        wsCount_agree (take_agree_drop (a := F) ha) (by omega)
      have hgA2 : (l2.drop pp).head? = some '\x7d' := by
        rw [← head?_agree (take_agree_drop (a := pp) ha) (by omega)]
        exact hgA
      have hgB2 : (l2.drop (pp + 1)).head? = some '\x7d' := by
        rw [← head?_agree (take_agree_drop (a := pp + 1) ha) (by omega)]
        exact hgB
      have he1le : e1 ≤ F := by
        have h1 : rstripLen ((l1.take F).drop R) ≤ ((l1.take F).drop R).length := by
          simp [rstripLen]
        have h2 : ((l1.take F).drop R).length ≤ F - R := by
          simp only [List.length_drop, List.length_take]
          omega
        omega
      have takeE : l2.take e1 = l1.take e1 :=
        (take_agree_mono ha (by omega)).symm
      rw [eS, ← hF, takeF, eV, ← hpp]
      have gg : ((l2.drop pp).head? = some '\x7d' &&
          (l2.drop (pp + 1)).head? = some '\x7d') = true := by
        simp only [Bool.and_eq_true, decide_eq_true_eq]
        exact ⟨hgA2, hgB2⟩
      rw [if_pos gg, ← he1, takeE]
      rw [h.1, hcc]

end DW

namespace DW

theorem pdfCore_det (l1 l2 pdf : List Char) (n K : Nat)
    (h : pdfCore l1 = some (pdf, n)) (ha : l1.take K = l2.take K) (hK : n ≤ K) :
    pdfCore l2 = some (pdf, n) := by
  simp only [pdfCore] at h ⊢
  by_cases h1 : ciStarts httpLit l1
  swap
  · rw [if_neg h1] at h; cases h
  rw [if_pos h1] at h
  set k := if (l1.drop 4).head?.map lowerA = some 's' then 5 else 4 with hk
  by_cases h2 : ciStarts dlLit (l1.drop k)
  swap
  · rw [if_neg h2] at h; cases h
  rw [if_pos h2] at h
  cases h3 : pdfBodyEnd (l1.drop (k + dlLit.length)) with
  | none => rw [h3] at h; cases h
  | some bl =>
    rw [h3] at h
    dsimp only [] at h
    simp only [Option.some_inj, Prod.mk.injEq] at h
    obtain ⟨hpdf, hn⟩ := h
    have hnn : n = k + dlLit.length + bl := by omega
    have hk45 : 4 ≤ k ∧ k ≤ 5 := by
      rw [hk]
      split <;> omega
    have hdl : dlLit.length = 24 := rfl
    obtain ⟨c0, t0, hdrop, hc0, k0, hscan, hbl⟩ :
        ∃ c0 t0, l1.drop (k + dlLit.length) = c0 :: t0 ∧ isPdfBodyC c0 = true ∧
          ∃ k0, pdfScanA t0 = some k0 ∧ bl = k0 + 1 + 4 := by
      cases hd : l1.drop (k + dlLit.length) with
      | nil => rw [hd] at h3; cases h3
      | cons c0 t0 =>
        rw [hd] at h3
        simp only [pdfBodyEnd] at h3
        by_cases hc0 : isPdfBodyC c0
        · rw [if_pos hc0] at h3
          cases hs : pdfScanA t0 with
          | none => rw [hs] at h3; cases h3
          | some k0 =>
            rw [hs] at h3
            simp only [Option.map_some', Option.some_inj] at h3
            exact ⟨c0, t0, rfl, hc0, k0, hs, by omega⟩
        · rw [if_neg hc0] at h3; cases h3
    -- transfer the reads
    have h1' : ciStarts httpLit l2 = true := by
      rw [ciStarts_agree ha (by have hl : httpLit.length = 4 := rfl; omega)]
      exact h1
    have e4 : (l2.drop 4).head? = (l1.drop 4).head? :=
      (head?_agree (take_agree_drop (a := 4) ha) (by omega)).symm
    have h2' : ciStarts dlLit (l2.drop k) = true := by
      rw [ciStarts_agree (take_agree_drop (a := k) ha) (by omega)]
      exact h2
    have ht0 : t0 = l1.drop (k + dlLit.length + 1) := by
      have hdd : (l1.drop (k + dlLit.length)).drop 1 =
          l1.drop (k + dlLit.length + 1) := by
        rw [List.drop_drop]
        all_goals (congr 1 <;> omega)
      rw [hdrop] at hdd
      simpa using hdd
    have hh2 : (l2.drop (k + dlLit.length)).head? = some c0 := by
      rw [← head?_agree (take_agree_drop (a := k + dlLit.length) ha) (by omega)]
      rw [hdrop]
      rfl
    have hd2 : l2.drop (k + dlLit.length) = c0 :: l2.drop (k + dlLit.length + 1) := by
      cases hcase : l2.drop (k + dlLit.length) with
      | nil => rw [hcase] at hh2; cases hh2
      | cons x xs =>
        rw [hcase] at hh2
        simp only [List.head?_cons, Option.some_inj] at hh2
        subst hh2
        have hdd : (l2.drop (k + dlLit.length)).drop 1 =
            l2.drop (k + dlLit.length + 1) := by
          rw [List.drop_drop]
          all_goals (congr 1 <;> omega)
        rw [hcase] at hdd
        simp only [List.drop_succ_cons, List.drop_zero] at hdd
        rw [hdd]
    have hscan2 : pdfScanA (l2.drop (k + dlLit.length + 1)) = some k0 := by
      refine pdfScanA_agree (k := K - (k + dlLit.length + 1))
        (take_agree_drop (a := k + dlLit.length + 1) ha) ?_ (by omega)
      rw [← ht0]
      exact hscan
    have h3' : pdfBodyEnd (l2.drop (k + dlLit.length)) = some bl := by
      rw [hd2]
      simp only [pdfBodyEnd, hc0, if_true, hscan2, Option.map_some', Option.some_inj]
      omega
    have htake : l2.take (k + dlLit.length + bl) = l1.take (k + dlLit.length + bl) :=
      (take_agree_mono ha (by omega)).symm
    rw [e4, ← hk, if_pos h1', if_pos h2', h3']
    dsimp only []
    rw [htake, hpdf]
    simp only [Option.some_inj, Prod.mk.injEq, true_and]
    omega

end DW

namespace DW

theorem tailCore_det (l1 l2 pdf : List Char) (e K : Nat)
    (h : tailCore l1 = some (pdf, e)) (ha : l1.take K = l2.take K) (hK : e < K) :
    tailCore l2 = some (pdf, e) := by
  obtain ⟨j2, i14, i15, plen, i16, hj, h14, hcol, h15, hp, h16, he⟩ :=
    tailCore_inv l1 pdf e h
  obtain ⟨hpeq, hppos, hplen, hpok⟩ := pdfCore_inv _ pdf plen hp
  have hcolg : l1.get? i14 = some ':' := by
    rw [← head?_drop]
    exact hcol
  have hws1 : wsCount l1 ≤ i14 := wsCount_le_of_nonws hcolg (by decide)
  have ej : lastIdxP (fun ch => ch = '\n') l2 = some j2 := by
    rw [lastIdxP_agree ha (by omega)]
    exact hj
  have e14 : wsCount (l2.drop (j2 + 1)) = wsCount (l1.drop (j2 + 1)) :=
    wsCount_agree (take_agree_drop (a := j2 + 1) ha) (by omega)
  have hcol2 : (l2.drop i14).head? = some ':' := by
    rw [← head?_agree (take_agree_drop (a := i14) ha) (by omega)]
    exact hcol
  have e15 : wsCount (l2.drop (i14 + 1)) = wsCount (l1.drop (i14 + 1)) :=
    wsCount_agree (take_agree_drop (a := i14 + 1) ha) (by omega)
  have hp2 : pdfCore (l2.drop i15) = some (pdf, plen) :=
    pdfCore_det _ _ pdf plen (K - i15) hp (take_agree_drop (a := i15) ha) (by omega)
  have e16 : wsCount (l2.drop i16) = wsCount (l1.drop i16) :=
    wsCount_agree (take_agree_drop (a := i16) ha) (by omega)
  simp only [tailCore]
  rw [ej]
  dsimp only []
  rw [e14, ← h14, if_pos hcol2, e15, ← h15, hp2]
  dsimp only []
  rw [← h16, e16, ← he]

end DW

namespace DW

theorem matchCore_det (l1 l2 : List Char) (r : MRes) (K : Nat)
    (h : matchCore l1 = some r) (ha : l1.take K = l2.take K) (hK : r.endOff < K) :
    matchCore l2 = some r := by
  simp only [matchCore] at h ⊢
  cases hh : hdrCore l1 with
  | none => rw [hh] at h; cases h
  | some pE =>
    rw [hh] at h
    dsimp only [] at h
    cases hm : midCore (l1.drop pE) with
    | none => rw [hm] at h; cases h
    | some q =>
      rw [hm] at h
      dsimp only [] at h
      cases hi : iaidCore (l1.drop (pE + q)) with
      | none => rw [hi] at h; cases h
      | some ic =>
        obtain ⟨ia, c⟩ := ic
        rw [hi] at h
        dsimp only [] at h
        cases ht : tailCore (l1.drop (pE + q + c)) with
        | none => rw [ht] at h; cases h
        | some pe =>
          obtain ⟨pdf, e⟩ := pe
          rw [ht] at h
          dsimp only [] at h
          simp only [Option.some_inj] at h
          subst h
          have hK' : pE + q + c + e < K := hK
          have hcolon := midCore_colon _ _ hm
          have hwlt := midCore_wsCount_lt _ _ hm
          have hpcg : l1.get? (pE + wsCount (l1.drop pE)) = some ':' := by
            rw [← List.get?_drop, ← head?_drop]
            exact hcolon
          have hhd := hdrCore_det l1 l2 pE K (pE + wsCount (l1.drop pE)) ':' hh ha
            hpcg (by decide) (by omega) (by omega)
          have hmd := midCore_det (l1.drop pE) (l2.drop pE) q (K - pE) hm
            (take_agree_drop (a := pE) ha) (by omega)
          have hid := iaidCore_det (l1.drop (pE + q)) (l2.drop (pE + q)) ia c
            (K - (pE + q)) hi (take_agree_drop (a := pE + q) ha) (by omega)
          have htd := tailCore_det (l1.drop (pE + q + c)) (l2.drop (pE + q + c)) pdf e
            (K - (pE + q + c)) ht (take_agree_drop (a := pE + q + c) ha) (by omega)
          rw [hhd]
          dsimp only []
          rw [hmd]
          dsimp only []
          rw [hid]
          dsimp only []
          rw [htd]

end DW

namespace DW

theorem all_drop {q : Char → Bool} (l : List Char) (k : Nat) (h : l.all q = true) :
    ((l.drop k).all q) = true := by
  rw [List.all_eq_true] at h ⊢
  exact fun c hc => h c (List.mem_of_mem_drop hc)

theorem ci_not_stop {pat : List Char} {c : Char}
    (hm : ∃ pc ∈ pat, ciEqC pc c = true)
    (hb : (pat.all fun pc =>
      !(ciEqC pc '\x7d' || ciEqC pc '\n' || ciEqC pc '\r')) = true) :
    isStopC c = false := by
  obtain ⟨pc, hpc, he⟩ := hm
  rw [List.all_eq_true] at hb
  have h2 := hb pc hpc
  simp only [Bool.not_eq_true', Bool.or_eq_false_iff] at h2
  simp only [isStopC, Bool.or_eq_false_iff, decide_eq_false_iff_not]
  exact ⟨⟨pred_ne he h2.1.1, pred_ne he h2.1.2⟩, pred_ne he h2.2⟩

theorem P_stop_no_brace (w1 s6 w2 w3 rest u : List Char) (σ : Nat) (cσ : Char)
    (hu : u = w1 ++ (s6 ++ (w2 ++ '=' :: (w3 ++ rest))))
    (hw1 : w1.all isWsC = true) (hs6 : ciEqL srcLit s6 = true)
    (hw2 : w2.all isWsC = true) (hw3 : w3.all isWsC = true)
    (hw3n : '\n' ∈ w3)
    (hrh : ∃ c0, rest.head? = some c0 ∧ isWsC c0 = false ∧ c0 ≠ '\x7d')
    (hσ : u.get? σ = some cσ) (hstop : isStopC cσ = true)
    (hfirst : ∀ i ci, w1.length ≤ i → i < σ → u.get? i = some ci →
      isStopC ci = false) :
    (u.drop (σ + wsCount (u.drop σ))).head? ≠ some '\x7d' := by
  obtain ⟨c0, hc0h, hc0w, hc0b⟩ := hrh
  obtain ⟨cs, s6t, rfl⟩ : ∃ cs s6t, s6 = cs :: s6t := by
    cases s6 with
    | nil => cases hs6
    | cons a b => exact ⟨a, b, rfl⟩
  have hcs : ciEqC 's' cs = true := by
    have h0 := hs6
    simp only [srcLit, ciEqL, Bool.and_eq_true] at h0
    exact h0.1
  have hcsw : isWsC cs = false :=
    ci_not_ws (show ∃ pc ∈ ['s'], ciEqC pc cs = true from ⟨'s', by simp, hcs⟩)
      (by decide)
  have hcsb : cs ≠ '\x7d' := pred_ne hcs (by decide)
  have hs6len : (cs :: s6t).length = 6 := by
    rw [ciEqL_length hs6]
    rfl
  have hrw : wsCount rest = 0 := wsCount_zero_of_head rest c0 hc0h hc0w
  obtain ⟨i3, hi3g, hi3l⟩ := exists_get?_of_mem hw3n
  -- shorthand lengths
  have hVh : ((cs :: s6t) ++ (w2 ++ '=' :: (w3 ++ rest))).head? = some cs := by
    simp
  have hVw : wsCount ((cs :: s6t) ++ (w2 ++ '=' :: (w3 ++ rest))) = 0 :=
    wsCount_zero_of_head _ cs hVh hcsw
  -- the '\n' inside w3 bounds σ
  have hpos3 : u.get? (w1.length + 6 + w2.length + 1 + i3) = some '\n' := by
    rw [hu]
    rw [get?_append_right (by omega)]
    rw [get?_append_right (by rw [hs6len]; omega), hs6len]
    rw [get?_append_right (by omega)]
    rw [show w1.length + 6 + w2.length + 1 + i3 - w1.length - 6 - w2.length =
      i3 + 1 from by omega]
    simp only [List.get?_cons_succ]
    rw [get?_append_left (by omega)]
    exact hi3g
  have hσle : σ ≤ w1.length + 6 + w2.length + 1 + i3 := by
    by_contra hcon
    push_neg at hcon
    have := hfirst _ _ (by omega) hcon hpos3
    simp [isStopC] at this
  rcases (show σ < w1.length ∨ (w1.length ≤ σ ∧ σ < w1.length + 6) ∨
      (w1.length + 6 ≤ σ ∧ σ < w1.length + 6 + w2.length) ∨
      σ = w1.length + 6 + w2.length ∨
      (w1.length + 6 + w2.length + 1 ≤ σ) from by omega) with hr | hr | hr | hr | hr
  · -- inside w1: the run reaches the source literal
    have hd : u.drop σ = w1.drop σ ++ ((cs :: s6t) ++ (w2 ++ '=' :: (w3 ++ rest))) := by
      rw [hu]
      exact drop_append_le (by omega)
    have hws : wsCount (u.drop σ) = w1.length - σ := by
      rw [hd, wsCount_run_append _ _ (all_drop _ _ hw1) hVw]
      simp
    rw [hws, show σ + (w1.length - σ) = w1.length from by omega]
    have hd2 : u.drop w1.length = (cs :: s6t) ++ (w2 ++ '=' :: (w3 ++ rest)) := by
      rw [hu, drop_append_le (le_refl _), List.drop_length]
      simp
    rw [hd2, hVh]
    intro hc
    exact hcsb (by simpa using hc)
  · -- inside the source literal: no stop characters there
    exfalso
    have hmem : cσ ∈ cs :: s6t := by
      rw [hu] at hσ
      rw [get?_append_right (by omega)] at hσ
      rw [get?_append_left (by rw [hs6len]; omega)] at hσ
      exact List.get?_mem hσ
    have := ci_not_stop (ciEqL_mem hs6 hmem) (by decide)
    rw [this] at hstop
    cases hstop
  · -- inside w2: the run reaches '='
    have hd : u.drop σ = w2.drop (σ - w1.length - 6) ++ '=' :: (w3 ++ rest) := by
      rw [hu, drop_append_ge (by omega), drop_append_ge (by rw [hs6len]; omega), hs6len]
      exact drop_append_le (by omega)
    have hws : wsCount (u.drop σ) = w2.length - (σ - w1.length - 6) := by
      rw [hd, wsCount_run_append _ _ (all_drop _ _ hw2)
        (wsCount_nonws_head '=' _ (by decide))]
      simp
    rw [hws, show σ + (w2.length - (σ - w1.length - 6)) =
      w1.length + 6 + w2.length from by omega]
    have hd2 : u.drop (w1.length + 6 + w2.length) = '=' :: (w3 ++ rest) := by
      rw [hu, drop_append_ge (by omega), drop_append_ge (by rw [hs6len]; omega), hs6len]
      rw [drop_append_le (by omega), show w1.length + 6 + w2.length - w1.length - 6 =
        w2.length from by omega, List.drop_length]
      simp
    rw [hd2]
    intro hc
    simp at hc
  · -- exactly at '=': not a stop character
    exfalso
    have : u.get? σ = some '=' := by
      rw [hu, get?_append_right (by omega), get?_append_right (by rw [hs6len]; omega),
        hs6len, get?_append_right (by omega), hr]
      rw [show w1.length + 6 + w2.length - w1.length - 6 - w2.length = 0 from by omega]
      rfl
    rw [hσ] at this
    simp only [Option.some_inj] at this
    subst this
    simp [isStopC] at hstop
  · -- inside w3: the run reaches the head of `rest`
    have hκ : σ - (w1.length + 6 + w2.length + 1) < w3.length := by
      have := List.get?_eq_some.mp hi3g
      omega
    have hd : u.drop σ = w3.drop (σ - (w1.length + 6 + w2.length + 1)) ++ rest := by
      rw [hu, drop_append_ge (by omega), drop_append_ge (by rw [hs6len]; omega), hs6len,
        drop_append_ge (by omega)]
      rw [show σ - w1.length - 6 - w2.length =
        (σ - (w1.length + 6 + w2.length + 1)) + 1 from by omega]
      simp only [List.drop_succ_cons]
      exact drop_append_le (by omega)
    have hws : wsCount (u.drop σ) =
        w3.length - (σ - (w1.length + 6 + w2.length + 1)) := by
      rw [hd, wsCount_run_append _ _ (all_drop _ _ hw3) hrw]
      simp
    rw [hws, show σ + (w3.length - (σ - (w1.length + 6 + w2.length + 1))) =
      w1.length + 6 + w2.length + 1 + w3.length from by omega]
    have hd2 : u.drop (w1.length + 6 + w2.length + 1 + w3.length) = rest := by
      rw [hu, drop_append_ge (by omega), drop_append_ge (by rw [hs6len]; omega), hs6len,
        drop_append_ge (by omega)]
      rw [show w1.length + 6 + w2.length + 1 + w3.length - w1.length - 6 - w2.length =
        w3.length + 1 from by omega]
      simp only [List.drop_succ_cons]
      rw [drop_append_le (le_refl _), List.drop_length]
      simp
    rw [hd2, hc0h]
    intro hc
    exact hc0b (by simpa using hc)

end DW

namespace DW

theorem matchCore_inv (l : List Char) (r : MRes) (h : matchCore l = some r) :
    ∃ q c e, hdrCore l = some r.pfxEnd ∧
      midCore (l.drop r.pfxEnd) = some q ∧
      iaidCore (l.drop (r.pfxEnd + q)) = some (r.iaid, c) ∧
      tailCore (l.drop (r.pfxEnd + q + c)) = some (r.pdf, e) ∧
      r.endOff = r.pfxEnd + q + c + e := by
  simp only [matchCore] at h
  cases hh : hdrCore l with
  | none => rw [hh] at h; cases h
  | some pE =>
    rw [hh] at h
    dsimp only [] at h
    cases hm : midCore (l.drop pE) with
    | none => rw [hm] at h; cases h
    | some q =>
      rw [hm] at h
      dsimp only [] at h
      cases hi : iaidCore (l.drop (pE + q)) with
      | none => rw [hi] at h; cases h
      | some ic =>
        obtain ⟨ia, c⟩ := ic
        rw [hi] at h
        dsimp only [] at h
        cases ht : tailCore (l.drop (pE + q + c)) with
        | none => rw [ht] at h; cases h
        | some pe =>
          obtain ⟨pdf, e⟩ := pe
          rw [ht] at h
          dsimp only [] at h
          simp only [Option.some_inj] at h
          subst h
          exact ⟨q, c, e, rfl, hm, hi, ht, rfl⟩

theorem hdrCore_head (l : List Char) (pE : Nat) (h : hdrCore l = some pE) :
    l.head? = some '|' := by
  simp only [hdrCore] at h
  by_cases h1 : l.head? = some '|'
  · exact h1
  · rw [if_neg h1] at h; cases h

theorem matchCore_head (l : List Char) (r : MRes) (h : matchCore l = some r) :
    l.head? = some '|' := by
  obtain ⟨q, c, e, hh, _, _, _, _⟩ := matchCore_inv l r h
  exact hdrCore_head l r.pfxEnd hh

theorem matchAtAbs_start (s : List Char) (i : Nat) (m : Mtch)
    (h : matchAtAbs s i = some m) :
    ∃ r, matchCore (s.drop i) = some r ∧
      m = ⟨i, i + r.pfxEnd, i + r.endOff, r.iaid, r.pdf⟩ := by
  simp only [matchAtAbs] at h
  cases hc : matchCore (s.drop i) with
  | none => rw [hc] at h; cases h
  | some r =>
    rw [hc] at h
    simp only [Option.map_some', Option.some_inj] at h
    exact ⟨r, rfl, h.symm⟩

theorem matchAtAbs_bar (s : List Char) (i : Nat) (m : Mtch)
    (h : matchAtAbs s i = some m) : s.get? i = some '|' := by
  obtain ⟨r, hc, _⟩ := matchAtAbs_start s i m h
  rw [← head?_drop]
  exact matchCore_head _ r hc

theorem matchAtAbs_none_of_gt (s : List Char) (i : Nat) (hi : s.length ≤ i) :
    matchAtAbs s i = none := by
  simp only [matchAtAbs, List.drop_eq_nil_of_le hi]
  rfl

theorem bar_blocked (mid2 w : List Char)
    (hmid : (mid2.all fun c => !isStopC c) = true) :
    hdrCore ('|' :: (mid2 ++ '\x7d' :: '\x7d' :: w)) = none := by
  apply hdrCore_none_blocked
  intro i hi
  refine ⟨mid2.length, ?_, ?_⟩
  · -- every position up to the braces holds a non-newline character
    rcases (show i < mid2.length ∨ i = mid2.length ∨ i = mid2.length + 1 ∨
        mid2.length + 2 ≤ i from by omega) with hc | hc | hc | hc
    · exfalso
      rw [get?_append_left hc] at hi
      have hm := List.get?_mem hi
      rw [List.all_eq_true] at hmid
      have := hmid _ hm
      simp [isStopC] at this
    · exfalso
      rw [hc, get?_append_right (le_refl _)] at hi
      simp at hi
    · exfalso
      rw [hc, get?_append_right (by omega),
        show mid2.length + 1 - mid2.length = 1 from by omega] at hi
      simp at hi
    · omega
  · rw [get?_append_right (le_refl _)]
    simp

end DW

namespace DW

theorem take_takeWhile_len {p : Char → Bool} (l : List Char) :
    l.take ((l.takeWhile p).length) = l.takeWhile p := by
  induction l with
  | nil => rfl
  | cons c t ih =>
    by_cases hc : p c
    · simp [List.takeWhile_cons, hc, ih]
    · simp [List.takeWhile_cons, hc]

theorem mem_pyStrip {l : List Char} {c : Char} (h : c ∈ pyStrip l) : c ∈ l := by
  simp only [pyStrip] at h
  exact (List.dropWhile_sublist _).subset (List.mem_of_mem_take h)

theorem all_pyStrip {q : Char → Bool} {l : List Char} (h : l.all q = true) :
    ((pyStrip l).all q) = true := by
  rw [List.all_eq_true] at h ⊢
  exact fun c hc => h c (mem_pyStrip hc)

theorem derive_ok_inv (ia urn : List Char) (h : derive_delpher_urn ia = .ok urn) :
    ∃ p n, urn = p ++ ':' :: n ∧ (p.all isAlnumA) = true ∧ (n.all isDigitA) = true := by
  unfold derive_delpher_urn at h
  by_cases h1 : pyStrip ia = []
  · rw [if_pos h1] at h; cases h
  · rw [if_neg h1] at h
    cases hu : urnParse (pyStrip ia) with
    | none => rw [hu] at h; cases h
    | some pr =>
      obtain ⟨p, n⟩ := pr
      rw [hu] at h
      dsimp only [] at h
      simp only [Except.ok.injEq] at h
      subst h
      -- shape of the parse result
      simp only [urnParse] at hu
      set s := pyStrip ia with hs
      by_cases g1 : (s.takeWhile isAlnumA).length = 0
      · rw [if_pos g1] at hu; cases hu
      · rw [if_neg g1] at hu
        by_cases g2 : (s.drop ((s.takeWhile isAlnumA).length)).head? = some '_'
        · rw [if_pos g2] at hu
          by_cases g3 : (((s.drop ((s.takeWhile isAlnumA).length + 1)).takeWhile
              isDigitA).length) = 0
          · rw [if_pos g3] at hu; cases hu
          · rw [if_neg g3] at hu
            split at hu
            · simp only [Option.some_inj, Prod.mk.injEq] at hu
              obtain ⟨hp, hn⟩ := hu
              refine ⟨p, n, rfl, ?_, ?_⟩
              · rw [← hp, take_takeWhile_len]
                rw [List.all_eq_true]
                exact fun c hc => List.mem_takeWhile_imp hc
              · rw [← hn, take_takeWhile_len]
                rw [List.all_eq_true]
                exact fun c hc => List.mem_takeWhile_imp hc
            · cases hu
        · rw [if_neg g2] at hu; cases hu

theorem build_ok_inv (ia pdf blk : List Char)
    (h : build_new_source_block ia pdf = .ok blk) :
    ∃ urn, derive_delpher_urn ia = .ok urn ∧
      blk = blockChars ia (pyStrip pdf) urn := by
  unfold build_new_source_block at h
  by_cases h1 : pyStrip ia = []
  · rw [if_pos h1] at h; cases h
  · rw [if_neg h1] at h
    by_cases h2 : pyStrip pdf = []
    · rw [if_pos h2] at h; cases h
    · rw [if_neg h2] at h
      dsimp only [] at h
      by_cases h3 : pdfStrictFull (pyStrip pdf)
      · rw [h3] at h
        simp only [Bool.not_true] at h
        rw [if_neg (by simp)] at h
        cases hd : derive_delpher_urn ia with
        | error e => rw [hd] at h; cases h
        | ok urn =>
          rw [hd] at h
          simp only [Except.ok.injEq] at h
          exact ⟨urn, rfl, h.symm⟩
      · rw [show pdfStrictFull (pyStrip pdf) = false from by
          cases hpp : pdfStrictFull (pyStrip pdf) with
          | false => rfl
          | true => exact absurd hpp h3] at h
        simp only [Bool.not_false, if_true] at h
        cases h

theorem alnum_ok {c : Char} (h : isAlnumA c = true) : okPdfC c = true := by
  apply isPdfBody_ok
  simp [isPdfBodyC, isWordC, h]

theorem digit_ok {c : Char} (h : isDigitA c = true) : okPdfC c = true := by
  apply isPdfBody_ok
  simp [isPdfBodyC, isWordC, isAlnumA, h]

theorem urn_all_ok (ia urn : List Char) (h : derive_delpher_urn ia = .ok urn) :
    (urn.all okPdfC) = true := by
  obtain ⟨p, n, hurn, hp, hn⟩ := derive_ok_inv ia urn h
  subst hurn
  rw [List.all_append, List.all_cons]
  rw [List.all_eq_true] at hp hn
  simp only [Bool.and_eq_true]
  refine ⟨?_, by decide, ?_⟩
  · rw [List.all_eq_true]
    exact fun c hc => alnum_ok (hp c hc)
  · rw [List.all_eq_true]
    exact fun c hc => digit_ok (hn c hc)

theorem matchCore_none_of_hdr {l : List Char} (h : hdrCore l = none) :
    matchCore l = none := by
  simp [matchCore, h]

theorem matchCore_none_of_mid {l : List Char} {pE : Nat}
    (hh : hdrCore l = some pE) (hm : midCore (l.drop pE) = none) :
    matchCore l = none := by
  simp [matchCore, hh, hm]

theorem matchAtAbs_none {s : List Char} {i : Nat}
    (h : matchCore (s.drop i) = none) : matchAtAbs s i = none := by
  simp [matchAtAbs, h]

theorem matchAtAbs_of_core {s : List Char} {i : Nat} {r : MRes}
    (h : matchCore (s.drop i) = some r) :
    matchAtAbs s i = some ⟨i, i + r.pfxEnd, i + r.endOff, r.iaid, r.pdf⟩ := by
  simp [matchAtAbs, h]

theorem take_succ_agree {l1 l2 : List Char} {k : Nat} {c : Char}
    (h : l1.take k = l2.take k) (h1 : l1.get? k = some c) (h2 : l2.get? k = some c) :
    l1.take (k + 1) = l2.take (k + 1) := by
  rw [take_heads_decomp, take_heads_decomp, h]
  congr 1
  rw [take_one_of_head (by rw [head?_drop]; exact h1),
    take_one_of_head (by rw [head?_drop]; exact h2)]

end DW

namespace DW

/-- `blockL2a` without its final `|`. -/
def l2aPre : List Char := ("* Website: \x7b\x7bInternet Archive link").data

/-- Everything of the replacement block strictly before its only
template bar. -/
def preB : List Char := blockL1 ++ '\n' :: l2aPre

/-- Everything of the replacement block after the closing braces of the
template call. -/
def postB (spdf urn : List Char) : List Char :=
  '\n' :: (blockL3 ++ (spdf ++
    '\n' :: (blockL4 ++
    '\n' :: (blockL5a ++ (resolverBase ++ (urn ++
    '\n' :: (blockL6a ++ (resolverBase ++ (urn ++ blockL6b)))))))))

theorem blockChars_decomp (ia spdf urn : List Char) :
    blockChars ia spdf urn =
      preB ++ '|' :: (ia ++ '\x7d' :: '\x7d' :: postB spdf urn) := by
  have h2a : blockL2a = l2aPre ++ ['|'] := by decide
  have h2b : blockL2b = ['\x7d', '\x7d'] := by decide
  simp [blockChars, preB, postB, h2a, h2b]

theorem preB_no_bar : (preB.all fun c => !(c = '|')) = true := by decide

theorem postB_no_bar (spdf urn : List Char) (hpdf : (spdf.all okPdfC) = true)
    (hurn : (urn.all okPdfC) = true) :
    ((postB spdf urn).all fun c => !(c = '|')) = true := by
  have hok : ∀ (l : List Char), (l.all okPdfC) = true →
      (l.all fun c => !(c = '|')) = true := by
    intro l hl
    rw [List.all_eq_true] at hl ⊢
    intro c hc
    have := hl c hc
    simp only [okPdfC, Bool.not_eq_true', Bool.or_eq_false_iff,
      decide_eq_false_iff_not] at this
    simpa using this.1.1
  simp only [postB, List.all_append, List.all_cons, Bool.and_eq_true]
  refine ⟨by decide, by decide, hok _ hpdf, by decide, by decide, by decide,
    by decide, by decide, hok _ hurn, by decide, by decide, by decide,
    hok _ hurn, by decide⟩

theorem blockChars_bar (ia spdf urn : List Char)
    (hia : (ia.all fun c => !isStopC c) = true)
    (hpdf : (spdf.all okPdfC) = true)
    (hurn : (urn.all okPdfC) = true)
    (t : Nat) (hb : (blockChars ia spdf urn).get? t = some '|') :
    ∃ mid2 w0, (blockChars ia spdf urn).drop (t + 1) =
      mid2 ++ '\x7d' :: '\x7d' :: w0 ∧ (mid2.all fun c => !isStopC c) = true := by
  rw [blockChars_decomp] at hb ⊢
  rcases (show t < preB.length ∨ t = preB.length ∨
      (preB.length + 1 ≤ t ∧ t < preB.length + 1 + ia.length) ∨
      preB.length + 1 + ia.length ≤ t from by omega) with hc | hc | hc | hc
  · exfalso
    rw [get?_append_left hc] at hb
    have hm := List.get?_mem hb
    have := preB_no_bar
    rw [List.all_eq_true] at this
    have := this _ hm
    simp at this
  · refine ⟨ia, postB spdf urn, ?_, hia⟩
    rw [hc, drop_append_ge (by omega),
      show preB.length + 1 - preB.length = 1 from by omega]
    simp
  · refine ⟨ia.drop (t - preB.length), postB spdf urn, ?_, all_drop _ _ hia⟩
    rw [drop_append_ge (by omega),
      show t + 1 - preB.length = (t - preB.length - 1) + 1 + 1 from by omega]
    simp only [List.drop_succ_cons]
    rw [drop_append_le (by omega),
      show t - preB.length - 1 + 1 = t - preB.length from by omega]
  · exfalso
    rw [get?_append_right (by omega)] at hb
    have h2 : ('|' :: (ia ++ '\x7d' :: '\x7d' :: postB spdf urn)).get?
        (t - preB.length) = some '|' := hb
    rcases (show t - preB.length = 0 ∨
        ∃ k, t - preB.length = k + 1 ∧ ia.length ≤ k from by
          rcases Nat.eq_zero_or_pos (t - preB.length) with h0 | h0
          · exact Or.inl h0
          · exact Or.inr ⟨t - preB.length - 1, by omega, by omega⟩) with h0 | ⟨k, hk, hkl⟩
    · omega
    · rw [hk] at h2
      simp only [List.get?_cons_succ] at h2
      rw [get?_append_right (by omega)] at h2
      rcases (show k - ia.length = 0 ∨ k - ia.length = 1 ∨
          ∃ k2, k - ia.length = k2 + 2 from by
        rcases (show k - ia.length = 0 ∨ k - ia.length = 1 ∨
            2 ≤ k - ia.length from by omega) with h3 | h3 | h3
        · exact Or.inl h3
        · exact Or.inr (Or.inl h3)
        · exact Or.inr (Or.inr ⟨k - ia.length - 2, by omega⟩)) with h3 | h3 | ⟨k2, h3⟩
      · rw [h3] at h2
        simp at h2
      · rw [h3] at h2
        simp at h2
      · rw [h3] at h2
        simp only [List.get?_cons_succ] at h2
        have hm := List.get?_mem h2
        have := postB_no_bar spdf urn hpdf hurn
        rw [List.all_eq_true] at this
        have := this _ hm
        simp at this

end DW

namespace DW

theorem findAux_nil_none (s : List Char) (fuel : Nat) :
    ∀ i, s.length + 1 ≤ fuel + i → findAux s fuel i = [] →
    ∀ j, i ≤ j → j ≤ s.length → matchAtAbs s j = none := by
  induction fuel with
  | zero =>
    intro i hfuel h j h1 h2
    omega
  | succ f ih =>
    intro i hfuel h j h1 h2
    simp only [findAux] at h
    by_cases hi : i ≤ s.length
    · rw [if_pos hi] at h
      cases hm : matchAtAbs s i with
      | some m => rw [hm] at h; cases h
      | none =>
        rw [hm] at h
        rcases Nat.eq_or_lt_of_le h1 with he | hlt
        · rw [← he]
          exact hm
        · exact ih (i + 1) (by omega) h j (by omega) h2
    · omega

theorem findAux_single (s : List Char) (fuel : Nat) :
    ∀ i, s.length + 1 ≤ fuel + i → ∀ m : Mtch, findAux s fuel i = [m] →
    i ≤ m.start ∧ matchAtAbs s m.start = some m ∧
    (∀ j, i ≤ j → j < m.start → matchAtAbs s j = none) ∧
    (∀ j, m.endPos ≤ j → m.start + 1 ≤ j → j ≤ s.length → matchAtAbs s j = none) := by
  induction fuel with
  | zero =>
    intro i hfuel m h
    cases h
  | succ f ih =>
    intro i hfuel m h
    simp only [findAux] at h
    by_cases hi : i ≤ s.length
    · rw [if_pos hi] at h
      cases hm : matchAtAbs s i with
      | some m0 =>
        rw [hm] at h
        simp only [List.cons.injEq] at h
        obtain ⟨hm0, hrest⟩ := h
        subst hm0
        have hstart : m0.start = i := by
          obtain ⟨r, _, hmk⟩ := matchAtAbs_start s i m0 hm
          rw [hmk]
        refine ⟨by omega, by rw [hstart]; exact hm, by intro j h1 h2; omega, ?_⟩
        intro j hj1 hj2 hj3
        refine findAux_nil_none s f (if m0.endPos ≤ i then i + 1 else m0.endPos)
          (by split <;> omega) hrest j (by split <;> omega) hj3
      | none =>
        rw [hm] at h
        obtain ⟨ih1, ih2, ih3, ih4⟩ := ih (i + 1) (by omega) m h
        refine ⟨by omega, ih2, ?_, ih4⟩
        intro j h1 h2
        rcases Nat.eq_or_lt_of_le h1 with he | hlt
        · rw [← he]
          exact hm
        · exact ih3 j (by omega) h2
    · rw [if_neg hi] at h
      cases h

theorem findAll_single (s : List Char) (m : Mtch) (h : findAll s = [m]) :
    matchAtAbs s m.start = some m ∧
    (∀ j, j < m.start → matchAtAbs s j = none) ∧
    (∀ j, m.endPos ≤ j → m.start + 1 ≤ j → matchAtAbs s j = none) := by
  obtain ⟨h1, h2, h3, h4⟩ :=
    findAux_single s (s.length + 1) 0 (by omega) m h
  refine ⟨h2, fun j hj => h3 j (by omega) hj, fun j hj1 hj2 => ?_⟩
  by_cases hjl : j ≤ s.length
  · exact h4 j hj1 hj2 hjl
  · exact matchAtAbs_none_of_gt s j (by omega)

theorem findAll_nil_of_none (s : List Char) (h : ∀ i, matchAtAbs s i = none) :
    findAll s = [] := by
  have hgen : ∀ fuel i, findAux s fuel i = [] := by
    intro fuel
    induction fuel with
    | zero => intro i; rfl
    | succ f ih =>
      intro i
      simp only [findAux]
      by_cases hi : i ≤ s.length
      · rw [if_pos hi, h i]
        exact ih (i + 1)
      · rw [if_neg hi]
  exact hgen _ 0

end DW

namespace DW

theorem head?_append_some {l w : List Char} {c : Char} (h : l.head? = some c) :
    (l ++ w).head? = some c := by
  cases l with
  | nil => cases h
  | cons a t => simpa using h

theorem matchAtAbs_none_core {s : List Char} {i : Nat}
    (h : matchAtAbs s i = none) : matchCore (s.drop i) = none := by
  cases hc : matchCore (s.drop i) with
  | none => rfl
  | some r =>
    rw [matchAtAbs_of_core hc] at h
    cases h

theorem iaid_on_u_fails (w1 s6 w2 w3 rest u : List Char)
    (hu : u = w1 ++ (s6 ++ (w2 ++ '=' :: (w3 ++ rest))))
    (hw1 : w1.all isWsC = true) (hs6 : ciEqL srcLit s6 = true)
    (hw2 : w2.all isWsC = true) (hw3 : w3.all isWsC = true)
    (hw3n : '\n' ∈ w3)
    (hrh : ∃ c0, rest.head? = some c0 ∧ isWsC c0 = false ∧ c0 ≠ '\x7d')
    (ia : List Char) (c : Nat) (h : iaidCore u = some (ia, c)) : False := by
  obtain ⟨cs, s6t, rfl⟩ : ∃ cs s6t, s6 = cs :: s6t := by
    cases s6 with
    | nil => cases hs6
    | cons a b => exact ⟨a, b, rfl⟩
  have hcs : ciEqC 's' cs = true := by
    have h0 := hs6
    simp only [srcLit, ciEqL, Bool.and_eq_true] at h0
    exact h0.1
  have hcsw : isWsC cs = false :=
    ci_not_ws (show ∃ pc ∈ ['s'], ciEqC pc cs = true from ⟨'s', by simp, hcs⟩)
      (by decide)
  have hcsb : cs ≠ '\x7d' := pred_ne hcs (by decide)
  have hVw : wsCount ((cs :: s6t) ++ (w2 ++ '=' :: (w3 ++ rest))) = 0 :=
    wsCount_zero_of_head _ cs (by simp) hcsw
  have hR : wsCount u = w1.length := by
    rw [hu]
    exact wsCount_run_append _ _ hw1 hVw
  have hRdrop : u.drop (wsCount u) = (cs :: s6t) ++ (w2 ++ '=' :: (w3 ++ rest)) := by
    rw [hR, hu, drop_append_le (le_refl _), List.drop_length]
    simp
  have hRhead : (u.drop (wsCount u)).head? = some cs := by
    rw [hRdrop]
    simp
  have hguard := iaidCore_guard u ia c cs h hRhead hcsb
  have hles : wsCount u + stopCount (u.drop (wsCount u)) +
      wsCount (u.drop (wsCount u + stopCount (u.drop (wsCount u)))) < u.length :=
    drop_head?_lt hguard
  obtain ⟨cF, hcF⟩ : ∃ cF,
      u.get? (wsCount u + stopCount (u.drop (wsCount u))) = some cF := by
    cases hg : u.get? (wsCount u + stopCount (u.drop (wsCount u))) with
    | none => exact absurd (List.get?_eq_none.mp hg) (by omega)
    | some c2 => exact ⟨c2, rfl⟩
  have hstopF : isStopC cF = true := by
    apply stopCount_stop (u.drop (wsCount u)) cF
    rw [head?_drop, List.get?_drop]
    exact hcF
  have hfirst : ∀ i ci, w1.length ≤ i →
      i < wsCount u + stopCount (u.drop (wsCount u)) →
      u.get? i = some ci → isStopC ci = false := by
    intro i ci h1 h2 hg
    have hgd : (u.drop (wsCount u)).get? (i - wsCount u) = some ci := by
      rw [List.get?_drop, show wsCount u + (i - wsCount u) = i from by omega]
      exact hg
    have hmem := mem_take_of_get? (k := stopCount (u.drop (wsCount u))) hgd (by omega)
    have hall := stopCount_take_all (u.drop (wsCount u))
    rw [List.all_eq_true] at hall
    have := hall _ hmem
    simpa using this
  exact absurd hguard
    (P_stop_no_brace w1 (cs :: s6t) w2 w3 rest u
      (wsCount u + stopCount (u.drop (wsCount u))) cF hu hw1 hs6 hw2 hw3 hw3n
      ⟨_, hrh.choose_spec.1, hrh.choose_spec.2.1, hrh.choose_spec.2.2⟩ hcF hstopF hfirst)

theorem iaid_cross_u_fails (w1 s6 w2 w3 rest u L : List Char) (γ : Nat)
    (hu : u = w1 ++ (s6 ++ (w2 ++ '=' :: (w3 ++ rest))))
    (hw1 : w1.all isWsC = true) (hs6 : ciEqL srcLit s6 = true)
    (hw2 : w2.all isWsC = true) (hw3 : w3.all isWsC = true)
    (hw3n : '\n' ∈ w3)
    (hrh : ∃ c0, rest.head? = some c0 ∧ isWsC c0 = false ∧ c0 ≠ '\x7d')
    (hLu : L.drop (γ + 1) = u)
    (ia : List Char) (c : Nat) (h : iaidCore L = some (ia, c))
    (hbar : L.get? γ = some '|') (hγ : γ < c) : False := by
  obtain ⟨hRγ, hγF, hFlen, hguard⟩ := iaidCore_cross L ia c γ h hbar hγ
  obtain ⟨cF, hcF⟩ : ∃ cF,
      L.get? (wsCount L + stopCount (L.drop (wsCount L))) = some cF := by
    cases hg : L.get? (wsCount L + stopCount (L.drop (wsCount L))) with
    | none => exact absurd (List.get?_eq_none.mp hg) (by omega)
    | some c2 => exact ⟨c2, rfl⟩
  have hstopF : isStopC cF = true := by
    apply stopCount_stop (L.drop (wsCount L)) cF
    rw [head?_drop, List.get?_drop]
    exact hcF
  have hσget : u.get? (wsCount L + stopCount (L.drop (wsCount L)) - (γ + 1)) =
      some cF := by
    rw [← hLu, List.get?_drop,
      show γ + 1 + (wsCount L + stopCount (L.drop (wsCount L)) - (γ + 1)) =
        wsCount L + stopCount (L.drop (wsCount L)) from by omega]
    exact hcF
  have hfirst : ∀ i ci, w1.length ≤ i →
      i < wsCount L + stopCount (L.drop (wsCount L)) - (γ + 1) →
      u.get? i = some ci → isStopC ci = false := by
    intro i ci h1 h2 hg
    have hgL : L.get? (γ + 1 + i) = some ci := by
      rw [← List.get?_drop, hLu]
      exact hg
    have hgd : (L.drop (wsCount L)).get? (γ + 1 + i - wsCount L) = some ci := by
      rw [List.get?_drop, show wsCount L + (γ + 1 + i - wsCount L) = γ + 1 + i
        from by omega]
      exact hgL
    have hmem := mem_take_of_get? (k := stopCount (L.drop (wsCount L))) hgd (by omega)
    have hall := stopCount_take_all (L.drop (wsCount L))
    rw [List.all_eq_true] at hall
    have := hall _ hmem
    simpa using this
  have hdF : L.drop (wsCount L + stopCount (L.drop (wsCount L))) =
      u.drop (wsCount L + stopCount (L.drop (wsCount L)) - (γ + 1)) := by
    rw [← hLu, List.drop_drop]
    congr 1
    omega
  have hguard2 : (u.drop (wsCount L + stopCount (L.drop (wsCount L)) - (γ + 1) +
      wsCount (u.drop (wsCount L + stopCount (L.drop (wsCount L)) - (γ + 1))))).head? =
        some '\x7d' := by
    rw [show wsCount (u.drop (wsCount L + stopCount (L.drop (wsCount L)) - (γ + 1))) =
      wsCount (L.drop (wsCount L + stopCount (L.drop (wsCount L)))) from by rw [hdF]]
    rw [show u.drop (wsCount L + stopCount (L.drop (wsCount L)) - (γ + 1) +
      wsCount (L.drop (wsCount L + stopCount (L.drop (wsCount L))))) =
      L.drop (wsCount L + stopCount (L.drop (wsCount L)) +
        wsCount (L.drop (wsCount L + stopCount (L.drop (wsCount L))))) from by
      rw [← hLu, List.drop_drop]
      congr 1
      omega]
    exact hguard
  exact absurd hguard2
    (P_stop_no_brace w1 s6 w2 w3 rest u
      (wsCount L + stopCount (L.drop (wsCount L)) - (γ + 1)) cF hu hw1 hs6 hw2 hw3
      hw3n hrh hσget hstopF hfirst)

end DW

namespace DW

theorem no_match_in_spliced (x : List Char) (m : Mtch) (hf : findAll x = [m])
    (blk : List Char)
    (hb : build_new_source_block (pyStrip m.iaid) (pyStrip m.pdf) = .ok blk)
    (t : Nat) :
    matchAtAbs (x.take m.start ++ ((x.take m.pfxEnd).drop m.start ++
      (blk ++ '\n' :: x.drop m.endPos))) t = none := by
  obtain ⟨FS, F1, F2⟩ := findAll_single x m hf
  obtain ⟨r, hcore, hmk⟩ := matchAtAbs_start x m.start m FS
  have hpfx : m.pfxEnd = m.start + r.pfxEnd := by rw [hmk]
  have hend : m.endPos = m.start + r.endOff := by rw [hmk]
  have hiaid_eq : m.iaid = r.iaid := by rw [hmk]
  have hpdf_eq : m.pdf = r.pdf := by rw [hmk]
  obtain ⟨q, c, e, hh, hmid, hiaidx, htailx, hoff⟩ := matchCore_inv _ r hcore
  obtain ⟨w1, s6, w2, w3, hdec, hw1, hs6, hw2, hw3, hw3g, hpElen, hpEeq⟩ :=
    hdrCore_inv _ _ hh
  have hbarx : x.get? m.start = some '|' := matchAtAbs_bar x m.start m FS
  have hstartlt : m.start < x.length := by
    by_contra hcon
    push_neg at hcon
    have hnone := List.get?_eq_none.mpr (show x.length ≤ m.start from by omega)
    rw [hnone] at hbarx
    cases hbarx
  obtain ⟨urn, hder, hblk⟩ := build_ok_inv _ _ _ hb
  have hia_ns : ((pyStrip m.iaid).all fun ch => !isStopC ch) = true := by
    apply all_pyStrip
    rw [hiaid_eq]
    exact iaidCore_chars _ _ _ hiaidx
  obtain ⟨j2, i14, i15, plen, i16, htj, ht14, htcol, ht15, htp, ht16, hte⟩ :=
    tailCore_inv _ _ _ htailx
  obtain ⟨hpeq2, hppos2, hplen2, hpok2⟩ := pdfCore_inv _ _ _ htp
  have hpdf_ok : ((pyStrip (pyStrip m.pdf)).all okPdfC) = true := by
    apply all_pyStrip
    apply all_pyStrip
    rw [hpdf_eq]
    exact hpok2
  have hurn_ok : (urn.all okPdfC) = true := urn_all_ok _ _ hder
  set A := x.take m.start with hA
  set P := (x.take m.pfxEnd).drop m.start with hP
  set B := blk with hB
  set C := x.drop m.endPos with hC
  set y := A ++ (P ++ (B ++ '\n' :: C)) with hy
  have hAlen : A.length = m.start := by
    rw [hA]
    simp only [List.length_take]
    omega
  have hpElen2 : r.pfxEnd ≤ x.length - m.start := by
    have := hpElen
    simpa using this
  have hPeq : P = (x.drop m.start).take r.pfxEnd := by
    rw [hP, hpfx, List.drop_take]
    congr 1
    omega
  have hPdec : P = '|' :: (w1 ++ (s6 ++ (w2 ++ '=' :: w3))) := by
    rw [hPeq]
    exact hdec
  have hPlen : P.length = r.pfxEnd := by
    rw [hPeq]
    simp only [List.length_take, List.length_drop]
    omega
  have hBhead : B.head? = some 'I' := by
    rw [hblk]
    unfold blockChars
    exact head?_append_some rfl
  have hrestws : wsCount (B ++ '\n' :: C) = 0 :=
    wsCount_zero_of_head _ 'I' (head?_append_some hBhead) (by decide)
  have hw3n : '\n' ∈ w3 := mem_of_getLast? hw3g
  have hyta : y.take m.start = A := by
    rw [hy, ← hAlen, List.take_left]
  have hybar : y.get? m.start = some '|' := by
    rw [hy, get?_append_right (by omega), show m.start - A.length = 0 from by omega,
      hPdec]
    rfl
  set u := w1 ++ (s6 ++ (w2 ++ '=' :: (w3 ++ (B ++ '\n' :: C)))) with hu_def
  have hydrop_at : y.drop m.start = P ++ (B ++ '\n' :: C) := by
    rw [hy, drop_append_ge (by omega), show m.start - A.length = 0 from by omega]
    rfl
  have hyu : y.drop (m.start + 1) = u := by
    rw [hy, drop_append_ge (by omega), show m.start + 1 - A.length = 1 from by omega,
      hPdec, hu_def]
    simp [List.append_assoc]
  have hyB : y.drop (m.start + r.pfxEnd) = B ++ '\n' :: C := by
    rw [hy, drop_append_ge (by omega),
      show m.start + r.pfxEnd - A.length = r.pfxEnd from by omega,
      drop_append_ge (by omega), show r.pfxEnd - P.length = 0 from by omega]
    rfl
  have hyBk : ∀ κ, κ ≤ B.length →
      y.drop (m.start + r.pfxEnd + κ) = B.drop κ ++ '\n' :: C := by
    intro κ hκ
    have h1 := congrArg (List.drop κ) hyB
    rw [List.drop_drop] at h1
    rw [h1]
    exact drop_append_le hκ
  rcases (show t < m.start ∨ t = m.start ∨ (m.start < t ∧ t < m.start + r.pfxEnd) ∨
      (m.start + r.pfxEnd ≤ t ∧ t < m.start + r.pfxEnd + B.length) ∨
      t = m.start + r.pfxEnd + B.length ∨
      m.start + r.pfxEnd + B.length + 1 ≤ t from by omega) with
    hreg | hreg | hreg | hreg | hreg | hreg
  · -- before the splice start: any match would transfer to or cross into x
    cases hM : matchAtAbs y t with
    | none => rfl
    | some M =>
      exfalso
      obtain ⟨r', hcore', hmk'⟩ := matchAtAbs_start y t M hM
      obtain ⟨q', c', e', hh', hmid', hiaid', htail', hoff'⟩ := matchCore_inv _ _ hcore'
      have hq1 : 1 ≤ q' := by
        have := midCore_wsCount_lt _ _ hmid'
        omega
      set β := m.start - t with hβ
      have hβ1 : 1 ≤ β := by omega
      have hybar_rel : (y.drop t).get? β = some '|' := by
        rw [List.get?_drop, show t + β = m.start from by omega]
        exact hybar
      have hyx_take : y.take (m.start + 1) = x.take (m.start + 1) := by
        apply take_succ_agree (c := '|')
        · exact hyta
        · exact hybar
        · exact hbarx
      have hagree : (y.drop t).take (β + 1) = (x.drop t).take (β + 1) := by
        have h2 := take_agree_drop (a := t) hyx_take
        rw [show m.start + 1 - t = β + 1 from by omega] at h2
        exact h2
      by_cases hcross : r'.endOff ≤ β
      · have hdet := matchCore_det (y.drop t) (x.drop t) r' (β + 1) hcore' hagree
          (by omega)
        have h2 := matchAtAbs_of_core (s := x) (i := t) hdet
        rw [F1 t (by omega)] at h2
        cases h2
      · push_neg at hcross
        rcases (show (1 ≤ β ∧ β < r'.pfxEnd) ∨
            (r'.pfxEnd ≤ β ∧ β < r'.pfxEnd + q' - 1) ∨
            β = r'.pfxEnd + q' - 1 ∨
            (r'.pfxEnd + q' ≤ β ∧ β < r'.pfxEnd + q' + c') ∨
            (r'.pfxEnd + q' + c' ≤ β) from by omega) with hr | hr | hr | hr | hr
        · exact hdrCore_no_bar _ _ hh' β hr.1 hr.2 hybar_rel
        · have hbar3 : ((y.drop t).drop r'.pfxEnd).get? (β - r'.pfxEnd) = some '|' := by
            rw [List.get?_drop, show r'.pfxEnd + (β - r'.pfxEnd) = β from by omega]
            exact hybar_rel
          exact midCore_no_bar _ _ hmid' _ (by omega) hbar3
        · have hLi : (y.drop t).drop (r'.pfxEnd + q') = u := by
            rw [List.drop_drop,
              show t + (r'.pfxEnd + q') = m.start + 1 from by omega]
            exact hyu
          rw [hLi] at hiaid'
          exact iaid_on_u_fails w1 s6 w2 w3 (B ++ '\n' :: C) u hu_def
            hw1 hs6 hw2 hw3 hw3n
            ⟨'I', head?_append_some hBhead, by decide, by decide⟩ _ _ hiaid'
        · have hbarL : ((y.drop t).drop (r'.pfxEnd + q')).get?
              (β - (r'.pfxEnd + q')) = some '|' := by
            rw [List.get?_drop,
              show r'.pfxEnd + q' + (β - (r'.pfxEnd + q')) = β from by omega]
            exact hybar_rel
          have hLu : ((y.drop t).drop (r'.pfxEnd + q')).drop
              (β - (r'.pfxEnd + q') + 1) = u := by
            rw [List.drop_drop, List.drop_drop,
              show t + (r'.pfxEnd + q' + (β - (r'.pfxEnd + q') + 1)) = m.start + 1
                from by omega]
            exact hyu
          exact iaid_cross_u_fails w1 s6 w2 w3 (B ++ '\n' :: C) u _
            (β - (r'.pfxEnd + q')) hu_def hw1 hs6 hw2 hw3 hw3n
            ⟨'I', head?_append_some hBhead, by decide, by decide⟩
            hLu _ _ hiaid' hbarL (by omega)
        · have hbar5 : ((y.drop t).drop (r'.pfxEnd + q' + c')).get?
              (β - (r'.pfxEnd + q' + c')) = some '|' := by
            rw [List.get?_drop,
              show r'.pfxEnd + q' + c' + (β - (r'.pfxEnd + q' + c')) = β from by omega]
            exact hybar_rel
          exact tail_no_bar _ _ _ htail' _ (by omega) hbar5
  · -- at the splice start: the header still parses but the middle segment
    -- now faces the replacement block and fails
    have hhdr_y : hdrCore (y.drop t) = some r.pfxEnd := by
      rw [hreg, hydrop_at, hPdec]
      rw [show ('|' :: (w1 ++ (s6 ++ (w2 ++ '=' :: w3)))) ++ (B ++ '\n' :: C) =
        '|' :: (w1 ++ (s6 ++ (w2 ++ '=' :: (w3 ++ (B ++ '\n' :: C))))) from by
          simp [List.append_assoc]]
      rw [hdrCore_eval w1 s6 w2 w3 (B ++ '\n' :: C) hw1 hs6 hw2 hw3 hw3g hrestws]
      rw [hpEeq]
    have hmid_y : midCore ((y.drop t).drop r.pfxEnd) = none := by
      rw [hreg, show (y.drop m.start).drop r.pfxEnd = y.drop (m.start + r.pfxEnd)
        from by rw [List.drop_drop]; all_goals (congr 1 <;> omega)]
      rw [hyB]
      exact midCore_none_head _ 'I' (head?_append_some hBhead) (by decide) (by decide)
    exact matchAtAbs_none (matchCore_none_of_mid hhdr_y hmid_y)
  · -- interior of the preserved header line: no bar there
    cases hM : matchAtAbs y t with
    | none => rfl
    | some M =>
      exfalso
      have hbar := matchAtAbs_bar y t M hM
      rw [hy, get?_append_right (by omega)] at hbar
      rw [get?_append_left (by rw [hPlen]; omega)] at hbar
      rw [hPdec] at hbar
      have hmem : '|' ∈ w1 ++ (s6 ++ (w2 ++ '=' :: w3)) := by
        have h2 : (w1 ++ (s6 ++ (w2 ++ '=' :: w3))).get? (t - A.length - 1) =
            some '|' := by
          cases hidx : t - A.length with
          | zero => omega
          | succ k =>
            rw [hidx] at hbar
            simpa using hbar
        exact List.get?_mem h2
      exact hdr_char_ne_bar hw1 hs6 hw2 hw3 hmem rfl
  · -- inside the replacement block: a bar there is followed by the forced
    -- closing braces before any newline, so the header cannot complete
    cases hM : matchAtAbs y t with
    | none => rfl
    | some M =>
      exfalso
      have hbar := matchAtAbs_bar y t M hM
      set κ := t - (m.start + r.pfxEnd) with hκ
      have hdropt : y.drop t = B.drop κ ++ '\n' :: C := by
        rw [show t = m.start + r.pfxEnd + κ from by omega]
        exact hyBk κ (by omega)
      have hBbar : B.get? κ = some '|' := by
        rw [← head?_drop] at hbar
        rw [hdropt] at hbar
        rw [← head?_drop]
        cases hcase : B.drop κ with
        | nil =>
          have hlen2 : (B.drop κ).length = B.length - κ := by simp
          rw [hcase] at hlen2
          simp at hlen2
          omega
        | cons b bt =>
          rw [hcase] at hbar
          simpa using hbar
      have hBblk : B = blockChars (pyStrip m.iaid) (pyStrip (pyStrip m.pdf)) urn :=
        hblk
      obtain ⟨mid2, w0, hBdrop, hmid2⟩ := blockChars_bar _ _ _ hia_ns hpdf_ok hurn_ok κ
        (by rw [← hBblk]; exact hBbar)
      rw [← hBblk] at hBdrop
      have hcons : B.drop κ = '|' :: B.drop (κ + 1) := by
        cases hcase : B.drop κ with
        | nil =>
          have hlen2 : (B.drop κ).length = B.length - κ := by simp
          rw [hcase] at hlen2
          simp at hlen2
          omega
        | cons b bt =>
          have hb2 : b = '|' := by
            have h3 := hBbar
            rw [← head?_drop, hcase] at h3
            simpa using h3
          subst hb2
          congr 1
          have hdd : (B.drop κ).drop 1 = B.drop (κ + 1) := by
            rw [List.drop_drop]
            all_goals (congr 1 <;> omega)
          rw [hcase] at hdd
          simpa using hdd
      have hyt2 : y.drop t = '|' :: (mid2 ++ '\x7d' :: '\x7d' :: (w0 ++ '\n' :: C)) := by
        rw [hdropt, hcons, hBdrop]
        simp [List.append_assoc]
      have hnone : matchCore (y.drop t) = none := by
        rw [hyt2]
        exact matchCore_none_of_hdr (bar_blocked mid2 _ hmid2)
      have h2 := matchAtAbs_none (s := y) (i := t) hnone
      rw [hM] at h2
      cases h2
  · -- the separating newline
    cases hM : matchAtAbs y t with
    | none => rfl
    | some M =>
      exfalso
      have hbar := matchAtAbs_bar y t M hM
      have hyt2 : y.drop t = '\n' :: C := by
        rw [hreg, hyBk B.length (le_refl _), List.drop_length]
        rfl
      rw [← head?_drop, hyt2] at hbar
      simp at hbar
  · -- the preserved suffix: identical to the corresponding suffix of the
    -- original, where finditer found nothing
    have hyt2 : y.drop t =
        x.drop (m.endPos + (t - (m.start + r.pfxEnd + B.length + 1))) := by
      have h1 := congrArg (List.drop (t - (m.start + r.pfxEnd))) hyB
      rw [List.drop_drop] at h1
      rw [show m.start + r.pfxEnd + (t - (m.start + r.pfxEnd)) = t from by omega] at h1
      rw [h1, drop_append_ge (by omega)]
      rw [show t - (m.start + r.pfxEnd) - B.length =
        (t - (m.start + r.pfxEnd + B.length + 1)) + 1 from by omega]
      simp only [List.drop_succ_cons]
      rw [hC, List.drop_drop]
    have hxnone := F2 (m.endPos + (t - (m.start + r.pfxEnd + B.length + 1)))
      (by omega) (by omega)
    refine matchAtAbs_none ?_
    rw [hyt2]
    exact matchAtAbs_none_core hxnone

end DW

namespace DW

/-- C1: for every page body with at most one match of the old
source-block pattern, applying the transform twice equals applying it
once (`transform (transform x) = transform x` in `Except`-bind form);
in particular the replacement block emitted by a successful transform
contains no match of the old pattern, so the second run finds zero
matches and returns its input unchanged. -/
theorem C1_idempotent (x : List Char) (h : countMatches x ≤ 1) :
    (transform_wikitext x).bind transform_wikitext = transform_wikitext x := by
  cases hf : findAll x with
  | nil =>
    have h0 : transform_wikitext x = .ok x := by
      unfold transform_wikitext
      rw [hf]
    rw [h0]
    simpa [Except.bind] using h0
  | cons m tl =>
    cases tl with
    | cons m2 tl2 =>
      exfalso
      unfold countMatches at h
      rw [hf] at h
      simp at h
    | nil =>
      cases hd : derive_delpher_urn (pyStrip m.iaid) with
      | error err =>
        have hTx : transform_wikitext x = .error err := by
          unfold transform_wikitext
          rw [hf]
          dsimp only []
          rw [hd]
        rw [hTx]
        rfl
      | ok urn0 =>
        cases hbld : build_new_source_block (pyStrip m.iaid) (pyStrip m.pdf) with
        | error err =>
          have hTx : transform_wikitext x = .error err := by
            unfold transform_wikitext
            rw [hf]
            dsimp only []
            rw [hd]
            dsimp only []
            rw [hbld]
          rw [hTx]
          rfl
        | ok blk =>
          have hTx : transform_wikitext x = .ok (x.take m.start ++
              ((x.take m.pfxEnd).drop m.start ++
                (blk ++ '\n' :: x.drop m.endPos))) := by
            unfold transform_wikitext
            rw [hf]
            dsimp only []
            rw [hd]
            dsimp only []
            rw [hbld]
            dsimp only []
            simp only [List.append_assoc]
          have hy_none : findAll (x.take m.start ++
              ((x.take m.pfxEnd).drop m.start ++
                (blk ++ '\n' :: x.drop m.endPos))) = [] :=
            findAll_nil_of_none _ (no_match_in_spliced x m hf blk hbld)
          have hTy : transform_wikitext (x.take m.start ++
              ((x.take m.pfxEnd).drop m.start ++
                (blk ++ '\n' :: x.drop m.endPos))) = .ok (x.take m.start ++
              ((x.take m.pfxEnd).drop m.start ++
                (blk ++ '\n' :: x.drop m.endPos))) := by
            unfold transform_wikitext
            rw [hy_none]
          rw [hTx]
          simpa [Except.bind] using hTy

/-- Witness: the theorem applied at a concrete input. -/
theorem C1_idempotent_witness :
    countMatches [] ≤ 1 ∧
      (transform_wikitext []).bind transform_wikitext = transform_wikitext [] :=
  ⟨by decide, C1_idempotent [] (by decide)⟩

end DW
